import Mathlib

/-!
# Distributed-Hash-Sorting: searchx.cpp and vaultx.cpp

A shallow embedding of the on-disk binary search of `searchx.cpp` and of the
external merge sort of `vaultx.cpp`, with the properties of the specification
proved about the embedded code.

Conventions.
* A byte is a `Nat` (below 256 when it comes from a `uint8_t`), a byte array a
  `List Nat`.
* A `while` loop is a function by structural recursion on a fuel argument and
  returns `none` when the fuel runs out before the loop exits; the theorems
  show that the fuel handed over by the caller is always enough.
* In `vaultx.cpp` every allocation, open, read and write succeeds. Sizes and
  indices of containers in memory (`size_t`, `int`) are natural numbers: a
  buffer that has been allocated and run files that are all open at once are
  within the range of these types. What depends on the exponent (record counts,
  nonces, chunk bounds) is computed modulo 2^64, as the source computes it.
-/

namespace HashSort

/-! ## Constants and records (both files) -/

/-- Constant `#define NONCE_SIZE 6`. -/
def NONCE_SIZE : Nat := 6

/-- Constant `#define HASH_SIZE 10`. -/
def HASH_SIZE : Nat := 10

/-- Constant `static constexpr size_t REC_SIZE = HASH_SIZE + NONCE_SIZE`. -/
def REC_SIZE : Nat := HASH_SIZE + NONCE_SIZE

/-- Structure `struct Record { uint8_t hash[HASH_SIZE]; uint8_t nonce[NONCE_SIZE]; }`. -/
structure Record where
  hash : List Nat
  nonce : List Nat
deriving DecidableEq

/-- The two arrays of a record have their declared sizes and hold bytes. -/
def Record.wf (r : Record) : Prop :=
  r.hash.length = HASH_SIZE ∧ r.nonce.length = NONCE_SIZE ∧
    (∀ b ∈ r.hash, b < 256) ∧ (∀ b ∈ r.nonce, b < 256)

instance (r : Record) : Decidable r.wf :=
  inferInstanceAs (Decidable (r.hash.length = HASH_SIZE ∧ r.nonce.length = NONCE_SIZE ∧
    (∀ b ∈ r.hash, b < 256) ∧ (∀ b ∈ r.nonce, b < 256)))

/-- Library function `std::memcmp(a, b, n)`: the difference of the first pair of bytes that
differ among the first `n`, and 0 when there is none. -/
def memcmp : List Nat → List Nat → Nat → Int
  | x :: a, y :: b, n + 1 => if x ≠ y then (x : Int) - (y : Int) else memcmp a b n
  | _, _, _ => 0

/-- Function `cmp_hash(a, b) = memcmp(a, b, HASH_SIZE)`. -/
def cmp_hash (a b : List Nat) : Int := memcmp a b HASH_SIZE

/-- A record sequence in which every adjacent pair is in non-decreasing hash
order, `cmp_hash(r_i.hash, r_{i+1}.hash) <= 0`. -/
def SortedByHash : List Record → Prop
  | a :: b :: rest => cmp_hash a.hash b.hash ≤ 0 ∧ SortedByHash (b :: rest)
  | _ => True

instance decSortedByHash : (recs : List Record) → Decidable (SortedByHash recs)
  | [] => isTrue trivial
  | [_] => isTrue trivial
  | a :: b :: rest =>
    have := decSortedByHash (b :: rest)
    inferInstanceAs (Decidable (cmp_hash a.hash b.hash ≤ 0 ∧ SortedByHash (b :: rest)))

/-! ## searchx.cpp -/

/-- A file descriptor as `pread(2)` shows it: `pread count off` is the byte
sequence that a positional read of `count` bytes at offset `off` stores in
the buffer, its length being the return value; `none` is the return value -1. -/
structure Fd where
  pread : Nat → Int → Option (List Nat)

/-- The conversion of a `uint64_t` product to the signed 64-bit `off_t`. -/
def to_off_t (x : Nat) : Int :=
  if x % 2 ^ 64 < 2 ^ 63 then ((x % 2 ^ 64 : Nat) : Int)
  else ((x % 2 ^ 64 : Nat) : Int) - 2 ^ 64

/-- The descriptor of a regular file with the given contents, read without
errors: a read delivers the bytes from `off` on, up to `count` of them. -/
def regular_file (bytes : List Nat) : Fd where
  pread := fun count off =>
    if off < 0 then none else some ((bytes.drop off.toNat).take count)

/-- The bytes of a record file: each record is its hash followed by its
nonce, with nothing in between. -/
def serialize (recs : List Record) : List Nat :=
  recs.flatMap (fun r => r.hash ++ r.nonce)

/-- Function `read_hash_at(fd, idx, out_hash)`: `none` is the result `false`, and
`some h` the result `true` with `h` copied to `out_hash`. -/
def read_hash_at (fd : Fd) (idx : Nat) : Option (List Nat) :=
  let off := to_off_t (idx * REC_SIZE)
  match fd.pread REC_SIZE off with
  | none => none
  | some buf => if buf.length ≠ REC_SIZE then none else some (buf.take HASH_SIZE)

/-- The three counters that the bisections take by reference. -/
structure Counters where
  comps : Nat
  seeks : Nat
  reads_ok : Nat
deriving DecidableEq

/-- The loop of `lower_bound_fd`, started with the given `lo` and `hi`. -/
def lower_bound_loop (fd : Fd) (key : List Nat) :
    Nat → Nat → Nat → Counters → Option (Nat × Counters)
  | 0, lo, hi, c => if lo < hi then none else some (lo, c)
  | fuel + 1, lo, hi, c =>
    if lo < hi then
      let mid := lo + ((hi - lo) >>> 1)
      let c1 : Counters := { c with seeks := c.seeks + 1, comps := c.comps + 1 }
      match read_hash_at fd mid with
      | none => some (lo, c1)
      | some h =>
        let c2 : Counters := { c1 with reads_ok := c1.reads_ok + 1 }
        if cmp_hash h key < 0 then lower_bound_loop fd key fuel (mid + 1) hi c2
        else lower_bound_loop fd key fuel lo mid c2
    else some (lo, c)

/-- Function `lower_bound_fd(fd, N, key, comps, seeks, reads_ok)`: the returned index
with the counters after the call. The loop is given `N` steps. -/
def lower_bound_fd (fd : Fd) (N : Nat) (key : List Nat) (c : Counters) :
    Option (Nat × Counters) :=
  lower_bound_loop fd key N 0 N c

/-- The loop of `upper_bound_fd`, started with the given `lo` and `hi`. -/
def upper_bound_loop (fd : Fd) (key : List Nat) :
    Nat → Nat → Nat → Counters → Option (Nat × Counters)
  | 0, lo, hi, c => if lo < hi then none else some (lo, c)
  | fuel + 1, lo, hi, c =>
    if lo < hi then
      let mid := lo + ((hi - lo) >>> 1)
      let c1 : Counters := { c with seeks := c.seeks + 1, comps := c.comps + 1 }
      match read_hash_at fd mid with
      | none => some (lo, c1)
      | some h =>
        let c2 : Counters := { c1 with reads_ok := c1.reads_ok + 1 }
        if cmp_hash h key ≤ 0 then upper_bound_loop fd key fuel (mid + 1) hi c2
        else upper_bound_loop fd key fuel lo mid c2
    else some (lo, c)

/-- Function `upper_bound_fd(fd, N, key, comps, seeks, reads_ok)`: the returned index
with the counters after the call. The loop is given `N` steps. -/
def upper_bound_fd (fd : Fd) (N : Nat) (key : List Nat) (c : Counters) :
    Option (Nat × Counters) :=
  upper_bound_loop fd key N 0 N c

/-- The shape the two bisection loops share, with the test that sends the
search to the right of `mid` as a parameter `p`; `lower_bound_loop` and
`upper_bound_loop` are its two instances, and facts about both are proved on it. -/
def bisect_loop (fd : Fd) (p : List Nat → Bool) :
    Nat → Nat → Nat → Counters → Option (Nat × Counters)
  | 0, lo, hi, c => if lo < hi then none else some (lo, c)
  | fuel + 1, lo, hi, c =>
    if lo < hi then
      let mid := lo + ((hi - lo) >>> 1)
      let c1 : Counters := { c with seeks := c.seeks + 1, comps := c.comps + 1 }
      match read_hash_at fd mid with
      | none => some (lo, c1)
      | some h =>
        let c2 : Counters := { c1 with reads_ok := c1.reads_ok + 1 }
        if p h then bisect_loop fd p fuel (mid + 1) hi c2
        else bisect_loop fd p fuel lo mid c2
    else some (lo, c)

/-- The pairs `(lo, hi)` with which the body of a bisection loop is entered,
in order: one pair for each probe. It follows the recursion of `bisect_loop`. -/
def bisect_states (fd : Fd) (p : List Nat → Bool) : Nat → Nat → Nat → List (Nat × Nat)
  | 0, _, _ => []
  | fuel + 1, lo, hi =>
    if lo < hi then
      let mid := lo + ((hi - lo) >>> 1)
      (lo, hi) ::
        match read_hash_at fd mid with
        | none => []
        | some h =>
          if p h then bisect_states fd p fuel (mid + 1) hi
          else bisect_states fd p fuel lo mid
    else []

/-- The record index `mid` that the loop body probes when entered with the
pair `s = (lo, hi)`. -/
def probe_of (s : Nat × Nat) : Nat := s.1 + ((s.2 - s.1) >>> 1)

/-- The pairs `(lo, hi)` of the iterations of a call of `lower_bound_fd`. -/
def lower_bound_states (fd : Fd) (N : Nat) (key : List Nat) : List (Nat × Nat) :=
  bisect_states fd (fun h => decide (cmp_hash h key < 0)) N 0 N

/-- The pairs `(lo, hi)` of the iterations of a call of `upper_bound_fd`. -/
def upper_bound_states (fd : Fd) (N : Nat) (key : List Nat) : List (Nat × Nat) :=
  bisect_states fd (fun h => decide (cmp_hash h key ≤ 0)) N 0 N

/-- The pair `(lo, hi)` with which a bisection loop is left, by its condition
or by `break`; the function returns its `lo`. It follows the recursion of
`bisect_loop`. -/
def bisect_exit (fd : Fd) (p : List Nat → Bool) : Nat → Nat → Nat → Nat × Nat
  | 0, lo, hi => (lo, hi)
  | fuel + 1, lo, hi =>
    if lo < hi then
      let mid := lo + ((hi - lo) >>> 1)
      match read_hash_at fd mid with
      | none => (lo, hi)
      | some h =>
        if p h then bisect_exit fd p fuel (mid + 1) hi
        else bisect_exit fd p fuel lo mid
    else (lo, hi)

/-- The pair `(lo, hi)` with which a call of `lower_bound_fd` leaves its loop. -/
def lower_bound_exit (fd : Fd) (N : Nat) (key : List Nat) : Nat × Nat :=
  bisect_exit fd (fun h => decide (cmp_hash h key < 0)) N 0 N

/-- The pair `(lo, hi)` with which a call of `upper_bound_fd` leaves its loop. -/
def upper_bound_exit (fd : Fd) (N : Nat) (key : List Nat) : Nat × Nat :=
  bisect_exit fd (fun h => decide (cmp_hash h key ≤ 0)) N 0 N

/-- A descriptor for the examples: a regular file with the given contents,
except that every read at or beyond the byte offset `bad` fails. -/
def failing_file (bytes : List Nat) (bad : Int) : Fd where
  pread := fun count off =>
    if off < 0 ∨ bad ≤ off then none else some ((bytes.drop off.toNat).take count)

/-- Library function `std::memset(dst, v, n)` on an array held as a list. -/
def memset (dst : List Nat) (v n : Nat) : List Nat :=
  List.replicate (min n dst.length) v ++ dst.drop n

/-- Library function `std::memcpy(dst, src, n)` on arrays held as lists. -/
def memcpy (dst src : List Nat) (n : Nat) : List Nat :=
  src.take n ++ dst.drop n

/-- Function `make_prefix_bounds(pfx, D, low, high)`: the pair `(low, high)` left in
the two output arrays of `HASH_SIZE` bytes. -/
def make_prefix_bounds (pfx : List Nat) (D : Nat) : List Nat × List Nat :=
  let low := memset (List.replicate HASH_SIZE 0) 0x00 HASH_SIZE
  let high := memset (List.replicate HASH_SIZE 0) 0xFF HASH_SIZE
  let low := memcpy low pfx D
  let high := memcpy high pfx D
  (low, high)

/-- What one round of the query loop of `main` computes, once the array
`pfx` has been filled: the match count and the counters of the query. -/
def query_matches (fd : Fd) (N : Nat) (pfx : List Nat) (D : Nat) :
    Option (Nat × Counters) :=
  let (low, high) := make_prefix_bounds pfx D
  let c0 : Counters := { comps := 0, seeks := 0, reads_ok := 0 }
  match lower_bound_fd fd N low c0 with
  | none => none
  | some (lo, c1) =>
    match upper_bound_fd fd N high c1 with
    | none => none
    | some (hi, c2) =>
      let m := if hi > lo then hi - lo else 0
      some (m, c2)

/-- The array `pfx` of the query loop: `HASH_SIZE` zero bytes whose first
`D` entries are then overwritten with the drawn bytes `P`. -/
def query_pfx (P : List Nat) (D : Nat) : List Nat :=
  P.take D ++ (List.replicate HASH_SIZE 0).drop D

/-- Every positional read of a record index below the record count succeeds
and delivers the hash of that record. -/
def ReadsSucceed (fd : Fd) (recs : List Record) : Prop :=
  ∀ i, i < recs.length → read_hash_at fd i = (recs[i]?).map Record.hash

instance (fd : Fd) (recs : List Record) : Decidable (ReadsSucceed fd recs) :=
  inferInstanceAs (Decidable
    (∀ i, i < recs.length → read_hash_at fd i = (recs[i]?).map Record.hash))

/-- A small record file for the examples: three records with hashes
`01 00.., 01 00.. and 02 00..`. -/
def sample_records : List Record :=
  [ { hash := [1, 0, 0, 0, 0, 0, 0, 0, 0, 0], nonce := [0, 0, 0, 0, 0, 0] },
    { hash := [1, 0, 0, 0, 0, 0, 0, 0, 0, 0], nonce := [1, 0, 0, 0, 0, 0] },
    { hash := [2, 0, 0, 0, 0, 0, 0, 0, 0, 0], nonce := [2, 0, 0, 0, 0, 0] } ]

example : lower_bound_fd (regular_file (serialize sample_records)) 3
    [1, 0, 0, 0, 0, 0, 0, 0, 0, 0] ⟨0, 0, 0⟩ = some (0, ⟨2, 2, 2⟩) := by decide
example : upper_bound_fd (regular_file (serialize sample_records)) 3
    [1, 0, 0, 0, 0, 0, 0, 0, 0, 0] ⟨0, 0, 0⟩ = some (2, ⟨2, 2, 2⟩) := by decide
example : query_matches (regular_file (serialize sample_records)) 3
    (query_pfx [1] 1) 1 = some (2, ⟨4, 4, 4⟩) := by decide
example : ReadsSucceed (regular_file (serialize sample_records)) sample_records := by decide
example : SortedByHash sample_records := by decide
example : ∀ r ∈ sample_records, r.wf := by decide
example : lower_bound_fd (failing_file (serialize sample_records) 16) 3
    [2, 0, 0, 0, 0, 0, 0, 0, 0, 0] ⟨0, 0, 0⟩ = some (0, ⟨1, 1, 0⟩) := by decide
example : lower_bound_states (regular_file (serialize sample_records)) 3
    [2, 0, 0, 0, 0, 0, 0, 0, 0, 0] = [(0, 3), (2, 3)] := by decide
example : lower_bound_exit (regular_file (serialize sample_records)) 3
    [2, 0, 0, 0, 0, 0, 0, 0, 0, 0] = (2, 2) := by decide
example : lower_bound_exit (failing_file (serialize sample_records) 16) 3
    [2, 0, 0, 0, 0, 0, 0, 0, 0, 0] = (0, 3) := by decide
example : upper_bound_exit (regular_file (serialize sample_records)) 3
    [1, 0, 0, 0, 0, 0, 0, 0, 0, 0] = (2, 2) := by decide

/-- Structure `struct Opt { int k=26; std::string file; size_t searches=1000; int diff=3;
bool debug=false; }` of searchx.cpp. -/
structure Opt where
  k : Int
  file : String
  searches : Nat
  diff : Int
  debug : Bool
deriving DecidableEq

/-- The initial value `Opt o` of `parse`. -/
def Opt.init : Opt := { k := 26, file := "", searches := 1000, diff := 3, debug := false }

/-- The option loop of `parse`. The list holds, in order, what the calls of
`getopt_long` return before -1: the option character `c` with its `optarg`.
The C library functions `atoi` and `strtoull` (base 10) are parameters. The
result `none` is the usage message followed by `std::exit(1)`. -/
def parse_loop (atoi : String → Int) (strtoull : String → Nat) :
    List (Char × String) → Opt → Option Opt
  | [], o => some o
  | (c, optarg) :: rest, o =>
    if c = 'k' then parse_loop atoi strtoull rest { o with k := max 1 (atoi optarg) }
    else if c = 'f' then parse_loop atoi strtoull rest { o with file := optarg }
    else if c = 's' then parse_loop atoi strtoull rest { o with searches := strtoull optarg }
    else if c = 'q' then parse_loop atoi strtoull rest { o with diff := max 1 (atoi optarg) }
    else if c = 'd' then parse_loop atoi strtoull rest { o with debug := (optarg == "true") }
    else none

/-- Function `parse(argc, argv)` of searchx.cpp; `none` is an exit with status 1. -/
def parse (atoi : String → Int) (strtoull : String → Nat) (opts : List (Char × String)) :
    Option Opt :=
  match parse_loop atoi strtoull opts Opt.init with
  | none => none
  | some o =>
    if o.file.isEmpty then none
    else some (if o.diff > (HASH_SIZE : Int) then { o with diff := (HASH_SIZE : Int) } else o)

/-- The decimal value of the leading digits of a character list. -/
def digits_value (ds : List Char) : Nat :=
  (ds.takeWhile Char.isDigit).foldl (fun a d => 10 * a + (d.toNat - 48)) 0

/-- A stand-in for `atoi` in the examples: an optional minus sign and decimal
digits. -/
def sample_atoi (s : String) : Int :=
  match s.data with
  | '-' :: ds => - (digits_value ds : Int)
  | ds => (digits_value ds : Int)

/-- A stand-in for `strtoull` in the examples: decimal digits. -/
def sample_strtoull (s : String) : Nat := digits_value s.data

example : (parse sample_atoi sample_strtoull [('f', "out.bin"), ('q', "-4")]).map Opt.diff
    = some 1 := by decide
example : (parse sample_atoi sample_strtoull [('q', "7"), ('f', "out.bin")]).map Opt.diff
    = some 7 := by decide
example : (parse sample_atoi sample_strtoull [('f', "out.bin"), ('q', "25")]).map Opt.diff
    = some 10 := by decide
example : (parse sample_atoi sample_strtoull [('f', "out.bin")]).map Opt.diff = some 3 := by
  decide
example : parse sample_atoi sample_strtoull [('q', "7")] = none := by decide

/-- The totals that the query loop of `main` keeps, all `uint64_t`. -/
structure Totals where
  total_seeks : Nat
  total_comps : Nat
  total_reads_ok : Nat
  total_matches : Nat
  found_q : Nat
  notfound : Nat
deriving DecidableEq

/-- The totals before the query loop, all 0. -/
def Totals.zero : Totals :=
  { total_seeks := 0, total_comps := 0, total_reads_ok := 0, total_matches := 0,
    found_q := 0, notfound := 0 }

/-- The two lines of the query loop that add the result of a query, its match
count `m` and its counters `c`, to the totals; the sums are taken in 64 bits. -/
def tally (t : Totals) (m : Nat) (c : Counters) : Totals :=
  { total_seeks := (t.total_seeks + c.seeks) % 2 ^ 64,
    total_comps := (t.total_comps + c.comps) % 2 ^ 64,
    total_reads_ok := (t.total_reads_ok + c.reads_ok) % 2 ^ 64,
    total_matches := (t.total_matches + m) % 2 ^ 64,
    found_q := if m > 0 then (t.found_q + 1) % 2 ^ 64 else t.found_q,
    notfound := if m > 0 then t.notfound else (t.notfound + 1) % 2 ^ 64 }

/-- The query loop of `main`: one round for each entry of `draws`, which holds
the `diff` bytes that the random generator delivers for that round; the list
has `opt.searches` entries. The result is the totals after the loop. -/
def query_loop (fd : Fd) (N : Nat) (diff : Nat) : List (List Nat) → Totals → Option Totals
  | [], t => some t
  | P :: rest, t =>
    match query_matches fd N (query_pfx P diff) diff with
    | none => none
    | some (m, c) => query_loop fd N diff rest (tally t m c)

/-- The match counts of the rounds of the query loop, in order. -/
def match_counts (fd : Fd) (N : Nat) (diff : Nat) (draws : List (List Nat)) : List Nat :=
  draws.filterMap (fun P => (query_matches fd N (query_pfx P diff) diff).map Prod.fst)

example : query_loop (regular_file (serialize sample_records)) 3 1 [[1], [5], [2]] Totals.zero
    = some { total_seeks := 12, total_comps := 12, total_reads_ok := 12, total_matches := 3,
             found_q := 2, notfound := 1 } := by decide
example : match_counts (regular_file (serialize sample_records)) 3 1 [[1], [5], [2]]
    = [2, 0, 1] := by decide

/-! ## vaultx.cpp -/

/-- The value of a `uint64_t` (or `size_t`) expression: arithmetic modulo 2^64. -/
def u64 (x : Nat) : Nat := x % 2 ^ 64

/-- Size `sizeof(Record)`, which the `static_assert` fixes to `NONCE_SIZE + HASH_SIZE`. -/
def rec_size : Nat := NONCE_SIZE + HASH_SIZE

/-- Value `Record r{}`: a record of zero bytes. -/
def zero_record : Record :=
  { hash := List.replicate HASH_SIZE 0, nonce := List.replicate NONCE_SIZE 0 }

/-- Function `rec_less(A, B)`. -/
def rec_less (A B : Record) : Bool := decide (cmp_hash A.hash B.hash < 0)

/-- Function `blake3_hash_trunc(nonce, out)`: the array `out` after the call. The
BLAKE3 library is not part of the program; `blake3 input` stands for the
`BLAKE3_OUT_LEN`-byte digest that init, update and finalize produce. -/
def blake3_hash_trunc (blake3 : List Nat → List Nat) (nonce out : List Nat) : List Nat :=
  let full := blake3 (nonce.take NONCE_SIZE)
  memcpy out full HASH_SIZE

/-- The inner loop of `gen_range`: `r.nonce[b] = v & 0xFF; v >>= 8` for `b`
from 0 to `NONCE_SIZE - 1`, returning the nonce array. -/
def encode_nonce (v : Nat) (nonce : List Nat) : List Nat :=
  ((List.range NONCE_SIZE).foldl
    (fun (st : List Nat × Nat) b => (st.1.set b (st.2 &&& 0xFF), st.2 >>> 8)) (nonce, v)).1

/-- The body of the outer loop of `gen_range`: the record stored at `out[i]`
for `v = base_nonce + i`. -/
def gen_record (blake3 : List Nat → List Nat) (v : Nat) : Record :=
  let r := zero_record
  let nonce := encode_nonce v r.nonce
  { hash := blake3_hash_trunc blake3 nonce r.hash, nonce := nonce }

/-- Function `gen_range(base_nonce, start, end, out)`: the buffer `out` after the call. -/
def gen_range (blake3 : List Nat → List Nat) (base_nonce start end_ : Nat)
    (out : List Record) : List Record :=
  (List.range' start (end_ - start)).foldl
    (fun o i => o.set i (gen_record blake3 (u64 (base_nonce + i)))) out

/-- Library function `std::sort(first, last, less)` by its contract: a rearrangement of the
range in which no element is `less` than an earlier one. Which rearrangement
of equal elements it is the contract leaves open; this one is insertion sort. -/
def std_sort (less : Record → Record → Bool) (l : List Record) : List Record :=
  l.insertionSort (fun a b => less b a = false)

/-- Variable `total_records = (uint64_t)1 << opt.exponent_k`. The shift is defined in
C++ for `exponent_k < 64` only, where the count below is `exponent_k` itself;
beyond that the embedding takes what the 64-bit shift instruction of the
compiled program gives, which uses the count modulo 64 (one record for
exponent 64, two for 65). -/
def total_records (exponent_k : Nat) : Nat := u64 (1 <<< (exponent_k % 64))

/-- Variable `max_recs_per_run = std::max<size_t>(1, max_bytes / rec_size)` with
`max_bytes = opt.mem_mb * 1024ULL * 1024ULL`. -/
def max_recs_per_run (mem_mb : Nat) : Nat :=
  let max_bytes := u64 (mem_mb * 1024 * 1024)
  max 1 (max_bytes / rec_size)

/-- The loop of `main` that starts the workers, from thread number `th` on
with `n` thread numbers left, and joins them: the buffer once all have run.
The workers write to index ranges that do not overlap, so the buffer is the
one that running them one after the other in start order leaves. -/
def fill_workers (blake3 : List Nat → List Nat) (produced todo chunk : Nat) :
    Nat → Nat → List Record → List Record
  | 0, _, buf => buf
  | n + 1, th, buf =>
    let start := u64 (th * chunk)
    if start ≥ todo then buf
    else
      let end_ := min todo (u64 (start + chunk))
      fill_workers blake3 produced todo chunk n (th + 1)
        (gen_range blake3 produced start end_ buf)

/-- The arguments `(start, end)` of the `gen_range` calls that the loop of `main`
starting the workers passes to its threads, from thread number `th` on with
`n` thread numbers left, in start order. -/
def worker_ranges (todo chunk : Nat) : Nat → Nat → List (Nat × Nat)
  | 0, _ => []
  | n + 1, th =>
    let start := u64 (th * chunk)
    if start ≥ todo then []
    else
      let end_ := min todo (u64 (start + chunk))
      (start, end_) :: worker_ranges todo chunk n (th + 1)

/-- One pass of the run production loop of `main`: the sorted buffer that is
written to the run file. -/
def produce_run (blake3 : List Nat → List Nat) (T produced todo : Nat) : List Record :=
  let buf := List.replicate todo zero_record
  let chunk := u64 (todo + T - 1) / T
  let buf := fill_workers blake3 produced todo chunk T 0 buf
  std_sort rec_less buf

/-- The run production loop of `main`, `while (produced < total_records)`:
the contents of the run files in the order of `runs`. -/
def produce_runs_loop (blake3 : List Nat → List Nat) (total max_recs T : Nat) :
    Nat → Nat → List (List Record) → Option (List (List Record))
  | 0, produced, runs => if produced < total then none else some runs
  | fuel + 1, produced, runs =>
    if produced < total then
      let todo := min max_recs (u64 (total - produced))
      let buf := produce_run blake3 T produced todo
      produce_runs_loop blake3 total max_recs T fuel (u64 (produced + todo)) (runs ++ [buf])
    else some runs

/-- The state of a `RunReader`: `inp` is what the stream `in` has not yet
delivered, counted in records. -/
structure RunReader where
  inp : List Record
  buf : List Record
  pos : Nat
  eof : Bool
  cap : Nat
deriving DecidableEq

/-- Method `RunReader::refill()`. -/
def RunReader.refill (r : RunReader) : RunReader :=
  if r.eof then r
  else
    let got := r.inp.take r.cap
    let recs := got.length
    let r1 : RunReader := { r with inp := r.inp.drop r.cap, buf := got, pos := 0 }
    if recs = 0 then { r1 with eof := true, buf := [] } else r1

/-- The constructor `RunReader(path, chunk_records)` on a run file that holds
the records `file`. -/
def RunReader.init (file : List Record) (chunk_records : Nat) : RunReader :=
  RunReader.refill
    { inp := file, buf := List.replicate chunk_records zero_record, pos := 0, eof := false,
      cap := chunk_records }

/-- Method `RunReader::has()`. -/
def RunReader.has (r : RunReader) : Bool := !r.eof && decide (r.pos < r.buf.length)

/-- Method `RunReader::peek()`. -/
def RunReader.peek (r : RunReader) : Record := r.buf.getD r.pos zero_record

/-- Method `RunReader::pop()`. -/
def RunReader.pop (r : RunReader) : RunReader :=
  let r1 : RunReader := { r with pos := r.pos + 1 }
  if r1.pos ≥ r1.buf.length then r1.refill else r1

/-- Structure `struct Node { Record rec; int run; }` of `merge_runs`. -/
structure Node where
  rcd : Record
  run : Nat
deriving DecidableEq

/-- Method `Cmp::operator()(a, b)` of `merge_runs`. -/
def Cmp (a b : Node) : Bool := decide (cmp_hash a.rcd.hash b.rcd.hash > 0)

/-- Call `pq.top()` of the `std::priority_queue<Node, std::vector<Node>, Cmp>`, by
its contract: an entry that `Cmp` puts before no other entry, here the first
such entry of the list that holds the queue; `none` when the queue is empty. -/
def pq_top : List Node → Option Node
  | [] => none
  | n :: rest =>
    match pq_top rest with
    | none => some n
    | some m => if Cmp n m then some m else some n

/-- Call `pq.pop()`: the queue without its top entry. -/
def pq_pop (pq : List Node) : List Node :=
  match pq_top pq with
  | none => pq
  | some m => pq.erase m

/-- Call `pq.push(n)`. -/
def pq_push (pq : List Node) (n : Node) : List Node := pq ++ [n]

/-- The variables of `merge_runs`; `out` is what has been written to the
final file. -/
structure MergeState where
  readers : List RunReader
  pq : List Node
  outbuf : List Record
  out : List Record
deriving DecidableEq

/-- The statement `if (readers[i]->has()) { pq.push(Node{readers[i]->peek(), i});
readers[i]->pop(); }`, which `merge_runs` has in both of its loops: the
readers and the queue after it. -/
def push_head (readers : List RunReader) (pq : List Node) (i : Nat) :
    List RunReader × List Node :=
  match readers[i]? with
  | none => (readers, pq)
  | some rd =>
    if rd.has then (readers.set i rd.pop, pq_push pq ⟨rd.peek, i⟩) else (readers, pq)

/-- The loop of `merge_runs` that seeds the queue, from reader number `i` on
with `n` readers left. -/
def seed_loop : Nat → Nat → List RunReader → List Node → List RunReader × List Node
  | 0, _, readers, pq => (readers, pq)
  | n + 1, i, readers, pq =>
    let next := push_head readers pq i
    seed_loop n (i + 1) next.1 next.2

/-- The body of the main loop of `merge_runs`, for the top entry `n`. -/
def merge_step (merge_buf_records : Nat) (st : MergeState) (n : Node) : MergeState :=
  let pq := pq_pop st.pq
  let outbuf := st.outbuf ++ [n.rcd]
  let flush := decide (outbuf.length ≥ merge_buf_records)
  let out := if flush then st.out ++ outbuf else st.out
  let outbuf := if flush then [] else outbuf
  let next := push_head st.readers pq n.run
  { readers := next.1, pq := next.2, outbuf := outbuf, out := out }

/-- The main loop of `merge_runs`, `while (!pq.empty())`. -/
def merge_loop (merge_buf_records : Nat) : Nat → MergeState → Option MergeState
  | 0, st =>
    match pq_top st.pq with
    | none => some st
    | some _ => none
  | fuel + 1, st =>
    match pq_top st.pq with
    | none => some st
    | some n => merge_loop merge_buf_records fuel (merge_step merge_buf_records st n)

/-- Function `merge_runs(runs, final_file, merge_buf_records)` on run files given by
their records: the records of the final file. The main loop is given as many
steps as the run files hold records. The source numbers the readers with an
`int`; they are all open at once, so their number is in its range. -/
def merge_runs (runs : List (List Record)) (merge_buf_records : Nat) :
    Option (List Record) :=
  let readers := runs.map (fun r => RunReader.init r merge_buf_records)
  let seeded := seed_loop readers.length 0 readers []
  match merge_loop merge_buf_records (runs.map List.length).sum
      { readers := seeded.1, pq := seeded.2, outbuf := [], out := [] } with
  | none => none
  | some st => some (if st.outbuf ≠ [] then st.out ++ st.outbuf else st.out)

/-- The readers and the queue after each pass of the loop of `merge_runs` that
seeds the queue, from reader number `i` on with `n` readers left. -/
def seed_states : Nat → Nat → List RunReader → List Node → List (List RunReader × List Node)
  | 0, _, _, _ => []
  | n + 1, i, readers, pq =>
    let next := push_head readers pq i
    next :: seed_states n (i + 1) next.1 next.2

/-- The variables of `merge_runs` after each iteration of its main loop. -/
def merge_states (merge_buf_records : Nat) : Nat → MergeState → List MergeState
  | 0, _ => []
  | fuel + 1, st =>
    match pq_top st.pq with
    | none => []
    | some n =>
      merge_step merge_buf_records st n
        :: merge_states merge_buf_records fuel (merge_step merge_buf_records st n)

/-- The variables of `merge_runs` along a call: once the readers are
constructed, after each pass of the seeding loop, and after each iteration of
the main loop (before which the output buffer is empty). -/
def merge_trace (runs : List (List Record)) (merge_buf_records : Nat) : List MergeState :=
  let readers := runs.map (fun r => RunReader.init r merge_buf_records)
  let seeded := seed_loop readers.length 0 readers []
  ({ readers := readers, pq := [], outbuf := [], out := [] } : MergeState)
    :: (seed_states readers.length 0 readers []).map
        (fun s => ({ readers := s.1, pq := s.2, outbuf := [], out := [] } : MergeState))
    ++ merge_states merge_buf_records (runs.map List.length).sum
        { readers := seeded.1, pq := seeded.2, outbuf := [], out := [] }

/-- The part of `main` of vaultx.cpp that builds the final file, for exponent
`exponent_k`, memory `mem_mb` and `T` worker threads: the records of the final
file. The run production loop is given `total_records` steps. -/
def build_final (blake3 : List Nat → List Nat) (exponent_k mem_mb T : Nat) :
    Option (List Record) :=
  let total := total_records exponent_k
  let max_recs := max_recs_per_run mem_mb
  match produce_runs_loop blake3 total max_recs T total 0 [] with
  | none => none
  | some runs => merge_runs runs 65536

/-- The loop of `print_first` that turns the nonce bytes into the number it
prints: `dec = (dec << 8) | r.nonce[b]` for `b` from `NONCE_SIZE - 1` down to
0, in `unsigned long long`. -/
def decode_nonce (nonce : List Nat) : Nat :=
  (List.range NONCE_SIZE).reverse.foldl (fun dec b => u64 (dec <<< 8) ||| nonce.getD b 0) 0

/-- The state of a `std::ifstream` that is read with `read`: the bytes it has
not yet delivered and whether it is still good. A `read` that meets the end of
the file sets `failbit`, after which a `read` delivers nothing. -/
structure IfStream where
  rest : List Nat
  good : Bool
deriving DecidableEq

/-- Method `in.read(p, n)`: the bytes stored (`in.gcount()` is their number)
and the stream after the call. -/
def IfStream.read (s : IfStream) (n : Nat) : List Nat × IfStream :=
  if s.good then
    let got := s.rest.take n
    (got, { rest := s.rest.drop n, good := decide (got.length = n) })
  else ([], s)

/-- The first `count` entries of a `std::vector<Record>` whose memory holds
the given bytes. -/
def records_of_bytes : Nat → List Nat → List Record
  | 0, _ => []
  | n + 1, bytes =>
    { hash := bytes.take HASH_SIZE, nonce := (bytes.drop HASH_SIZE).take NONCE_SIZE } ::
      records_of_bytes n (bytes.drop rec_size)

/-- A file viewed as its sequence of complete records. -/
def complete_records (bytes : List Nat) : List Record :=
  records_of_bytes (bytes.length / rec_size) bytes

/-- The inner loop of `verify_sorted` over the records of one chunk: the
values of `ok`, `prev` and `have_prev` after it. -/
def verify_chunk : List Record → Record → Bool → Bool × Record × Bool
  | [], prev, have_prev => (true, prev, have_prev)
  | r :: rest, prev, have_prev =>
    if have_prev && decide (cmp_hash prev.hash r.hash > 0) then (false, prev, have_prev)
    else verify_chunk rest r true

/-- The outer loop of `verify_sorted`, `while (true)`, for a chunk of `chunk`
records: the value of `ok` when it is left. -/
def verify_loop (chunk : Nat) : Nat → IfStream → Record → Bool → Option Bool
  | 0, _, _, _ => none
  | fuel + 1, s, prev, have_prev =>
    let rd := s.read (chunk * rec_size)
    let recs := rd.1.length / rec_size
    if recs = 0 then some true
    else
      let res := verify_chunk (records_of_bytes recs rd.1) prev have_prev
      if !res.1 then some false
      else verify_loop chunk fuel rd.2 res.2.1 res.2.2

/-- Function `verify_sorted(final_file, mbps)` on a file that opens and holds the
given bytes, with the chunk size as a parameter: the returned `ok`. The
throughput `mbps` is left out. The loop is given one step for each complete
record and one more. -/
def verify_sorted_chunked (chunk : Nat) (bytes : List Nat) : Option Bool :=
  verify_loop chunk (bytes.length / rec_size + 1) { rest := bytes, good := true }
    zero_record false

/-- Constant `const size_t CHUNK = 1<<18` of `verify_sorted`. -/
def CHUNK : Nat := 1 <<< 18

/-- Function `verify_sorted(final_file, mbps)` with the chunk size of the source. -/
def verify_sorted (bytes : List Nat) : Option Bool := verify_sorted_chunked CHUNK bytes

/-- The order that `verify_sorted` has checked when it holds `prev` and
`have_prev` and the records `recs` follow. -/
def SortedAfter (have_prev : Bool) (prev : Record) (recs : List Record) : Prop :=
  if have_prev then SortedByHash (prev :: recs) else SortedByHash recs

instance (have_prev : Bool) (prev : Record) (recs : List Record) :
    Decidable (SortedAfter have_prev prev recs) :=
  inferInstanceAs
    (Decidable (if have_prev then SortedByHash (prev :: recs) else SortedByHash recs))

/-! ### Notions used in the proofs about `merge_runs` -/

/-- The records a reader has yet to hand over: the rest of its window and
what the stream still holds. -/
def RunReader.remaining (r : RunReader) : List Record := r.buf.drop r.pos ++ r.inp

/-- The condition a reader with capacity at least 1 is in between two calls:
at end of file nothing is left, and otherwise `pos` is inside the window. -/
def RunReader.ok (r : RunReader) : Prop :=
  1 ≤ r.cap ∧ (r.eof = true → r.buf = [] ∧ r.inp = []) ∧
    (r.eof = false → r.pos < r.buf.length)

/-- The records that are in the queue or still with a reader. -/
def content (readers : List RunReader) (pq : List Node) : List Record :=
  pq.map Node.rcd ++ (readers.map RunReader.remaining).flatten

/-- Reader number `r`, if it has records left, has an entry in the queue. -/
def Covered (readers : List RunReader) (pq : List Node) (r : Nat) : Prop :=
  ∀ rd, readers[r]? = some rd → rd.remaining ≠ [] → ∃ n ∈ pq, n.run = r

/-- The order of records by hash, `cmp_hash(a.hash, b.hash) <= 0`. -/
def hle (a b : Record) : Prop := cmp_hash a.hash b.hash ≤ 0

/-- The ordering facts the merge keeps, for output `o` (written or buffered):
all hashes have `HASH_SIZE` bytes, what each reader has left is in order, a
queue entry is not above anything left with its reader, no output record is
above a queue entry, and the output is in order. -/
def SortedInv (rs : List RunReader) (pq : List Node) (o : List Record) : Prop :=
  (∀ x ∈ o ++ content rs pq, x.hash.length = HASH_SIZE) ∧
  (∀ rd ∈ rs, List.Pairwise hle rd.remaining) ∧
  (∀ m ∈ pq, ∀ rd, rs[m.run]? = some rd → ∀ x ∈ rd.remaining, hle m.rcd x) ∧
  (∀ a ∈ o, ∀ m ∈ pq, hle a m.rcd) ∧
  List.Pairwise hle o

/-- The invariant of both loops of `merge_runs`: the readers are between
calls, output, queue and readers together hold the records `all`, and, when
the runs are sorted (`srt`), the ordering facts hold. -/
def MergeInv (all : List Record) (srt : Prop) (rs : List RunReader) (pq : List Node)
    (o : List Record) : Prop :=
  (∀ rd ∈ rs, rd.ok) ∧ (o ++ content rs pq).Perm all ∧ (srt → SortedInv rs pq o)

/-- Every reader has capacity `B` and a window of at most `B` records. -/
def WindowInv (B : Nat) (rs : List RunReader) : Prop :=
  ∀ rd ∈ rs, rd.cap = B ∧ rd.buf.length ≤ B

/-- The queue holds at most one entry per run, and only entries of runs below `k`. -/
def QueueInv (k : Nat) (pq : List Node) : Prop :=
  (pq.map Node.run).Nodup ∧ ∀ n ∈ pq, n.run < k

/-- The `n`-byte little-endian encoding of the number `v`, as the specification
words it: byte `j` is the digit of weight `256 ^ j`. -/
def le_bytes (n v : Nat) : List Nat :=
  (List.range n).map (fun j => v / 256 ^ j % 256)

/-- A buffer of `todo` records of which the first `k` have been generated
for the nonces from `produced` on and the others are still zero. -/
def filled (blake3 : List Nat → List Nat) (produced todo k : Nat) : List Record :=
  (List.range todo).map
    (fun i => if i < k then gen_record blake3 (u64 (produced + i)) else zero_record)

example : verify_sorted_chunked 2 (serialize sample_records ++ [7, 7, 7]) = some true := by
  decide
example : verify_sorted_chunked 1 (serialize sample_records.reverse) = some false := by
  decide
example : complete_records (serialize sample_records ++ [7, 7, 7]) = sample_records := by
  decide

/-- A stand-in for the BLAKE3 digest in the examples: 32 bytes made from the
input bytes. -/
def sample_digest (input : List Nat) : List Nat :=
  (List.range 32).map (fun i => (input.foldl (fun a b => (a * 31 + b + 7) % 256) i * 37) % 256)

/-- Two sorted run files for the examples. -/
def sample_runs : List (List Record) :=
  [ [ { hash := [1, 0, 0, 0, 0, 0, 0, 0, 0, 0], nonce := [0, 0, 0, 0, 0, 0] },
      { hash := [3, 0, 0, 0, 0, 0, 0, 0, 0, 0], nonce := [1, 0, 0, 0, 0, 0] },
      { hash := [3, 0, 0, 0, 0, 0, 0, 0, 0, 5], nonce := [2, 0, 0, 0, 0, 0] } ],
    [ { hash := [2, 0, 0, 0, 0, 0, 0, 0, 0, 0], nonce := [3, 0, 0, 0, 0, 0] },
      { hash := [3, 0, 0, 0, 0, 0, 0, 0, 0, 0], nonce := [4, 0, 0, 0, 0, 0] } ] ]

example : (merge_runs sample_runs 2).map (fun l => l.map (fun r => r.nonce.head!))
    = some [0, 3, 1, 4, 2] := by decide
example : (merge_trace sample_runs 2).map
    (fun st => (st.pq.map Node.run, st.outbuf.length, st.readers.map (fun r => r.buf.length)))
  = [([], 0, [2, 2]), ([0], 0, [2, 2]), ([0, 1], 0, [2, 2]), ([1, 0], 1, [1, 2]),
     ([0, 1], 0, [1, 0]), ([1, 0], 1, [0, 0]), ([0], 0, [0, 0]), ([], 1, [0, 0])] := by decide
example : worker_ranges 10 3 4 0 = [(0, 3), (3, 6), (6, 9), (9, 10)] := by decide
example : total_records 14 = 16384 ∧ total_records 63 = 2 ^ 63 := by decide
example : total_records 64 = 1 ∧ total_records 65 = 2 ∧ total_records 66 = 4 := by decide
example : worker_ranges 4 1 8 0 = [(0, 1), (1, 2), (2, 3), (3, 4)] := by decide
example : le_bytes NONCE_SIZE 0x010203 = [3, 2, 1, 0, 0, 0] := by decide
example : (build_final sample_digest 3 1 2).map List.length = some 8 := by decide
example : gen_record sample_digest 258
    = { hash := (sample_digest [2, 1, 0, 0, 0, 0]).take 10, nonce := [2, 1, 0, 0, 0, 0] } := by
  decide

/-! ## The order of `cmp_hash` -/

theorem memcmp_self (a : List Nat) (n : Nat) : memcmp a a n = 0 := by
  induction a generalizing n with
  | nil => simp [memcmp]
  | cons x a ih =>
    cases n with
    | zero => simp [memcmp]
    | succ n => simp [memcmp, ih]

theorem memcmp_swap_neg (a b : List Nat) (n : Nat) :
    memcmp a b n < 0 ↔ 0 < memcmp b a n := by
  induction a generalizing b n with
  | nil => cases b <;> simp [memcmp]
  | cons x a ih =>
    cases b with
    | nil => simp [memcmp]
    | cons y b =>
      cases n with
      | zero => simp [memcmp]
      | succ n =>
        by_cases hxy : x = y
        · subst hxy; simpa [memcmp] using ih b n
        · have hyx : ¬ y = x := fun h => hxy h.symm
          simp only [memcmp, ne_eq, hxy, hyx, not_false_eq_true, if_true]
          omega

theorem memcmp_swap_pos (a b : List Nat) (n : Nat) :
    0 < memcmp a b n ↔ memcmp b a n < 0 :=
  (memcmp_swap_neg b a n).symm

theorem memcmp_eq_zero (a b : List Nat) (n : Nat) (ha : a.length = n) (hb : b.length = n)
    (h : memcmp a b n = 0) : a = b := by
  induction a generalizing b n with
  | nil =>
    cases b with
    | nil => rfl
    | cons y b => simp at ha; subst ha; simp at hb
  | cons x a ih =>
    cases b with
    | nil => simp at hb; subst hb; simp at ha
    | cons y b =>
      cases n with
      | zero => simp at ha
      | succ n =>
        simp only [List.length_cons, Nat.add_right_cancel_iff] at ha hb
        by_cases hxy : x = y
        · subst hxy
          simp only [memcmp, ne_eq, not_true_eq_false, if_false] at h
          rw [ih b n ha hb h]
        · simp only [memcmp, ne_eq, hxy, not_false_eq_true, if_true] at h
          omega

theorem memcmp_le_trans (a b c : List Nat) (n : Nat) (ha : a.length = n)
    (hb : b.length = n) (hc : c.length = n)
    (hab : memcmp a b n ≤ 0) (hbc : memcmp b c n ≤ 0) : memcmp a c n ≤ 0 := by
  induction a generalizing b c n with
  | nil => simp [memcmp]
  | cons x a ih =>
    cases n with
    | zero => simp at ha
    | succ n =>
      cases b with
      | nil => simp at hb
      | cons y b =>
        cases c with
        | nil => simp at hc
        | cons z c =>
          simp only [List.length_cons, Nat.add_right_cancel_iff] at ha hb hc
          simp only [memcmp, ne_eq] at hab hbc ⊢
          by_cases hxy : x = y
          · subst hxy
            by_cases hxz : x = z
            · subst hxz
              simp only [not_true_eq_false, if_false] at hab hbc ⊢
              exact ih b c n ha hb hc hab hbc
            · simp only [hxz, not_false_eq_true, if_true] at hbc ⊢
              exact hbc
          · simp only [hxy, not_false_eq_true, if_true] at hab
            by_cases hyz : y = z
            · subst hyz
              simp only [hxy, not_false_eq_true, if_true]
              exact hab
            · simp only [hyz, not_false_eq_true, if_true] at hbc
              have hxz : ¬ x = z := by omega
              simp only [hxz, not_false_eq_true, if_true]
              omega

theorem cmp_hash_self (a : List Nat) : cmp_hash a a = 0 := memcmp_self a HASH_SIZE

theorem cmp_hash_total (a b : List Nat) : cmp_hash a b ≤ 0 ∨ cmp_hash b a ≤ 0 := by
  by_cases h : cmp_hash a b ≤ 0
  · exact Or.inl h
  · right
    have h1 : 0 < memcmp a b HASH_SIZE := by unfold cmp_hash at h; omega
    have h2 := (memcmp_swap_pos a b HASH_SIZE).1 h1
    unfold cmp_hash; omega

theorem cmp_hash_lt_iff_not_ge (a b : List Nat) : cmp_hash a b < 0 ↔ ¬ cmp_hash b a ≤ 0 := by
  unfold cmp_hash
  rw [memcmp_swap_neg]; omega

theorem cmp_hash_le_trans {a b c : List Nat} (ha : a.length = HASH_SIZE)
    (hb : b.length = HASH_SIZE) (hc : c.length = HASH_SIZE)
    (hab : cmp_hash a b ≤ 0) (hbc : cmp_hash b c ≤ 0) : cmp_hash a c ≤ 0 :=
  memcmp_le_trans a b c HASH_SIZE ha hb hc hab hbc

theorem cmp_hash_le_lt_trans {a b c : List Nat} (ha : a.length = HASH_SIZE)
    (hb : b.length = HASH_SIZE) (hc : c.length = HASH_SIZE)
    (hab : cmp_hash a b ≤ 0) (hbc : cmp_hash b c < 0) : cmp_hash a c < 0 := by
  rw [cmp_hash_lt_iff_not_ge] at hbc ⊢
  intro hca
  exact hbc (cmp_hash_le_trans hc ha hb hca hab)

theorem cmp_hash_lt_le_trans {a b c : List Nat} (ha : a.length = HASH_SIZE)
    (hb : b.length = HASH_SIZE) (hc : c.length = HASH_SIZE)
    (hab : cmp_hash a b < 0) (hbc : cmp_hash b c ≤ 0) : cmp_hash a c < 0 := by
  rw [cmp_hash_lt_iff_not_ge] at hab ⊢
  intro hca
  exact hab (cmp_hash_le_trans hb hc ha hbc hca)

theorem cmp_hash_eq_of_le_of_ge {a b : List Nat} (ha : a.length = HASH_SIZE)
    (hb : b.length = HASH_SIZE) (hab : cmp_hash a b ≤ 0) (hba : cmp_hash b a ≤ 0) :
    a = b := by
  apply memcmp_eq_zero a b HASH_SIZE ha hb
  have hab1 : memcmp a b HASH_SIZE ≤ 0 := hab
  have hba1 : memcmp b a HASH_SIZE ≤ 0 := hba
  have h1 : ¬ memcmp a b HASH_SIZE < 0 := by
    rw [memcmp_swap_neg]; omega
  omega

/-! ## Bisection -/

theorem lower_bound_loop_eq_bisect (fd : Fd) (key : List Nat) (fuel lo hi : Nat)
    (c : Counters) :
    lower_bound_loop fd key fuel lo hi c
      = bisect_loop fd (fun h => decide (cmp_hash h key < 0)) fuel lo hi c := by
  induction fuel generalizing lo hi c with
  | zero => simp [lower_bound_loop, bisect_loop]
  | succ n ih =>
    simp only [lower_bound_loop, bisect_loop, decide_eq_true_eq]
    split
    · split
      · rfl
      · split <;> exact ih _ _ _
    · rfl

theorem upper_bound_loop_eq_bisect (fd : Fd) (key : List Nat) (fuel lo hi : Nat)
    (c : Counters) :
    upper_bound_loop fd key fuel lo hi c
      = bisect_loop fd (fun h => decide (cmp_hash h key ≤ 0)) fuel lo hi c := by
  induction fuel generalizing lo hi c with
  | zero => simp [upper_bound_loop, bisect_loop]
  | succ n ih =>
    simp only [upper_bound_loop, bisect_loop, decide_eq_true_eq]
    split
    · split
      · rfl
      · split <;> exact ih _ _ _
    · rfl

/-- Whatever the descriptor delivers, the loop ends when it is given at least
`hi - lo` steps. -/
theorem bisect_loop_total (fd : Fd) (p : List Nat → Bool) :
    ∀ fuel lo hi c, hi - lo ≤ fuel → ∃ res, bisect_loop fd p fuel lo hi c = some res := by
  intro fuel
  induction fuel with
  | zero =>
    intro lo hi c h
    have : ¬ lo < hi := by omega
    exact ⟨(lo, c), by simp [bisect_loop, this]⟩
  | succ n ih =>
    intro lo hi c h
    by_cases hlt : lo < hi
    · have hdiv : (hi - lo) >>> 1 = (hi - lo) / 2 := by
        simp [Nat.shiftRight_eq_div_pow]
      simp only [bisect_loop, hlt, if_true, hdiv]
      cases read_hash_at fd (lo + (hi - lo) / 2) with
      | none => exact ⟨_, rfl⟩
      | some h1 =>
        by_cases hp : p h1 = true
        · simp only [hp, if_true]
          exact ih _ _ _ (by omega)
        · simp only [hp]
          exact ih _ _ _ (by omega)
    · exact ⟨(lo, c), by simp [bisect_loop, hlt]⟩

/-- With all reads succeeding and `p` holding on an initial segment of the
records only, the loop ends at the boundary of that segment. -/
theorem bisect_loop_partition (fd : Fd) (p : List Nat → Bool) (recs : List Record)
    (hread : ReadsSucceed fd recs)
    (hmono : ∀ (i j : Nat) (a b : Record), i ≤ j → recs[i]? = some a → recs[j]? = some b →
      p b.hash = true → p a.hash = true) :
    ∀ fuel lo hi c, lo ≤ hi → hi ≤ recs.length → hi - lo ≤ fuel →
      (∀ i a, i < lo → recs[i]? = some a → p a.hash = true) →
      (∀ i a, hi ≤ i → recs[i]? = some a → p a.hash = false) →
      ∃ res c', bisect_loop fd p fuel lo hi c = some (res, c') ∧ res ≤ recs.length ∧
        (∀ i a, i < res → recs[i]? = some a → p a.hash = true) ∧
        (∀ i a, res ≤ i → recs[i]? = some a → p a.hash = false) := by
  intro fuel
  induction fuel with
  | zero =>
    intro lo hi c hlh hhi hfuel hlo hhi2
    have : lo = hi := by omega
    subst this
    exact ⟨lo, c, by simp [bisect_loop], hhi, hlo, hhi2⟩
  | succ n ih =>
    intro lo hi c hlh hhi hfuel hlo hhi2
    by_cases hlt : lo < hi
    · have hdiv : (hi - lo) >>> 1 = (hi - lo) / 2 := by
        simp [Nat.shiftRight_eq_div_pow]
      have hmid1 : lo ≤ lo + (hi - lo) / 2 := by omega
      have hmid2 : lo + (hi - lo) / 2 < hi := by omega
      have hmidN : lo + (hi - lo) / 2 < recs.length := by omega
      have hr := hread _ hmidN
      rw [List.getElem?_eq_getElem hmidN] at hr
      simp only [Option.map_some'] at hr
      simp only [bisect_loop, hlt, if_true, hdiv, hr]
      by_cases hp : p (recs[lo + (hi - lo) / 2]).hash = true
      · simp only [hp, if_true]
        apply ih _ _ _ (by omega) hhi (by omega) _ hhi2
        intro i a hi1 hia
        exact hmono i (lo + (hi - lo) / 2) a _ (by omega) hia
          (List.getElem?_eq_getElem hmidN) hp
      · simp only [hp]
        apply ih _ _ _ (by omega) (by omega) (by omega) hlo
        intro i a hi1 hia
        cases hpa : p a.hash with
        | false => rfl
        | true =>
          exact absurd (hmono (lo + (hi - lo) / 2) i _ a hi1
            (List.getElem?_eq_getElem hmidN) hia hpa) hp
    · have : lo = hi := by omega
      subst this
      exact ⟨lo, c, by simp [bisect_loop], hhi, hlo, hhi2⟩

/-- An index that splits the records into those with `p` and those without is
the first index without `p`, and the record count when all have `p`. -/
theorem findIdx_of_partition (p : List Nat → Bool) (recs : List Record) (res : Nat)
    (hres : res ≤ recs.length)
    (h1 : ∀ i a, i < res → recs[i]? = some a → p a.hash = true)
    (h2 : ∀ i a, res ≤ i → recs[i]? = some a → p a.hash = false) :
    recs.findIdx (fun r => !p r.hash) = res := by
  by_cases hlt : res < recs.length
  · rw [List.findIdx_eq hlt]
    constructor
    · simp [h2 res _ (Nat.le_refl _) (List.getElem?_eq_getElem hlt)]
    · intro j hj
      simp [h1 j _ hj (List.getElem?_eq_getElem (by omega))]
  · have : res = recs.length := by omega
    subst this
    rw [List.findIdx_eq_length]
    intro x hx
    obtain ⟨i, hi, rfl⟩ := List.getElem_of_mem hx
    simp [h1 i _ hi (List.getElem?_eq_getElem hi)]

/-- The same index is the number of records with `p`. -/
theorem countP_of_partition (p : List Nat → Bool) (recs : List Record) (res : Nat)
    (hres : res ≤ recs.length)
    (h1 : ∀ i a, i < res → recs[i]? = some a → p a.hash = true)
    (h2 : ∀ i a, res ≤ i → recs[i]? = some a → p a.hash = false) :
    recs.countP (fun r => p r.hash) = res := by
  have hsplit : recs = recs.take res ++ recs.drop res := (List.take_append_drop res recs).symm
  rw [hsplit, List.countP_append]
  have ha : (recs.take res).countP (fun r => p r.hash) = res := by
    have : (recs.take res).countP (fun r => p r.hash) = (recs.take res).length := by
      rw [List.countP_eq_length]
      intro a ha
      obtain ⟨i, hi, rfl⟩ := List.getElem_of_mem ha
      have hi2 : i < res := by simpa using (List.length_take_le res recs |> Nat.lt_of_lt_of_le hi)
      apply h1 i _ hi2
      rw [List.getElem_take]
      exact List.getElem?_eq_getElem _
    rw [this, List.length_take]; omega
  have hb : (recs.drop res).countP (fun r => p r.hash) = 0 := by
    rw [List.countP_eq_zero]
    intro a ha
    obtain ⟨i, hi, rfl⟩ := List.getElem_of_mem ha
    rw [List.getElem_drop]
    simp [h2 (res + i) _ (by omega) (List.getElem?_eq_getElem _)]
  omega

theorem read_hash_at_length (fd : Fd) (idx : Nat) (h : List Nat)
    (hr : read_hash_at fd idx = some h) : h.length = HASH_SIZE := by
  unfold read_hash_at at hr
  simp only [ne_eq, ite_not] at hr
  split at hr
  · simp at hr
  · split at hr
    · simp only [Option.some.injEq] at hr
      subst hr
      rename_i hlen
      rw [List.length_take, hlen]
      simp [REC_SIZE]
    · simp at hr

theorem hash_length_of_reads (fd : Fd) (recs : List Record) (hread : ReadsSucceed fd recs) :
    ∀ r ∈ recs, r.hash.length = HASH_SIZE := by
  intro r hr
  obtain ⟨i, hi, rfl⟩ := List.getElem_of_mem hr
  have h := hread i hi
  rw [List.getElem?_eq_getElem hi] at h
  exact read_hash_at_length fd i _ h

theorem serialize_cons (r : Record) (recs : List Record) :
    serialize (r :: recs) = (r.hash ++ r.nonce) ++ serialize recs := by
  simp [serialize]

theorem serialize_drop (recs : List Record)
    (hwf : ∀ r ∈ recs, r.hash.length = HASH_SIZE ∧ r.nonce.length = NONCE_SIZE) (i : Nat) :
    (serialize recs).drop (i * REC_SIZE) = serialize (recs.drop i) := by
  induction recs generalizing i with
  | nil => simp [serialize]
  | cons r recs ih =>
    cases i with
    | zero => simp
    | succ i =>
      obtain ⟨h1, h2⟩ := hwf r (List.mem_cons_self _ _)
      have hlen : (r.hash ++ r.nonce).length = REC_SIZE := by
        simp [h1, h2, REC_SIZE]
      have ih1 := ih (fun x hx => hwf x (List.mem_cons_of_mem _ hx)) i
      have hs := serialize_cons r recs
      rw [hs, Nat.add_mul, Nat.one_mul, Nat.add_comm, ← List.drop_drop, ← hlen,
        List.drop_left, hlen, ih1]
      simp

/-- A regular file that holds the serialized records, read without errors and
small enough for its offsets to fit `off_t`, answers every positional read of
a record index with that record. -/
theorem reads_succeed_regular_file (recs : List Record)
    (hwf : ∀ r ∈ recs, r.hash.length = HASH_SIZE ∧ r.nonce.length = NONCE_SIZE)
    (hsize : recs.length * REC_SIZE < 2 ^ 63) :
    ReadsSucceed (regular_file (serialize recs)) recs := by
  intro i hi
  have hlt : i * REC_SIZE < 2 ^ 63 := by
    have : i * REC_SIZE ≤ recs.length * REC_SIZE := Nat.mul_le_mul_right _ (by omega)
    omega
  have hoff : to_off_t (i * REC_SIZE) = ((i * REC_SIZE : Nat) : Int) := by
    unfold to_off_t
    have h64 : i * REC_SIZE % 2 ^ 64 = i * REC_SIZE := Nat.mod_eq_of_lt (by omega)
    rw [h64, if_pos hlt]
  obtain ⟨h1, h2⟩ := hwf recs[i] (List.getElem_mem _)
  have hdrop : recs.drop i = recs[i] :: recs.drop (i + 1) := List.drop_eq_getElem_cons hi
  have hbytes : ((serialize recs).drop (i * REC_SIZE)).take REC_SIZE
      = recs[i].hash ++ recs[i].nonce := by
    rw [serialize_drop recs hwf i, hdrop]
    have hs := serialize_cons recs[i] (recs.drop (i + 1))
    have hlen : (recs[i].hash ++ recs[i].nonce).length = REC_SIZE := by
      simp [h1, h2, REC_SIZE]
    rw [hs, ← hlen, List.take_left]
  unfold read_hash_at regular_file
  simp only [hoff, Int.toNat_ofNat, hbytes]
  have hneg : ¬ ((i * REC_SIZE : Nat) : Int) < 0 := by omega
  simp only [hneg, if_false, List.length_append, h1, h2, ne_eq]
  rw [List.getElem?_eq_getElem hi]
  simp [REC_SIZE, ← h1]

theorem pairwise_of_sorted (recs : List Record) (hs : SortedByHash recs)
    (hlen : ∀ r ∈ recs, r.hash.length = HASH_SIZE) :
    List.Pairwise (fun a b => cmp_hash a.hash b.hash ≤ 0) recs := by
  induction recs with
  | nil => exact List.Pairwise.nil
  | cons a rest ih =>
    cases rest with
    | nil => exact List.pairwise_singleton _ _
    | cons b rest =>
      obtain ⟨hab, hrest⟩ := hs
      have hp := ih hrest (fun r hr => hlen r (List.mem_cons_of_mem _ hr))
      refine List.Pairwise.cons ?_ hp
      intro x hx
      rcases List.mem_cons.1 hx with rfl | hx
      · exact hab
      · have hbx := List.rel_of_pairwise_cons hp hx
        exact cmp_hash_le_trans (hlen a (List.mem_cons_self _ _))
          (hlen b (List.mem_cons_of_mem _ (List.mem_cons_self _ _)))
          (hlen x (List.mem_cons_of_mem _ (List.mem_cons_of_mem _ hx))) hab hbx

theorem sorted_of_pairwise (recs : List Record)
    (hp : List.Pairwise (fun a b => cmp_hash a.hash b.hash ≤ 0) recs) :
    SortedByHash recs := by
  induction recs with
  | nil => trivial
  | cons a rest ih =>
    cases rest with
    | nil => trivial
    | cons b rest =>
      exact ⟨List.rel_of_pairwise_cons hp (List.mem_cons_self _ _), ih (List.Pairwise.of_cons hp)⟩

theorem sorted_index_le (recs : List Record) (hs : SortedByHash recs)
    (hlen : ∀ r ∈ recs, r.hash.length = HASH_SIZE) (i j : Nat) (a b : Record)
    (hij : i ≤ j) (hi : recs[i]? = some a) (hj : recs[j]? = some b) :
    cmp_hash a.hash b.hash ≤ 0 := by
  rcases Nat.eq_or_lt_of_le hij with heq | hlt
  · subst heq
    rw [hi] at hj
    simp only [Option.some.injEq] at hj
    subst hj
    rw [cmp_hash_self]
  · have hp := pairwise_of_sorted recs hs hlen
    rw [List.pairwise_iff_getElem] at hp
    obtain ⟨hi1, hi2⟩ := List.getElem?_eq_some_iff.1 hi
    obtain ⟨hj1, hj2⟩ := List.getElem?_eq_some_iff.1 hj
    have := hp i j hi1 hj1 hlt
    rw [hi2, hj2] at this
    exact this

/-- On a sorted file read without failures, `lower_bound_fd` returns the index
that separates the records with hash below `key` from the others. -/
theorem lower_bound_fd_partition (fd : Fd) (recs : List Record) (key : List Nat)
    (c : Counters) (hsorted : SortedByHash recs) (hread : ReadsSucceed fd recs)
    (hkey : key.length = HASH_SIZE) :
    ∃ res c', lower_bound_fd fd recs.length key c = some (res, c') ∧ res ≤ recs.length ∧
      (∀ i a, i < res → recs[i]? = some a → cmp_hash a.hash key < 0) ∧
      (∀ i a, res ≤ i → recs[i]? = some a → ¬ cmp_hash a.hash key < 0) := by
  have hlen := hash_length_of_reads fd recs hread
  have hmono : ∀ (i j : Nat) (a b : Record), i ≤ j → recs[i]? = some a → recs[j]? = some b →
      decide (cmp_hash b.hash key < 0) = true → decide (cmp_hash a.hash key < 0) = true := by
    intro i j a b hij hi hj hb
    simp only [decide_eq_true_eq] at hb ⊢
    exact cmp_hash_le_lt_trans (hlen a (List.getElem?_mem hi))
      (hlen b (List.getElem?_mem hj)) hkey
      (sorted_index_le recs hsorted hlen i j a b hij hi hj) hb
  obtain ⟨res, c', h1, h2, h3, h4⟩ :=
    bisect_loop_partition fd (fun h => decide (cmp_hash h key < 0)) recs hread hmono
      recs.length 0 recs.length c (Nat.zero_le _) (Nat.le_refl _) (by omega)
      (by intro i a hi; omega)
      (by
        intro i a hi hia
        have := (List.getElem?_eq_some_iff.1 hia).1
        omega)
  refine ⟨res, c', ?_, h2, ?_, ?_⟩
  · rw [lower_bound_fd, lower_bound_loop_eq_bisect]; exact h1
  · intro i a hi hia; simpa using h3 i a hi hia
  · intro i a hi hia; simpa using h4 i a hi hia

/-- On a sorted file read without failures, `upper_bound_fd` returns the index
that separates the records with hash at most `key` from the others. -/
theorem upper_bound_fd_partition (fd : Fd) (recs : List Record) (key : List Nat)
    (c : Counters) (hsorted : SortedByHash recs) (hread : ReadsSucceed fd recs)
    (hkey : key.length = HASH_SIZE) :
    ∃ res c', upper_bound_fd fd recs.length key c = some (res, c') ∧ res ≤ recs.length ∧
      (∀ i a, i < res → recs[i]? = some a → cmp_hash a.hash key ≤ 0) ∧
      (∀ i a, res ≤ i → recs[i]? = some a → ¬ cmp_hash a.hash key ≤ 0) := by
  have hlen := hash_length_of_reads fd recs hread
  have hmono : ∀ (i j : Nat) (a b : Record), i ≤ j → recs[i]? = some a → recs[j]? = some b →
      decide (cmp_hash b.hash key ≤ 0) = true → decide (cmp_hash a.hash key ≤ 0) = true := by
    intro i j a b hij hi hj hb
    simp only [decide_eq_true_eq] at hb ⊢
    exact cmp_hash_le_trans (hlen a (List.getElem?_mem hi))
      (hlen b (List.getElem?_mem hj)) hkey
      (sorted_index_le recs hsorted hlen i j a b hij hi hj) hb
  obtain ⟨res, c', h1, h2, h3, h4⟩ :=
    bisect_loop_partition fd (fun h => decide (cmp_hash h key ≤ 0)) recs hread hmono
      recs.length 0 recs.length c (Nat.zero_le _) (Nat.le_refl _) (by omega)
      (by intro i a hi; omega)
      (by
        intro i a hi hia
        have := (List.getElem?_eq_some_iff.1 hia).1
        omega)
  refine ⟨res, c', ?_, h2, ?_, ?_⟩
  · rw [upper_bound_fd, upper_bound_loop_eq_bisect]; exact h1
  · intro i a hi hia; simpa using h3 i a hi hia
  · intro i a hi hia; simpa using h4 i a hi hia

/-! ## Properties of the search engine -/

/-- C1. On a record file of `N` records sorted ascending by hash, all of whose
positional reads succeed, `lower_bound_fd` returns, for every key, the smallest
index whose record has a hash not below the key, and `N` when there is no
such record (`List.findIdx` is the first index with the property, the length
when no element has it). -/
theorem lower_bound_fd_smallest_ge (fd : Fd) (recs : List Record) (key : List Nat)
    (c : Counters) (hsorted : SortedByHash recs) (hread : ReadsSucceed fd recs)
    (hkey : key.length = HASH_SIZE) :
    ∃ c', lower_bound_fd fd recs.length key c
      = some (recs.findIdx (fun r => decide (cmp_hash r.hash key ≥ 0)), c') := by
  obtain ⟨res, c', h1, h2, h3, h4⟩ := lower_bound_fd_partition fd recs key c hsorted hread hkey
  refine ⟨c', ?_⟩
  rw [h1]
  have hf := findIdx_of_partition (fun h => decide (cmp_hash h key < 0)) recs res h2
    (by intro i a hi hia; simpa using h3 i a hi hia)
    (by intro i a hi hia; simpa using h4 i a hi hia)
  have hfun : (fun r : Record => !decide (cmp_hash r.hash key < 0))
      = (fun r : Record => decide (cmp_hash r.hash key ≥ 0)) := by
    funext r
    by_cases h : cmp_hash r.hash key < 0
    · have : ¬ cmp_hash r.hash key ≥ 0 := by omega
      simp [h, this]
    · have : cmp_hash r.hash key ≥ 0 := by omega
      simp [h, this]
  rw [hfun] at hf
  rw [hf]

/-- C1, at a file of three records and the key of its first record. -/
theorem lower_bound_fd_smallest_ge_witness :
    SortedByHash sample_records ∧
    ReadsSucceed (regular_file (serialize sample_records)) sample_records ∧
    ([1, 0, 0, 0, 0, 0, 0, 0, 0, 0] : List Nat).length = HASH_SIZE ∧
    ∃ c', lower_bound_fd (regular_file (serialize sample_records)) sample_records.length
        [1, 0, 0, 0, 0, 0, 0, 0, 0, 0] ⟨0, 0, 0⟩
      = some (sample_records.findIdx
          (fun r => decide (cmp_hash r.hash [1, 0, 0, 0, 0, 0, 0, 0, 0, 0] ≥ 0)), c') :=
  ⟨by decide, by decide, by decide,
    lower_bound_fd_smallest_ge _ _ _ _ (by decide) (by decide) (by decide)⟩

/-- C2. On a record file of `N` records sorted ascending by hash, all of whose
positional reads succeed, `upper_bound_fd` returns, for every key, the smallest
index whose record has a hash above the key, and `N` when there is no such
record. -/
theorem upper_bound_fd_smallest_gt (fd : Fd) (recs : List Record) (key : List Nat)
    (c : Counters) (hsorted : SortedByHash recs) (hread : ReadsSucceed fd recs)
    (hkey : key.length = HASH_SIZE) :
    ∃ c', upper_bound_fd fd recs.length key c
      = some (recs.findIdx (fun r => decide (cmp_hash r.hash key > 0)), c') := by
  obtain ⟨res, c', h1, h2, h3, h4⟩ := upper_bound_fd_partition fd recs key c hsorted hread hkey
  refine ⟨c', ?_⟩
  rw [h1]
  have hf := findIdx_of_partition (fun h => decide (cmp_hash h key ≤ 0)) recs res h2
    (by intro i a hi hia; simpa using h3 i a hi hia)
    (by intro i a hi hia; simpa using h4 i a hi hia)
  have hfun : (fun r : Record => !decide (cmp_hash r.hash key ≤ 0))
      = (fun r : Record => decide (cmp_hash r.hash key > 0)) := by
    funext r
    by_cases h : cmp_hash r.hash key ≤ 0
    · have : ¬ cmp_hash r.hash key > 0 := by omega
      simp [h, this]
    · have : cmp_hash r.hash key > 0 := by omega
      simp [h, this]
  rw [hfun] at hf
  rw [hf]

/-- C2, at a file of three records and the key of its first record. -/
theorem upper_bound_fd_smallest_gt_witness :
    SortedByHash sample_records ∧
    ReadsSucceed (regular_file (serialize sample_records)) sample_records ∧
    ([1, 0, 0, 0, 0, 0, 0, 0, 0, 0] : List Nat).length = HASH_SIZE ∧
    ∃ c', upper_bound_fd (regular_file (serialize sample_records)) sample_records.length
        [1, 0, 0, 0, 0, 0, 0, 0, 0, 0] ⟨0, 0, 0⟩
      = some (sample_records.findIdx
          (fun r => decide (cmp_hash r.hash [1, 0, 0, 0, 0, 0, 0, 0, 0, 0] > 0)), c') :=
  ⟨by decide, by decide, by decide,
    upper_bound_fd_smallest_gt _ _ _ _ (by decide) (by decide) (by decide)⟩

/-- C9. On a sorted record file all of whose reads succeed, for every key
`lower_bound_fd(key) <= upper_bound_fd(key)`, and every record at an index from
the first result up to, but excluding, the second has a hash equal to the key. -/
theorem lower_le_upper_and_equal_between (fd : Fd) (recs : List Record) (key : List Nat)
    (c1 c2 : Counters) (hsorted : SortedByHash recs) (hread : ReadsSucceed fd recs)
    (hkey : key.length = HASH_SIZE) :
    ∃ lo hi c1' c2', lower_bound_fd fd recs.length key c1 = some (lo, c1') ∧
      upper_bound_fd fd recs.length key c2 = some (hi, c2') ∧ lo ≤ hi ∧
      ∀ i r, lo ≤ i → i < hi → recs[i]? = some r → r.hash = key := by
  have hlen := hash_length_of_reads fd recs hread
  obtain ⟨lo, c1', hl1, hl2, hl3, hl4⟩ :=
    lower_bound_fd_partition fd recs key c1 hsorted hread hkey
  obtain ⟨hi, c2', hu1, hu2, hu3, hu4⟩ :=
    upper_bound_fd_partition fd recs key c2 hsorted hread hkey
  refine ⟨lo, hi, c1', c2', hl1, hu1, ?_, ?_⟩
  · by_contra hcon
    have hlt : hi < lo := by omega
    have hiN : hi < recs.length := by omega
    have ha := hl3 hi _ hlt (List.getElem?_eq_getElem hiN)
    have hb := hu4 hi _ (Nat.le_refl _) (List.getElem?_eq_getElem hiN)
    omega
  · intro i r h1 h2 hir
    have ha := hl4 i r h1 hir
    have hb := hu3 i r h2 hir
    have hc : cmp_hash key r.hash ≤ 0 := by
      by_contra hcon
      exact ha ((cmp_hash_lt_iff_not_ge _ _).2 hcon)
    exact cmp_hash_eq_of_le_of_ge (hlen r (List.getElem?_mem hir)) hkey hb hc

/-- C9, at a file of three records and the key of its first record. -/
theorem lower_le_upper_and_equal_between_witness :
    SortedByHash sample_records ∧
    ReadsSucceed (regular_file (serialize sample_records)) sample_records ∧
    ([1, 0, 0, 0, 0, 0, 0, 0, 0, 0] : List Nat).length = HASH_SIZE ∧
    ∃ lo hi c1' c2',
      lower_bound_fd (regular_file (serialize sample_records)) sample_records.length
        [1, 0, 0, 0, 0, 0, 0, 0, 0, 0] ⟨0, 0, 0⟩ = some (lo, c1') ∧
      upper_bound_fd (regular_file (serialize sample_records)) sample_records.length
        [1, 0, 0, 0, 0, 0, 0, 0, 0, 0] ⟨0, 0, 0⟩ = some (hi, c2') ∧ lo ≤ hi ∧
      ∀ i r, lo ≤ i → i < hi → sample_records[i]? = some r →
        r.hash = [1, 0, 0, 0, 0, 0, 0, 0, 0, 0] :=
  ⟨by decide, by decide, by decide,
    lower_le_upper_and_equal_between _ _ _ _ _ (by decide) (by decide) (by decide)⟩

/-! ## Prefix bounds -/

theorem make_prefix_bounds_eq (P : List Nat) (D : Nat) (hD : D ≤ HASH_SIZE)
    (hP : P.length = D) :
    make_prefix_bounds (query_pfx P D) D
      = (P ++ List.replicate (HASH_SIZE - D) 0, P ++ List.replicate (HASH_SIZE - D) 255) := by
  subst hP
  simp [make_prefix_bounds, query_pfx, memcpy, memset, List.take_append_eq_append_take,
    List.take_replicate, List.drop_replicate]

theorem memcmp_append_left (P a b : List Nat) (n : Nat) (hn : P.length ≤ n) :
    memcmp (P ++ a) (P ++ b) n = memcmp a b (n - P.length) := by
  induction P generalizing n with
  | nil => simp
  | cons x P ih =>
    cases n with
    | zero => simp at hn
    | succ n =>
      simp only [List.length_cons, Nat.add_le_add_iff_right] at hn
      simp [memcmp, ih n hn]

theorem memcmp_zeros_le (h : List Nat) (n : Nat) : memcmp (List.replicate n 0) h n ≤ 0 := by
  induction n generalizing h with
  | zero => simp [memcmp]
  | succ n ih =>
    cases h with
    | nil => simp [memcmp]
    | cons y h =>
      simp only [List.replicate_succ, memcmp, ne_eq]
      split
      · omega
      · exact ih h

theorem memcmp_le_ff (h : List Nat) (n : Nat) (hb : ∀ b ∈ h, b < 256) :
    memcmp h (List.replicate n 255) n ≤ 0 := by
  induction n generalizing h with
  | zero => cases h <;> simp [memcmp]
  | succ n ih =>
    cases h with
    | nil => simp [memcmp]
    | cons y h =>
      simp only [List.replicate_succ, memcmp, ne_eq]
      have hy : y < 256 := hb y (List.mem_cons_self _ _)
      split
      · omega
      · exact ih h (fun b hb1 => hb b (List.mem_cons_of_mem _ hb1))

/-- A byte array starts with `P` exactly when it lies between `P` padded with
0x00 and `P` padded with 0xFF. -/
theorem take_eq_iff_between (P h : List Nat) (n : Nat) (hP : P.length ≤ n)
    (hh : h.length = n) (hb : ∀ b ∈ h, b < 256) :
    h.take P.length = P ↔
      memcmp (P ++ List.replicate (n - P.length) 0) h n ≤ 0 ∧
      memcmp h (P ++ List.replicate (n - P.length) 255) n ≤ 0 := by
  induction P generalizing h n with
  | nil =>
    simp only [List.length_nil, List.take_zero, Nat.sub_zero, List.nil_append, true_iff]
    exact ⟨memcmp_zeros_le h n, memcmp_le_ff h n hb⟩
  | cons x P ih =>
    cases n with
    | zero => simp at hP
    | succ n =>
      cases h with
      | nil => simp at hh
      | cons y h =>
        simp only [List.length_cons, Nat.add_le_add_iff_right, Nat.add_right_cancel_iff]
          at hP hh
        have hb1 : ∀ b ∈ h, b < 256 := fun b hb1 => hb b (List.mem_cons_of_mem _ hb1)
        simp only [List.length_cons, List.take_succ_cons, List.cons.injEq, List.cons_append,
          Nat.add_sub_add_right, memcmp, ne_eq]
        by_cases hxy : x = y
        · subst hxy
          simp only [true_and, not_true_eq_false, if_false]
          exact ih h n hP hh hb1
        · have hyx : ¬ y = x := fun e => hxy e.symm
          simp only [hyx, false_and, hxy, not_false_eq_true, if_true, false_iff, not_and]
          omega

theorem countP_split {α : Type} (l : List α) (p1 p2 q : α → Bool)
    (h : ∀ a ∈ l, (q a = true ↔ (p2 a = true ∧ p1 a = false)) ∧
      (p1 a = true → p2 a = true)) :
    l.countP p2 = l.countP p1 + l.countP q := by
  induction l with
  | nil => simp
  | cons a l ih =>
    have ih1 := ih (fun b hb => h b (List.mem_cons_of_mem _ hb))
    obtain ⟨h1, h2⟩ := h a (List.mem_cons_self _ _)
    simp only [List.countP_cons, ih1]
    cases hp1 : p1 a <;> cases hp2 : p2 a <;> cases hq : q a <;> simp_all <;> omega

/-- The two bisections of a prefix query on a sorted file read without
failures: their results, their order and the number of records between them. -/
theorem prefix_query_bounds (fd : Fd) (recs : List Record) (P : List Nat) (D : Nat)
    (c : Counters) (hsorted : SortedByHash recs) (hread : ReadsSucceed fd recs)
    (hD : D ≤ HASH_SIZE) (hP : P.length = D) :
    ∃ lo hi c1 c2,
      lower_bound_fd fd recs.length (make_prefix_bounds (query_pfx P D) D).1 c = some (lo, c1) ∧
      upper_bound_fd fd recs.length (make_prefix_bounds (query_pfx P D) D).2 c1 = some (hi, c2) ∧
      lo ≤ hi ∧
      ((∀ r ∈ recs, ∀ b ∈ r.hash, b < 256) →
        hi = lo + recs.countP (fun r => decide (r.hash.take D = P))) := by
  have hlen := hash_length_of_reads fd recs hread
  rw [make_prefix_bounds_eq P D hD hP]
  have hlow : (P ++ List.replicate (HASH_SIZE - D) 0).length = HASH_SIZE := by
    simp [hP]; omega
  have hhigh : (P ++ List.replicate (HASH_SIZE - D) 255).length = HASH_SIZE := by
    simp [hP]; omega
  have hlh : cmp_hash (P ++ List.replicate (HASH_SIZE - D) 0)
      (P ++ List.replicate (HASH_SIZE - D) 255) ≤ 0 := by
    unfold cmp_hash
    rw [memcmp_append_left _ _ _ _ (by omega), hP]
    exact memcmp_zeros_le _ _
  obtain ⟨lo, c1, hl1, hl2, hl3, hl4⟩ :=
    lower_bound_fd_partition fd recs _ c hsorted hread hlow
  obtain ⟨hi, c2, hu1, hu2, hu3, hu4⟩ :=
    upper_bound_fd_partition fd recs _ c1 hsorted hread hhigh
  have himp : ∀ r ∈ recs, cmp_hash r.hash (P ++ List.replicate (HASH_SIZE - D) 0) < 0 →
      cmp_hash r.hash (P ++ List.replicate (HASH_SIZE - D) 255) ≤ 0 := by
    intro r hr h1
    have := cmp_hash_lt_le_trans (hlen r hr) hlow hhigh h1 hlh
    omega
  refine ⟨lo, hi, c1, c2, hl1, hu1, ?_, ?_⟩
  · by_contra hcon
    have hlt : hi < lo := by omega
    have hiN : hi < recs.length := by omega
    have ha := hl3 hi _ hlt (List.getElem?_eq_getElem hiN)
    have hb := hu4 hi _ (Nat.le_refl _) (List.getElem?_eq_getElem hiN)
    exact hb (himp _ (List.getElem_mem _) ha)
  · intro hbytes
    have hc1 := countP_of_partition
      (fun h => decide (cmp_hash h (P ++ List.replicate (HASH_SIZE - D) 0) < 0)) recs lo hl2
      (by intro i a hi hia; simpa using hl3 i a hi hia)
      (by intro i a hi hia; simpa using hl4 i a hi hia)
    have hc2 := countP_of_partition
      (fun h => decide (cmp_hash h (P ++ List.replicate (HASH_SIZE - D) 255) ≤ 0)) recs hi hu2
      (by intro i a hi hia; simpa using hu3 i a hi hia)
      (by intro i a hi hia; simpa using hu4 i a hi hia)
    have hsplit := countP_split recs
      (fun r => decide (cmp_hash r.hash (P ++ List.replicate (HASH_SIZE - D) 0) < 0))
      (fun r => decide (cmp_hash r.hash (P ++ List.replicate (HASH_SIZE - D) 255) ≤ 0))
      (fun r => decide (r.hash.take D = P))
      (by
        intro r hr
        refine ⟨?_, ?_⟩
        · have hiff := take_eq_iff_between P r.hash HASH_SIZE (by omega) (hlen r hr)
            (hbytes r hr)
          rw [hP] at hiff
          simp only [decide_eq_true_eq, decide_eq_false_iff_not]
          rw [hiff, cmp_hash_lt_iff_not_ge]
          unfold cmp_hash
          constructor
          · rintro ⟨h1, h2⟩; exact ⟨h2, fun h3 => h3 h1⟩
          · rintro ⟨h1, h2⟩; exact ⟨not_not.1 h2, h1⟩
        · simp only [decide_eq_true_eq]
          exact himp r hr)
    rw [hc1, hc2] at hsplit
    exact hsplit

/-- C10. On a sorted record file all of whose reads succeed, for every `D` in
`[1, HASH_SIZE]` and every `D`-byte `P`, with `(low, high)` the output of
`make_prefix_bounds`, `lower_bound_fd(low) <= upper_bound_fd(high)`, and the
match count of the query is their difference, not the clamp value. (The
proof does not use `1 <= D`, so the statement leaves it out.) -/
theorem prefix_bounds_ordered (fd : Fd) (recs : List Record) (P : List Nat) (D : Nat)
    (hsorted : SortedByHash recs) (hread : ReadsSucceed fd recs)
    (hD2 : D ≤ HASH_SIZE) (hP : P.length = D) :
    ∃ lo hi c1 c2,
      lower_bound_fd fd recs.length (make_prefix_bounds (query_pfx P D) D).1 ⟨0, 0, 0⟩
        = some (lo, c1) ∧
      upper_bound_fd fd recs.length (make_prefix_bounds (query_pfx P D) D).2 c1
        = some (hi, c2) ∧
      lo ≤ hi ∧ query_matches fd recs.length (query_pfx P D) D = some (hi - lo, c2) := by
  obtain ⟨lo, hi, c1, c2, h1, h2, h3, _⟩ :=
    prefix_query_bounds fd recs P D ⟨0, 0, 0⟩ hsorted hread hD2 hP
  refine ⟨lo, hi, c1, c2, h1, h2, h3, ?_⟩
  unfold query_matches
  simp only [h1, h2]
  by_cases hlt : hi > lo
  · simp [hlt]
  · have : hi - lo = 0 := by omega
    simp [hlt, this]

/-- C10, at a file of three records and the one-byte query `01`. -/
theorem prefix_bounds_ordered_witness :
    SortedByHash sample_records ∧
    ReadsSucceed (regular_file (serialize sample_records)) sample_records ∧
    1 ≤ HASH_SIZE ∧ ([1] : List Nat).length = 1 ∧
    ∃ lo hi c1 c2,
      lower_bound_fd (regular_file (serialize sample_records)) sample_records.length
        (make_prefix_bounds (query_pfx [1] 1) 1).1 ⟨0, 0, 0⟩ = some (lo, c1) ∧
      upper_bound_fd (regular_file (serialize sample_records)) sample_records.length
        (make_prefix_bounds (query_pfx [1] 1) 1).2 c1 = some (hi, c2) ∧
      lo ≤ hi ∧
      query_matches (regular_file (serialize sample_records)) sample_records.length
        (query_pfx [1] 1) 1 = some (hi - lo, c2) :=
  ⟨by decide, by decide, by decide, by decide,
    prefix_bounds_ordered _ _ _ _ (by decide) (by decide) (by decide) (by decide)⟩

/-- C3. On a sorted record file all of whose reads succeed, for every `D` in
`[1, HASH_SIZE]` and every `D`-byte `P`, the match count of a query
(`make_prefix_bounds`, then `upper_bound_fd(high)` minus `lower_bound_fd(low)`,
clamped to 0) is the number of records whose first `D` hash bytes are `P`.
The hash bytes are `uint8_t` values, below 256. (The proof does not use
`1 <= D`, so the statement leaves it out.) -/
theorem query_matches_counts_prefix (fd : Fd) (recs : List Record) (P : List Nat) (D : Nat)
    (hsorted : SortedByHash recs) (hread : ReadsSucceed fd recs)
    (hbytes : ∀ r ∈ recs, ∀ b ∈ r.hash, b < 256)
    (hD2 : D ≤ HASH_SIZE) (hP : P.length = D) :
    ∃ c', query_matches fd recs.length (query_pfx P D) D
      = some (recs.countP (fun r => decide (r.hash.take D = P)), c') := by
  obtain ⟨lo, hi, c1, c2, h1, h2, h3, h4⟩ :=
    prefix_query_bounds fd recs P D ⟨0, 0, 0⟩ hsorted hread hD2 hP
  have h5 := h4 hbytes
  refine ⟨c2, ?_⟩
  unfold query_matches
  simp only [h1, h2]
  by_cases hlt : hi > lo
  · have : hi - lo = recs.countP (fun r => decide (r.hash.take D = P)) := by omega
    simp [hlt, this]
  · have : recs.countP (fun r => decide (r.hash.take D = P)) = 0 := by omega
    simp [hlt, this]

/-- C3, at a file of three records and the one-byte query `01`. -/
theorem query_matches_counts_prefix_witness :
    SortedByHash sample_records ∧
    ReadsSucceed (regular_file (serialize sample_records)) sample_records ∧
    (∀ r ∈ sample_records, ∀ b ∈ r.hash, b < 256) ∧
    1 ≤ HASH_SIZE ∧ ([1] : List Nat).length = 1 ∧
    ∃ c', query_matches (regular_file (serialize sample_records)) sample_records.length
        (query_pfx [1] 1) 1
      = some (sample_records.countP (fun r => decide (r.hash.take 1 = [1])), c') :=
  ⟨by decide, by decide, by decide, by decide, by decide,
    query_matches_counts_prefix _ _ _ _ (by decide) (by decide) (by decide) (by decide)
      (by decide)⟩

/-! ## Run readers -/

theorem refill_spec (r : RunReader) (hcap : 1 ≤ r.cap) (heof : r.eof = false) :
    r.refill.ok ∧ r.refill.remaining = r.inp := by
  unfold RunReader.refill
  simp only [heof, Bool.false_eq_true, if_false]
  by_cases h0 : (r.inp.take r.cap).length = 0
  · have hinp : r.inp = [] := by
      cases hi : r.inp with
      | nil => rfl
      | cons x xs =>
        rw [hi] at h0
        simp only [List.length_take, List.length_cons] at h0
        omega
    simp only [h0, if_true]
    refine ⟨⟨hcap, ?_, ?_⟩, ?_⟩
    · intro _; simp [hinp]
    · intro h; simp at h
    · simp [RunReader.remaining, hinp]
  · simp only [h0, if_false]
    refine ⟨⟨hcap, ?_, ?_⟩, ?_⟩
    · intro h; simp [heof] at h
    · intro _; simpa using Nat.pos_of_ne_zero h0
    · simp [RunReader.remaining]

theorem init_spec (file : List Record) (cap : Nat) (hcap : 1 ≤ cap) :
    (RunReader.init file cap).ok ∧ (RunReader.init file cap).remaining = file := by
  unfold RunReader.init
  exact refill_spec _ hcap rfl

theorem has_iff_remaining (r : RunReader) (hok : r.ok) :
    r.has = true ↔ r.remaining ≠ [] := by
  obtain ⟨_, h1, h2⟩ := hok
  unfold RunReader.has RunReader.remaining
  cases he : r.eof with
  | true =>
    obtain ⟨hb, hi⟩ := h1 he
    simp [hb, hi]
  | false =>
    have hp := h2 he
    simp only [Bool.not_false, Bool.true_and, decide_eq_true_eq, hp, ne_eq, true_iff]
    intro hcon
    have hl := congrArg List.length hcon
    simp only [List.length_append, List.length_drop, List.length_nil] at hl
    omega

theorem pop_spec (r : RunReader) (hok : r.ok) (hhas : r.has = true) :
    r.remaining = r.peek :: r.pop.remaining ∧ r.pop.ok := by
  obtain ⟨hcap, h1, h2⟩ := hok
  have he : r.eof = false := by
    unfold RunReader.has at hhas
    cases h : r.eof with
    | true => simp [h] at hhas
    | false => rfl
  have hp := h2 he
  have hdrop : r.buf.drop r.pos = r.peek :: r.buf.drop (r.pos + 1) := by
    unfold RunReader.peek
    rw [List.getD_eq_getElem _ _ hp]
    exact List.drop_eq_getElem_cons hp
  unfold RunReader.pop
  by_cases hge : r.pos + 1 ≥ r.buf.length
  · simp only [hge, if_true]
    have hs := refill_spec { r with pos := r.pos + 1 } hcap he
    refine ⟨?_, hs.1⟩
    rw [hs.2]
    unfold RunReader.remaining
    rw [hdrop, List.drop_eq_nil_of_le hge]
    rfl
  · simp only [hge, if_false]
    refine ⟨?_, ⟨hcap, h1, ?_⟩⟩
    · unfold RunReader.remaining
      rw [hdrop]
      rfl
    · intro _
      show r.pos + 1 < r.buf.length
      omega

/-! ## The priority queue -/

theorem pq_top_eq_none (pq : List Node) : pq_top pq = none ↔ pq = [] := by
  cases pq with
  | nil => simp [pq_top]
  | cons n rest =>
    simp only [pq_top, reduceCtorEq, iff_false]
    split
    · simp
    · split <;> simp

theorem pq_top_mem (pq : List Node) (m : Node) (h : pq_top pq = some m) : m ∈ pq := by
  induction pq generalizing m with
  | nil => simp [pq_top] at h
  | cons n rest ih =>
    simp only [pq_top] at h
    split at h
    · simp only [Option.some.injEq] at h
      subst h
      exact List.mem_cons_self _ _
    · rename_i m1 hm1
      split at h
      · simp only [Option.some.injEq] at h
        subst h
        exact List.mem_cons_of_mem _ (ih _ hm1)
      · simp only [Option.some.injEq] at h
        subst h
        exact List.mem_cons_self _ _

theorem pq_top_min (pq : List Node) (m : Node) (h : pq_top pq = some m)
    (hlen : ∀ x ∈ pq, x.rcd.hash.length = HASH_SIZE) :
    ∀ x ∈ pq, hle m.rcd x.rcd := by
  induction pq generalizing m with
  | nil => simp [pq_top] at h
  | cons n rest ih =>
    have hlen1 : ∀ x ∈ rest, x.rcd.hash.length = HASH_SIZE :=
      fun x hx => hlen x (List.mem_cons_of_mem _ hx)
    simp only [pq_top] at h
    split at h
    · rename_i hnone
      simp only [Option.some.injEq] at h
      subst h
      have : rest = [] := (pq_top_eq_none rest).1 hnone
      subst this
      intro x hx
      simp only [List.mem_singleton] at hx
      subst hx
      unfold hle
      rw [cmp_hash_self]
    · rename_i m1 hm1
      have ih1 := ih m1 hm1 hlen1
      have hm1len := hlen1 m1 (pq_top_mem rest m1 hm1)
      have hnlen := hlen n (List.mem_cons_self _ _)
      split at h
      · rename_i hc
        simp only [Option.some.injEq] at h
        subst h
        intro x hx
        rcases List.mem_cons.1 hx with rfl | hx
        · unfold Cmp at hc
          simp only [gt_iff_lt, decide_eq_true_eq] at hc
          unfold hle
          have := (memcmp_swap_pos x.rcd.hash m1.rcd.hash HASH_SIZE).1 hc
          unfold cmp_hash; omega
        · exact ih1 x hx
      · rename_i hc
        simp only [Option.some.injEq] at h
        subst h
        have hnm : hle n.rcd m1.rcd := by
          unfold Cmp at hc
          simp only [gt_iff_lt, decide_eq_true_eq, not_lt] at hc
          exact hc
        intro x hx
        rcases List.mem_cons.1 hx with rfl | hx
        · unfold hle; rw [cmp_hash_self]
        · exact cmp_hash_le_trans hnlen hm1len (hlen1 x hx) hnm (ih1 x hx)

theorem pq_pop_perm (pq : List Node) (m : Node) (h : pq_top pq = some m) :
    pq.Perm (m :: pq_pop pq) := by
  unfold pq_pop
  rw [h]
  exact List.perm_cons_erase (pq_top_mem pq m h)

/-! ## The statement that moves the head of a reader to the queue -/

/-- What `push_head` does in terms of the records left with the readers:
either nothing, reader `i` having none left, or the first record left with
reader `i` goes to the queue. -/
theorem push_head_cases (rs : List RunReader) (pq : List Node) (i : Nat)
    (hok : ∀ rd ∈ rs, rd.ok) :
    (push_head rs pq i = (rs, pq) ∧ ∀ rd, rs[i]? = some rd → rd.remaining = []) ∨
    (∃ rd rd' x, rs[i]? = some rd ∧ rd.remaining = x :: rd'.remaining ∧ rd'.ok ∧
      push_head rs pq i = (rs.set i rd', pq ++ [⟨x, i⟩])) := by
  unfold push_head
  cases hi : rs[i]? with
  | none => left; simp
  | some rd =>
    have hrd : rd.ok := hok rd (List.getElem?_mem hi)
    by_cases hhas : rd.has = true
    · right
      obtain ⟨h1, h2⟩ := pop_spec rd hrd hhas
      exact ⟨rd, rd.pop, rd.peek, rfl, h1, h2, by simp [hhas, pq_push]⟩
    · left
      refine ⟨by simp [hhas], ?_⟩
      intro rd1 h1
      simp only [Option.some.injEq] at h1
      subst h1
      by_contra hne
      exact hhas ((has_iff_remaining rd hrd).2 hne)

theorem remaining_set_perm (rs : List RunReader) (i : Nat) (rd rd' : RunReader) (x : Record)
    (h : rs[i]? = some rd) (hr : rd.remaining = x :: rd'.remaining) :
    ((rs.map RunReader.remaining).flatten).Perm
      (x :: ((rs.set i rd').map RunReader.remaining).flatten) := by
  induction rs generalizing i with
  | nil => simp at h
  | cons a rs ih =>
    cases i with
    | zero =>
      simp only [List.getElem?_cons_zero, Option.some.injEq] at h
      subst h
      simp [hr]
    | succ i =>
      simp only [List.getElem?_cons_succ] at h
      have := ih i h
      simp only [List.map_cons, List.flatten_cons, List.set_cons_succ]
      exact (List.Perm.append_left _ this).trans List.perm_middle

theorem content_push_perm (rs : List RunReader) (pq : List Node) (i : Nat)
    (rd rd' : RunReader) (x : Record)
    (h : rs[i]? = some rd) (hr : rd.remaining = x :: rd'.remaining) :
    (content (rs.set i rd') (pq ++ [⟨x, i⟩])).Perm (content rs pq) := by
  unfold content
  have h1 := remaining_set_perm rs i rd rd' x h hr
  simp only [List.map_append, List.map_cons, List.map_nil, List.append_assoc,
    List.singleton_append]
  exact List.Perm.append_left _ h1.symm

theorem push_head_content (rs : List RunReader) (pq : List Node) (i : Nat)
    (hok : ∀ rd ∈ rs, rd.ok) :
    (content (push_head rs pq i).1 (push_head rs pq i).2).Perm (content rs pq) := by
  rcases push_head_cases rs pq i hok with ⟨h, _⟩ | ⟨rd, rd', x, h1, h2, _, h4⟩
  · rw [h]
  · rw [h4]
    exact content_push_perm rs pq i rd rd' x h1 h2

theorem push_head_ok (rs : List RunReader) (pq : List Node) (i : Nat)
    (hok : ∀ rd ∈ rs, rd.ok) : ∀ rd ∈ (push_head rs pq i).1, rd.ok := by
  rcases push_head_cases rs pq i hok with ⟨h, _⟩ | ⟨rd, rd', x, _, _, h3, h4⟩
  · rw [h]; exact hok
  · rw [h4]
    intro r hr
    rcases List.mem_or_eq_of_mem_set hr with h | h
    · exact hok r h
    · rw [h]; exact h3

theorem push_head_length (rs : List RunReader) (pq : List Node) (i : Nat) :
    (push_head rs pq i).1.length = rs.length := by
  unfold push_head
  split
  · rfl
  · split <;> simp

theorem push_head_covered_self (rs : List RunReader) (pq : List Node) (i : Nat)
    (hok : ∀ rd ∈ rs, rd.ok) :
    Covered (push_head rs pq i).1 (push_head rs pq i).2 i := by
  rcases push_head_cases rs pq i hok with ⟨h, hnil⟩ | ⟨rd, rd', x, _, _, _, h4⟩
  · rw [h]
    intro rd hrd hne
    exact absurd (hnil rd hrd) hne
  · rw [h4]
    intro _ _ _
    exact ⟨⟨x, i⟩, by simp, rfl⟩

theorem push_head_covered_other (rs : List RunReader) (pq : List Node) (i r : Nat)
    (hok : ∀ rd ∈ rs, rd.ok) (hne : r ≠ i) (hc : Covered rs pq r) :
    Covered (push_head rs pq i).1 (push_head rs pq i).2 r := by
  rcases push_head_cases rs pq i hok with ⟨h, _⟩ | ⟨rd, rd', x, _, _, _, h4⟩
  · rw [h]; exact hc
  · rw [h4]
    intro rd1 hrd1 hne1
    rw [List.getElem?_set_ne (Ne.symm hne)] at hrd1
    obtain ⟨n, hn, hrun⟩ := hc rd1 hrd1 hne1
    exact ⟨n, List.mem_append_left _ hn, hrun⟩

/-! ## The invariant of the merge -/

theorem mem_content_of_remaining (rs : List RunReader) (pq : List Node) (rd : RunReader)
    (i : Nat) (x : Record) (h : rs[i]? = some rd) (hx : x ∈ rd.remaining) :
    x ∈ content rs pq := by
  unfold content
  apply List.mem_append_right
  rw [List.mem_flatten]
  exact ⟨rd.remaining, List.mem_map_of_mem _ (List.getElem?_mem h), hx⟩

theorem mem_content_of_pq (rs : List RunReader) (pq : List Node) (m : Node) (h : m ∈ pq) :
    m.rcd ∈ content rs pq := by
  unfold content
  exact List.mem_append_left _ (List.mem_map_of_mem _ h)

theorem push_head_inv (all : List Record) (srt : Prop) (rs : List RunReader)
    (pq : List Node) (o : List Record) (i : Nat) (hinv : MergeInv all srt rs pq o)
    (hside : srt → ∀ a ∈ o, ∀ rd, rs[i]? = some rd → ∀ x ∈ rd.remaining, hle a x) :
    MergeInv all srt (push_head rs pq i).1 (push_head rs pq i).2 o := by
  obtain ⟨hok, hperm, hsrt⟩ := hinv
  have hcperm := push_head_content rs pq i hok
  refine ⟨push_head_ok rs pq i hok, (List.Perm.append_left o hcperm).trans hperm, ?_⟩
  intro hs
  obtain ⟨s1, s2, s3, s4, s5⟩ := hsrt hs
  have hmemc : ∀ y, y ∈ o ++ content (push_head rs pq i).1 (push_head rs pq i).2 →
      y ∈ o ++ content rs pq := fun y hy => (List.Perm.append_left o hcperm).subset hy
  refine ⟨fun y hy => s1 y (hmemc y hy), ?_, ?_, ?_, s5⟩
  all_goals
    rcases push_head_cases rs pq i hok with ⟨h, _⟩ | ⟨rd, rd', x, h1, h2, _, h4⟩
  · rw [h]; exact s2
  · rw [h4]
    intro r hr
    rcases List.mem_or_eq_of_mem_set hr with h | h
    · exact s2 r h
    · rw [h]
      have := s2 rd (List.getElem?_mem h1)
      rw [h2] at this
      exact List.Pairwise.of_cons this
  · rw [h]; exact s3
  · rw [h4]
    have hilt : i < rs.length := (List.getElem?_eq_some_iff.1 h1).1
    have hrdp := s2 rd (List.getElem?_mem h1)
    rw [h2] at hrdp
    intro m hm rd1 hrd1 y hy
    by_cases hrun : m.run = i
    · rw [hrun, List.getElem?_set_self hilt] at hrd1
      simp only [Option.some.injEq] at hrd1
      subst hrd1
      rcases List.mem_append.1 hm with hm | hm
      · apply s3 m hm rd (by rw [hrun]; exact h1) y
        rw [h2]; exact List.mem_cons_of_mem _ hy
      · simp only [List.mem_singleton] at hm
        subst hm
        exact List.rel_of_pairwise_cons hrdp hy
    · rw [List.getElem?_set_ne (Ne.symm hrun)] at hrd1
      rcases List.mem_append.1 hm with hm | hm
      · exact s3 m hm rd1 hrd1 y hy
      · simp only [List.mem_singleton] at hm
        subst hm
        exact absurd rfl hrun
  · rw [h]; exact s4
  · rw [h4]
    intro a ha m hm
    rcases List.mem_append.1 hm with hm | hm
    · exact s4 a ha m hm
    · simp only [List.mem_singleton] at hm
      subst hm
      apply hside hs a ha rd h1 x
      rw [h2]; exact List.mem_cons_self _ _

theorem pop_inv (all : List Record) (srt : Prop) (rs : List RunReader)
    (pq : List Node) (o : List Record) (n : Node) (hinv : MergeInv all srt rs pq o)
    (htop : pq_top pq = some n) :
    MergeInv all srt rs (pq_pop pq) (o ++ [n.rcd]) ∧
    (srt → ∀ a ∈ o ++ [n.rcd], ∀ rd, rs[n.run]? = some rd → ∀ x ∈ rd.remaining, hle a x) := by
  obtain ⟨hok, hperm, hsrt⟩ := hinv
  have hpp := pq_pop_perm pq n htop
  have hnmem := pq_top_mem pq n htop
  have hcont : ((o ++ [n.rcd]) ++ content rs (pq_pop pq)).Perm (o ++ content rs pq) := by
    unfold content
    have h1 : (List.map Node.rcd pq).Perm (n.rcd :: List.map Node.rcd (pq_pop pq)) := by
      simpa using hpp.map Node.rcd
    simp only [List.append_assoc, List.singleton_append]
    exact List.Perm.append_left o
      (List.Perm.append_right ((rs.map RunReader.remaining).flatten) h1.symm)
  have hsub : ∀ m, m ∈ pq_pop pq → m ∈ pq := by
    intro m hm
    exact hpp.symm.subset (List.mem_cons_of_mem _ hm)
  constructor
  · refine ⟨hok, hcont.trans hperm, ?_⟩
    intro hs
    obtain ⟨s1, s2, s3, s4, s5⟩ := hsrt hs
    refine ⟨fun y hy => s1 y (hcont.subset hy), s2, fun m hm => s3 m (hsub m hm), ?_, ?_⟩
    · intro a ha m hm
      rcases List.mem_append.1 ha with ha | ha
      · exact s4 a ha m (hsub m hm)
      · simp only [List.mem_singleton] at ha
        subst ha
        apply pq_top_min pq n htop _ m (hsub m hm)
        intro y hy
        exact s1 _ (List.mem_append_right _ (mem_content_of_pq rs pq y hy))
    · rw [List.pairwise_append]
      refine ⟨s5, List.pairwise_singleton _ _, ?_⟩
      intro a ha b hb
      simp only [List.mem_singleton] at hb
      subst hb
      exact s4 a ha n hnmem
  · intro hs a ha rd hrd x hx
    obtain ⟨s1, s2, s3, s4, s5⟩ := hsrt hs
    have hnx : hle n.rcd x := s3 n hnmem rd hrd x hx
    rcases List.mem_append.1 ha with ha | ha
    · exact cmp_hash_le_trans (s1 a (List.mem_append_left _ ha))
        (s1 _ (List.mem_append_right _ (mem_content_of_pq rs pq n hnmem)))
        (s1 x (List.mem_append_right _ (mem_content_of_remaining rs pq rd _ x hrd hx)))
        (s4 a ha n hnmem) hnx
    · simp only [List.mem_singleton] at ha
      subst ha
      exact hnx

theorem pop_covered (rs : List RunReader) (pq : List Node) (n : Node) (r : Nat)
    (htop : pq_top pq = some n) (hne : r ≠ n.run) (hc : Covered rs pq r) :
    Covered rs (pq_pop pq) r := by
  intro rd hrd hrem
  obtain ⟨m, hm, hrun⟩ := hc rd hrd hrem
  refine ⟨m, ?_, hrun⟩
  unfold pq_pop
  rw [htop]
  have hmn : m ≠ n := by
    intro h; subst h; exact hne hrun.symm
  exact (List.mem_erase_of_ne hmn).2 hm

theorem merge_step_output (B : Nat) (st : MergeState) (n : Node) :
    (merge_step B st n).out ++ (merge_step B st n).outbuf
      = (st.out ++ st.outbuf) ++ [n.rcd] := by
  unfold merge_step
  by_cases h : B ≤ st.outbuf.length + 1
  · simp [h]
  · simp [h]

theorem merge_step_inv (B : Nat) (all : List Record) (srt : Prop) (st : MergeState)
    (n : Node) (hinv : MergeInv all srt st.readers st.pq (st.out ++ st.outbuf))
    (hcov : ∀ r, Covered st.readers st.pq r) (htop : pq_top st.pq = some n) :
    MergeInv all srt (merge_step B st n).readers (merge_step B st n).pq
      ((merge_step B st n).out ++ (merge_step B st n).outbuf) ∧
    ∀ r, Covered (merge_step B st n).readers (merge_step B st n).pq r := by
  rw [merge_step_output]
  obtain ⟨h1, h2⟩ := pop_inv all srt st.readers st.pq (st.out ++ st.outbuf) n hinv htop
  have hr : (merge_step B st n).readers = (push_head st.readers (pq_pop st.pq) n.run).1 := rfl
  have hq : (merge_step B st n).pq = (push_head st.readers (pq_pop st.pq) n.run).2 := rfl
  rw [hr, hq]
  refine ⟨push_head_inv all srt _ _ _ n.run h1 h2, ?_⟩
  intro r
  by_cases hrn : r = n.run
  · subst hrn
    exact push_head_covered_self _ _ _ hinv.1
  · exact push_head_covered_other _ _ _ r hinv.1 hrn
      (pop_covered _ _ n r htop hrn (hcov r))

theorem merge_loop_spec (B : Nat) (all : List Record) (srt : Prop) :
    ∀ fuel st, MergeInv all srt st.readers st.pq (st.out ++ st.outbuf) →
      (∀ r, Covered st.readers st.pq r) → (content st.readers st.pq).length ≤ fuel →
      ∃ st', merge_loop B fuel st = some st' ∧
        MergeInv all srt st'.readers st'.pq (st'.out ++ st'.outbuf) ∧
        (∀ r, Covered st'.readers st'.pq r) ∧ st'.pq = [] := by
  intro fuel
  induction fuel with
  | zero =>
    intro st hinv hcov hfuel
    have hpq : st.pq = [] := by
      have h0 : (content st.readers st.pq).length = 0 := by omega
      unfold content at h0
      simp only [List.length_append, List.length_map] at h0
      exact List.length_eq_zero.1 (by omega)
    refine ⟨st, ?_, hinv, hcov, hpq⟩
    simp [merge_loop, hpq, pq_top]
  | succ fuel ih =>
    intro st hinv hcov hfuel
    cases htop : pq_top st.pq with
    | none =>
      refine ⟨st, ?_, hinv, hcov, (pq_top_eq_none _).1 htop⟩
      simp [merge_loop, htop]
    | some n =>
      obtain ⟨h1, h2⟩ := merge_step_inv B all srt st n hinv hcov htop
      have hlen1 := hinv.2.1.length_eq
      have hlen2 := h1.2.1.length_eq
      rw [merge_step_output] at hlen2
      simp only [List.length_append, List.length_singleton, List.length_cons,
        List.length_nil] at hlen1 hlen2
      obtain ⟨st', h3, h4⟩ := ih (merge_step B st n) h1 h2 (by omega)
      refine ⟨st', ?_, h4⟩
      simp only [merge_loop, htop]
      exact h3

theorem seed_loop_spec (all : List Record) (srt : Prop) :
    ∀ n i rs pq, MergeInv all srt rs pq [] → (∀ r, r < i → Covered rs pq r) →
      i + n = rs.length →
      MergeInv all srt (seed_loop n i rs pq).1 (seed_loop n i rs pq).2 [] ∧
      ∀ r, Covered (seed_loop n i rs pq).1 (seed_loop n i rs pq).2 r := by
  intro n
  induction n with
  | zero =>
    intro i rs pq hinv hcov hlen
    refine ⟨hinv, ?_⟩
    intro r
    by_cases hr : r < i
    · exact hcov r hr
    · intro rd hrd
      have := (List.getElem?_eq_some_iff.1 hrd).1
      simp only [seed_loop] at this
      omega
  | succ n ih =>
    intro i rs pq hinv hcov hlen
    simp only [seed_loop]
    apply ih
    · exact push_head_inv all srt rs pq [] i hinv (by intro _ a ha; simp at ha)
    · intro r hr
      by_cases hri : r = i
      · subst hri
        exact push_head_covered_self rs pq r hinv.1
      · exact push_head_covered_other rs pq i r hinv.1 hri (hcov r (by omega))
    · rw [push_head_length]; omega

theorem map_init_remaining (runs : List (List Record)) (B : Nat) (hB : 1 ≤ B) :
    (runs.map (fun r => RunReader.init r B)).map RunReader.remaining = runs := by
  induction runs with
  | nil => rfl
  | cons r runs ih =>
    simp only [List.map_cons, (init_spec r B hB).2, List.cons.injEq, true_and]
    exact ih

/-- What `merge_runs` does, for a capacity of at least 1: it ends within its
steps, the final file is a rearrangement of the records of all run files,
and it is in hash order when each run file is. -/
theorem merge_runs_spec (runs : List (List Record)) (B : Nat) (hB : 1 ≤ B) :
    ∃ out, merge_runs runs B = some out ∧ out.Perm runs.flatten ∧
      ((∀ run ∈ runs, SortedByHash run) →
        (∀ run ∈ runs, ∀ r ∈ run, r.hash.length = HASH_SIZE) → SortedByHash out) := by
  have hrem := map_init_remaining runs B hB
  have hinit : MergeInv runs.flatten
      ((∀ run ∈ runs, SortedByHash run) ∧ ∀ run ∈ runs, ∀ r ∈ run, r.hash.length = HASH_SIZE)
      (runs.map (fun r => RunReader.init r B)) [] [] := by
    refine ⟨?_, ?_, ?_⟩
    · intro rd hrd
      obtain ⟨r, _, rfl⟩ := List.mem_map.1 hrd
      exact (init_spec r B hB).1
    · simp [content, hrem]
    · rintro ⟨hs, hl⟩
      refine ⟨?_, ?_, ?_, ?_, List.Pairwise.nil⟩
      · intro x hx
        simp only [content, List.map_nil, List.nil_append, hrem, List.mem_flatten] at hx
        obtain ⟨run, hrun, hxr⟩ := hx
        exact hl run hrun x hxr
      · intro rd hrd
        obtain ⟨r, hr, rfl⟩ := List.mem_map.1 hrd
        rw [(init_spec r B hB).2]
        exact pairwise_of_sorted r (hs r hr) (hl r hr)
      · intro m hm; simp at hm
      · intro a ha; simp at ha
  obtain ⟨h1, h2⟩ := seed_loop_spec _ _ (runs.map (fun r => RunReader.init r B)).length 0
    (runs.map (fun r => RunReader.init r B)) [] hinit (by intro r hr; omega) (by omega)
  have hfuel : (content (seed_loop (runs.map (fun r => RunReader.init r B)).length 0
      (runs.map (fun r => RunReader.init r B)) []).1
      (seed_loop (runs.map (fun r => RunReader.init r B)).length 0
      (runs.map (fun r => RunReader.init r B)) []).2).length
      ≤ (runs.map List.length).sum := by
    have := h1.2.1.length_eq
    simp only [List.nil_append, List.length_flatten] at this
    omega
  obtain ⟨st', h3, h4, h5, h6⟩ := merge_loop_spec B _ _ _
    { readers := (seed_loop (runs.map (fun r => RunReader.init r B)).length 0
        (runs.map (fun r => RunReader.init r B)) []).1,
      pq := (seed_loop (runs.map (fun r => RunReader.init r B)).length 0
        (runs.map (fun r => RunReader.init r B)) []).2,
      outbuf := [], out := [] } h1 h2 hfuel
  have hcontent : content st'.readers st'.pq = [] := by
    unfold content
    rw [h6]
    simp only [List.map_nil, List.nil_append, List.flatten_eq_nil_iff, List.mem_map,
      forall_exists_index, and_imp, forall_apply_eq_imp_iff₂]
    intro rd hrd
    obtain ⟨i, hi, rfl⟩ := List.getElem_of_mem hrd
    by_contra hne
    obtain ⟨m, hm, _⟩ := h5 i _ (List.getElem?_eq_getElem hi) hne
    rw [h6] at hm
    simp at hm
  have hout : (if st'.outbuf ≠ [] then st'.out ++ st'.outbuf else st'.out)
      = st'.out ++ st'.outbuf := by
    by_cases h : st'.outbuf = []
    · simp [h]
    · simp [h]
  refine ⟨st'.out ++ st'.outbuf, ?_, ?_, ?_⟩
  · unfold merge_runs
    simp only [h3, hout]
  · have := h4.2.1
    rw [hcontent, List.append_nil] at this
    exact this
  · intro hs hl
    exact sorted_of_pairwise _ (h4.2.2 ⟨hs, hl⟩).2.2.2.2

/-! ## Properties of the merge -/

/-- C4. For run files each sorted ascending by hash and a buffer capacity of
at least 1, `merge_runs` ends and the records it writes to the final file are
sorted: every adjacent pair satisfies `cmp_hash(r_i.hash, r_{i+1}.hash) <= 0`.
The hash arrays have their `HASH_SIZE` bytes. -/
theorem merge_runs_sorted (runs : List (List Record)) (B : Nat) (hB : 1 ≤ B)
    (hs : ∀ run ∈ runs, SortedByHash run)
    (hl : ∀ run ∈ runs, ∀ r ∈ run, r.hash.length = HASH_SIZE) :
    ∃ out, merge_runs runs B = some out ∧ SortedByHash out := by
  obtain ⟨out, h1, _, h3⟩ := merge_runs_spec runs B hB
  exact ⟨out, h1, h3 hs hl⟩

/-- C4, at two run files of three and two records and capacity 2. -/
theorem merge_runs_sorted_witness :
    1 ≤ 2 ∧ (∀ run ∈ sample_runs, SortedByHash run) ∧
    (∀ run ∈ sample_runs, ∀ r ∈ run, r.hash.length = HASH_SIZE) ∧
    ∃ out, merge_runs sample_runs 2 = some out ∧ SortedByHash out :=
  ⟨by decide, by decide, by decide,
    merge_runs_sorted sample_runs 2 (by decide) (by decide) (by decide)⟩

/-- C5. For every list of run files and every buffer capacity of at least 1,
`merge_runs` ends and the records it writes to the final file are a
rearrangement of the records of all run files, so that the final file has as
many records as the run files together. -/
theorem merge_runs_perm (runs : List (List Record)) (B : Nat) (hB : 1 ≤ B) :
    ∃ out, merge_runs runs B = some out ∧ out.Perm runs.flatten ∧
      out.length = (runs.map List.length).sum := by
  obtain ⟨out, h1, h2, _⟩ := merge_runs_spec runs B hB
  refine ⟨out, h1, h2, ?_⟩
  rw [h2.length_eq, List.length_flatten]

/-- C5, at two run files of three and two records and capacity 2. -/
theorem merge_runs_perm_witness :
    1 ≤ 2 ∧ ∃ out, merge_runs sample_runs 2 = some out ∧ out.Perm sample_runs.flatten ∧
      out.length = (sample_runs.map List.length).sum :=
  ⟨by decide, merge_runs_perm sample_runs 2 (by decide)⟩

/-! ## Run production -/

theorem u64_of_lt (x : Nat) (h : x < 2 ^ 64) : u64 x = x := Nat.mod_eq_of_lt h

theorem filled_length (blake3 : List Nat → List Nat) (produced todo k : Nat) :
    (filled blake3 produced todo k).length = todo := by
  simp [filled]

theorem filled_zero (blake3 : List Nat → List Nat) (produced todo : Nat) :
    filled blake3 produced todo 0 = List.replicate todo zero_record := by
  unfold filled
  apply List.ext_getElem
  · simp
  · intro i h1 h2
    simp

theorem filled_set (blake3 : List Nat → List Nat) (produced todo k : Nat) :
    (filled blake3 produced todo k).set k (gen_record blake3 (u64 (produced + k)))
      = filled blake3 produced todo (k + 1) := by
  unfold filled
  apply List.ext_getElem
  · simp
  · intro i h1 h2
    simp only [List.length_set, List.length_map, List.length_range] at h1
    rw [List.getElem_set]
    simp only [List.getElem_map, List.getElem_range]
    by_cases hik : k = i
    · subst hik; simp
    · have h3 : (i < k + 1) ↔ (i < k) := by omega
      simp [hik, h3]

theorem gen_range_filled (blake3 : List Nat → List Nat) (produced todo : Nat) :
    ∀ len start, start + len ≤ todo →
      (List.range' start len).foldl
        (fun o i => o.set i (gen_record blake3 (u64 (produced + i))))
        (filled blake3 produced todo start)
      = filled blake3 produced todo (start + len) := by
  intro len
  induction len with
  | zero => intro start _; rfl
  | succ len ih =>
    intro start h
    simp only [List.range'_succ, List.foldl_cons]
    rw [filled_set blake3 produced todo start, ih (start + 1) (by omega)]
    congr 1
    omega

theorem gen_range_spec (blake3 : List Nat → List Nat) (produced todo start end_ : Nat)
    (h1 : start ≤ end_) (h2 : end_ ≤ todo) :
    gen_range blake3 produced start end_ (filled blake3 produced todo start)
      = filled blake3 produced todo end_ := by
  unfold gen_range
  rw [gen_range_filled blake3 produced todo (end_ - start) start (by omega)]
  congr 1
  omega

theorem filled_of_ge (blake3 : List Nat → List Nat) (produced todo k : Nat) (hk : todo ≤ k) :
    filled blake3 produced todo k
      = (List.range todo).map (fun i => gen_record blake3 (u64 (produced + i))) := by
  unfold filled
  apply List.map_congr_left
  intro i hi
  have : i < k := by
    have := List.mem_range.1 hi
    omega
  simp [this]

theorem fill_workers_spec (blake3 : List Nat → List Nat) (produced todo chunk T : Nat)
    (htodo : todo ≤ 2 ^ 63) (hchunk : chunk ≤ todo) (hcover : todo ≤ T * chunk) :
    ∀ n th, th + n = T → (th = 0 ∨ (th - 1) * chunk < todo) →
      fill_workers blake3 produced todo chunk n th
        (filled blake3 produced todo (min todo (th * chunk)))
      = filled blake3 produced todo todo := by
  intro n
  induction n with
  | zero =>
    intro th hth _
    simp only [Nat.add_zero] at hth
    subst hth
    simp only [fill_workers]
    rw [Nat.min_eq_left hcover]
  | succ n ih =>
    intro th hth hprev
    have hpow : (2 : Nat) ^ 64 = 2 ^ 63 + 2 ^ 63 := by norm_num
    have hbound : th * chunk < 2 ^ 64 ∧ (th * chunk < todo → th * chunk + chunk < 2 ^ 64) := by
      by_cases h0 : th = 0
      · subst h0
        simp only [Nat.zero_mul, Nat.zero_add]
        omega
      · have hth1 : th = (th - 1) + 1 := by omega
        have hmul : th * chunk = (th - 1) * chunk + chunk := by
          conv_lhs => rw [hth1]
          rw [Nat.add_mul, Nat.one_mul]
        rcases hprev with h | h
        · exact absurd h h0
        · omega
    have hstart : u64 (th * chunk) = th * chunk := u64_of_lt _ hbound.1
    simp only [fill_workers, hstart]
    by_cases hge : th * chunk ≥ todo
    · simp only [hge, if_true]
      rw [Nat.min_eq_left hge]
    · simp only [hge, if_false]
      have hend : u64 (th * chunk + chunk) = (th + 1) * chunk := by
        rw [u64_of_lt _ (hbound.2 (by omega)), Nat.add_mul, Nat.one_mul]
      rw [hend]
      have hmin : min todo (th * chunk) = th * chunk := by omega
      rw [hmin]
      have hle : th * chunk ≤ (th + 1) * chunk := by
        rw [Nat.add_mul, Nat.one_mul]; omega
      rw [gen_range_spec blake3 produced todo (th * chunk) (min todo ((th + 1) * chunk))
        (by omega) (by omega)]
      apply ih (th + 1) (by omega)
      right
      simp only [Nat.add_sub_cancel]
      omega

theorem chunk_bounds (todo T : Nat) (hT : 1 ≤ T) :
    (todo + T - 1) / T ≤ todo ∧ todo ≤ T * ((todo + T - 1) / T) := by
  constructor
  · rcases Nat.eq_zero_or_pos todo with h0 | h0
    · subst h0
      rw [Nat.div_eq_of_lt (by omega)]
    · apply Nat.div_le_of_le_mul
      obtain ⟨t, rfl⟩ : ∃ t, T = t + 1 := ⟨T - 1, by omega⟩
      obtain ⟨d, rfl⟩ : ∃ d, todo = d + 1 := ⟨todo - 1, by omega⟩
      have : (t + 1) * (d + 1) = t * d + t + d + 1 := by ring
      omega
  · have h1 := Nat.div_add_mod (todo + T - 1) T
    have h2 := Nat.mod_lt (todo + T - 1) (by omega : T > 0)
    omega

theorem std_sort_perm (less : Record → Record → Bool) (l : List Record) :
    (std_sort less l).Perm l := by
  unfold std_sort
  exact List.perm_insertionSort _ l

theorem produce_run_length (blake3 : List Nat → List Nat) (T produced todo : Nat) :
    (produce_run blake3 T produced todo).length = todo := by
  have hfill : ∀ n th (buf : List Record) chunk,
      (fill_workers blake3 produced todo chunk n th buf).length = buf.length := by
    intro n
    induction n with
    | zero => intro th buf chunk; rfl
    | succ n ih =>
      intro th buf chunk
      simp only [fill_workers]
      split
      · rfl
      · rw [ih]
        unfold gen_range
        generalize List.range' _ _ = l
        induction l generalizing buf with
        | nil => rfl
        | cons a l ihl => simp only [List.foldl_cons]; rw [ihl]; simp
  unfold produce_run
  rw [(std_sort_perm _ _).length_eq, hfill]
  simp

theorem produce_run_perm (blake3 : List Nat → List Nat) (T produced todo : Nat)
    (hT : 1 ≤ T) (hT2 : T < 2 ^ 31) (htodo : todo ≤ 2 ^ 63) :
    (produce_run blake3 T produced todo).Perm
      ((List.range todo).map (fun i => gen_record blake3 (u64 (produced + i)))) := by
  unfold produce_run
  refine (std_sort_perm _ _).trans ?_
  have hu : u64 (todo + T - 1) = todo + T - 1 := by
    apply u64_of_lt
    have : (2 : Nat) ^ 64 = 2 ^ 63 + 2 ^ 63 := by norm_num
    have : (2 : Nat) ^ 31 ≤ 2 ^ 63 := by norm_num
    omega
  obtain ⟨hc1, hc2⟩ := chunk_bounds todo T hT
  have h := fill_workers_spec blake3 produced todo ((todo + T - 1) / T) T htodo hc1 hc2
    T 0 (by omega) (Or.inl rfl)
  simp only [Nat.zero_mul, Nat.min_zero, Nat.zero_le, Nat.min_eq_right] at h
  rw [filled_zero] at h
  rw [hu, h, filled_of_ge _ _ _ _ (Nat.le_refl _)]

theorem produce_runs_loop_spec (blake3 : List Nat → List Nat) (total R T : Nat)
    (htotal : total < 2 ^ 64) (hR : 1 ≤ R) :
    ∀ fuel produced runs, produced ≤ total → total - produced ≤ fuel →
      ∃ rs, produce_runs_loop blake3 total R T fuel produced runs = some (runs ++ rs) ∧
        (rs.map List.length).sum = total - produced ∧
        (∀ pre run post, rs = pre ++ run :: post →
          run.length = min R (total - (produced + (pre.map List.length).sum))) ∧
        (1 ≤ T → T < 2 ^ 31 → total ≤ 2 ^ 63 →
          rs.flatten.Perm ((List.range' produced (total - produced)).map (gen_record blake3))) := by
  intro fuel
  induction fuel with
  | zero =>
    intro produced runs h1 h2
    have : ¬ produced < total := by omega
    refine ⟨[], by simp [produce_runs_loop, this], by simp; omega, ?_, ?_⟩
    · intro pre run post h; simp at h
    · intro _ _ _
      have : total - produced = 0 := by omega
      simp [this]
  | succ fuel ih =>
    intro produced runs h1 h2
    by_cases hlt : produced < total
    · have hsub : u64 (total - produced) = total - produced := u64_of_lt _ (by omega)
      have htodo1 : 1 ≤ min R (total - produced) := by omega
      have hadd : u64 (produced + min R (total - produced)) = produced + min R (total - produced) :=
        u64_of_lt _ (by omega)
      obtain ⟨rs, e1, e2, e3, e4⟩ := ih (produced + min R (total - produced))
        (runs ++ [produce_run blake3 T produced (min R (total - produced))])
        (by omega) (by omega)
      refine ⟨produce_run blake3 T produced (min R (total - produced)) :: rs, ?_, ?_, ?_, ?_⟩
      · simp only [produce_runs_loop, hlt, if_true, hsub, hadd]
        rw [e1]
        simp
      · simp only [List.map_cons, List.sum_cons, produce_run_length, e2]
        omega
      · intro pre run post h
        cases pre with
        | nil =>
          simp only [List.nil_append, List.cons.injEq] at h
          rw [← h.1, produce_run_length]
          simp
        | cons p pre =>
          simp only [List.cons_append, List.cons.injEq] at h
          rw [e3 pre run post h.2, ← h.1]
          simp only [List.map_cons, List.sum_cons, produce_run_length]
          congr 2
          omega
      · intro hT1 hT2 ht
        have hp := produce_run_perm blake3 T produced (min R (total - produced)) hT1 hT2
          (by omega)
        have hmap : (List.range (min R (total - produced))).map
            (fun i => gen_record blake3 (u64 (produced + i)))
            = (List.range' produced (min R (total - produced))).map (gen_record blake3) := by
          rw [List.range'_eq_map_range, List.map_map]
          apply List.map_congr_left
          intro i hi
          have := List.mem_range.1 hi
          simp only [Function.comp_apply]
          rw [u64_of_lt _ (by omega)]
        rw [hmap] at hp
        have hsplit : List.range' produced (total - produced)
            = List.range' produced (min R (total - produced))
              ++ List.range' (produced + min R (total - produced))
                (total - (produced + min R (total - produced))) := by
          rw [List.range'_append_1]
          congr 1
          omega
        rw [hsplit, List.map_append, List.flatten_cons]
        exact List.Perm.append hp (e4 hT1 hT2 ht)
    · have heq : total - produced = 0 := by omega
      refine ⟨[], by simp [produce_runs_loop, hlt], by simp; omega, ?_, ?_⟩
      · intro pre run post h; simp at h
      · intro _ _ _
        simp [heq]

theorem total_records_eq (K : Nat) (hK : K < 64) : total_records K = 2 ^ K := by
  unfold total_records
  rw [Nat.mod_eq_of_lt hK, Nat.shiftLeft_eq, Nat.one_mul]
  exact u64_of_lt _ (Nat.pow_lt_pow_right (by norm_num) hK)

theorem total_records_mod (K : Nat) : total_records K = 2 ^ (K % 64) := by
  unfold total_records
  rw [Nat.shiftLeft_eq, Nat.one_mul]
  exact u64_of_lt _ (Nat.pow_lt_pow_right (by norm_num) (Nat.mod_lt K (by norm_num)))

theorem total_records_le (K : Nat) : total_records K ≤ 2 ^ 63 := by
  rw [total_records_mod]
  have := Nat.mod_lt K (show 64 > 0 by norm_num)
  exact Nat.pow_le_pow_right (by norm_num) (by omega)

theorem max_recs_per_run_pos (M : Nat) : 1 ≤ max_recs_per_run M := by
  unfold max_recs_per_run
  exact Nat.le_max_left _ _

/-- What the build does: the run production loop ends with run files of the
sizes `min(R, total - produced)`, the merge ends, and the final file has
`total_records` records, which are, for at least one and fewer than 2^31
worker threads, the records generated for the nonces below `total_records`. -/
theorem build_final_spec (blake3 : List Nat → List Nat) (K M T : Nat) :
    ∃ runs final,
      produce_runs_loop blake3 (total_records K) (max_recs_per_run M) T (total_records K) 0 []
        = some runs ∧
      build_final blake3 K M T = some final ∧
      (runs.map List.length).sum = total_records K ∧
      (∀ pre run post, runs = pre ++ run :: post →
        run.length = min (max_recs_per_run M) (total_records K - (pre.map List.length).sum)) ∧
      final.Perm runs.flatten ∧
      (1 ≤ T → T < 2 ^ 31 →
        final.Perm ((List.range (total_records K)).map (gen_record blake3))) := by
  have hle := total_records_le K
  have hlt : total_records K < 2 ^ 64 := by
    have : (2 : Nat) ^ 63 < 2 ^ 64 := by norm_num
    omega
  obtain ⟨rs, e1, e2, e3, e4⟩ := produce_runs_loop_spec blake3 (total_records K)
    (max_recs_per_run M) T hlt (max_recs_per_run_pos M) (total_records K) 0 []
    (Nat.zero_le _) (by omega)
  simp only [List.nil_append, Nat.sub_zero, Nat.zero_add] at e1 e2 e3 e4
  obtain ⟨out, m1, m2, _⟩ := merge_runs_spec rs 65536 (by norm_num)
  refine ⟨rs, out, e1, ?_, e2, e3, m2, ?_⟩
  · unfold build_final
    simp only [e1, m1]
  · intro hT1 hT2
    have := e4 hT1 hT2 hle
    rw [← List.range_eq_range'] at this
    exact m2.trans this

/-! ## The nonce bytes -/

theorem and_ff_eq_mod (x : Nat) : x &&& 0xFF = x % 256 := by
  have := Nat.and_pow_two_sub_one_eq_mod x 8
  simpa using this

theorem shl_or_eq (d b : Nat) (hb : b < 256) : (d <<< 8) ||| b = d * 256 + b := by
  have h := Nat.mul_add_lt_is_or (i := 8) (b := b) (by simpa using hb) d
  have h2 : d <<< 8 = 2 ^ 8 * d := by rw [Nat.shiftLeft_eq, Nat.mul_comm]
  rw [h2, ← h]
  all_goals omega

theorem encode_nonce_eq (v : Nat) :
    encode_nonce v (List.replicate NONCE_SIZE 0)
      = [v % 256, v / 256 % 256, v / 256 / 256 % 256, v / 256 / 256 / 256 % 256,
         v / 256 / 256 / 256 / 256 % 256, v / 256 / 256 / 256 / 256 / 256 % 256] := by
  have hr : List.range NONCE_SIZE = [0, 1, 2, 3, 4, 5] := by decide
  unfold encode_nonce
  rw [hr]
  simp [NONCE_SIZE, and_ff_eq_mod, Nat.shiftRight_eq_div_pow]

theorem decode_encode_nonce (v : Nat) :
    decode_nonce (encode_nonce v (List.replicate NONCE_SIZE 0)) = v % 2 ^ 48 := by
  rw [encode_nonce_eq]
  have hr : (List.range NONCE_SIZE).reverse = [5, 4, 3, 2, 1, 0] := by decide
  unfold decode_nonce
  rw [hr]
  simp only [List.foldl_cons, List.foldl_nil, List.getD_cons_zero, List.getD_cons_succ]
  have h0 : u64 (0 <<< 8) = 0 := by simp [u64]
  rw [h0]
  have hstep : ∀ d b : Nat, d < 2 ^ 56 → b < 256 → u64 (d <<< 8) ||| b = d * 256 + b := by
    intro d b hd hb
    have : u64 (d <<< 8) = d <<< 8 := by
      unfold u64
      rw [Nat.shiftLeft_eq]
      exact Nat.mod_eq_of_lt (by omega)
    rw [this, shl_or_eq d b hb]
  rw [Nat.zero_or]
  simp (disch := omega) only [hstep]
  omega

theorem decode_gen_record (blake3 : List Nat → List Nat) (v : Nat) :
    decode_nonce (gen_record blake3 v).nonce = v % 2 ^ 48 := by
  unfold gen_record
  exact decode_encode_nonce v

/-! ## Properties of the build -/

/-- C6 as amended. For every exponent `K` up to `8 * NONCE_SIZE = 48`, every
memory budget and every thread count from 1 (an `int`, so below 2^31), the
build ends and the nonces of the records of the final file, each decoded as
`print_first` decodes it, are a rearrangement of `0, 1, ..., 2^K - 1`: every
nonce below `2^K` appears exactly once. -/
theorem build_final_nonces (blake3 : List Nat → List Nat) (K M T : Nat) (hK : K ≤ 48)
    (hT1 : 1 ≤ T) (hT2 : T < 2 ^ 31) :
    ∃ final, build_final blake3 K M T = some final ∧
      (final.map (fun r => decode_nonce r.nonce)).Perm (List.range (2 ^ K)) ∧
      ∀ v, v < 2 ^ K → (final.map (fun r => decode_nonce r.nonce)).count v = 1 := by
  obtain ⟨runs, final, _, h2, _, _, _, h6⟩ := build_final_spec blake3 K M T
  have hp := h6 hT1 hT2
  rw [total_records_eq K (by omega)] at hp
  have hpow : 2 ^ K ≤ 2 ^ 48 := Nat.pow_le_pow_right (by norm_num) hK
  have hmap : ((List.range (2 ^ K)).map (gen_record blake3)).map (fun r => decode_nonce r.nonce)
      = List.range (2 ^ K) := by
    rw [List.map_map]
    conv_rhs => rw [← List.map_id (List.range (2 ^ K))]
    apply List.map_congr_left
    intro v hv
    have := List.mem_range.1 hv
    simp only [Function.comp_apply, decode_gen_record, id_eq]
    exact Nat.mod_eq_of_lt (by omega)
  have hperm : (final.map (fun r => decode_nonce r.nonce)).Perm (List.range (2 ^ K)) := by
    have := hp.map (fun r => decode_nonce r.nonce)
    rw [hmap] at this
    exact this
  refine ⟨final, h2, hperm, ?_⟩
  intro v hv
  rw [hperm.count_eq]
  exact List.count_eq_one_of_mem (List.nodup_range _) (List.mem_range.2 hv)

/-- C6 as amended, at `K = 3`, 1 MB and 2 threads. -/
theorem build_final_nonces_witness :
    3 ≤ 48 ∧ 1 ≤ 2 ∧ 2 < 2 ^ 31 ∧
    ∃ final, build_final sample_digest 3 1 2 = some final ∧
      (final.map (fun r => decode_nonce r.nonce)).Perm (List.range (2 ^ 3)) ∧
      ∀ v, v < 2 ^ 3 → (final.map (fun r => decode_nonce r.nonce)).count v = 1 :=
  ⟨by decide, by decide, by decide,
    build_final_nonces sample_digest 3 1 2 (by decide) (by decide) (by decide)⟩

/-- C6 as stated fails at `K = 49`, 1048576 MB (8192 run files) and 1 thread:
the build ends, but the decoded nonces of the final file are not a
rearrangement of `0, ..., 2^49 - 1`, because a nonce of 6 bytes cannot hold
`2^48`: `gen_range` stores it as six zero bytes, those of nonce 0. -/
theorem nonce_wrap_at_exponent_49 :
    ∃ final, build_final sample_digest 49 1048576 1 = some final ∧
      ¬ (final.map (fun r => decode_nonce r.nonce)).Perm (List.range (2 ^ 49)) := by
  obtain ⟨runs, final, _, h2, _, _, _, h6⟩ := build_final_spec sample_digest 49 1048576 1
  have hp := h6 (by norm_num) (by norm_num)
  rw [total_records_eq 49 (by norm_num)] at hp
  refine ⟨final, h2, ?_⟩
  intro hperm
  have hmem : 2 ^ 48 ∈ final.map (fun r => decode_nonce r.nonce) :=
    hperm.symm.subset (List.mem_range.2 (by norm_num))
  obtain ⟨r, hr, hdec⟩ := List.mem_map.1 hmem
  obtain ⟨v, _, hv⟩ := List.mem_map.1 (hp.subset hr)
  rw [← hv, decode_gen_record] at hdec
  have := Nat.mod_lt v (show 2 ^ 48 > 0 by norm_num)
  omega

/-- C7 as amended. For every exponent `K ≤ 63` and memory budget `M` (an `int`
number of MB), the run production loop ends; each run file holds
`min(R, 2^K - produced)` records, `produced` being the records of the earlier
run files and `R = max(1, floor(M * 2^20 / record_size))`; the run record
counts sum to `2^K`, which is the value of `(uint64_t)1 << K`; and the final
file has `2^K * record_size` bytes. -/
theorem run_production_counts (blake3 : List Nat → List Nat) (K M T : Nat)
    (hK : K ≤ 63) (hM : M < 2 ^ 31) :
    ∃ runs final,
      produce_runs_loop blake3 (total_records K) (max_recs_per_run M) T (total_records K) 0 []
        = some runs ∧
      build_final blake3 K M T = some final ∧
      total_records K = 2 ^ K ∧
      max_recs_per_run M = max 1 (M * 2 ^ 20 / rec_size) ∧
      (∀ pre run post, runs = pre ++ run :: post →
        run.length = min (max 1 (M * 2 ^ 20 / rec_size)) (2 ^ K - (pre.map List.length).sum)) ∧
      (runs.map List.length).sum = 2 ^ K ∧
      final.length * rec_size = 2 ^ K * rec_size := by
  obtain ⟨runs, final, h1, h2, h3, h4, h5, _⟩ := build_final_spec blake3 K M T
  have ht : total_records K = 2 ^ K := total_records_eq K (by omega)
  have hR : max_recs_per_run M = max 1 (M * 2 ^ 20 / rec_size) := by
    unfold max_recs_per_run
    have : u64 (M * 1024 * 1024) = M * 2 ^ 20 := by
      rw [u64_of_lt _ (by omega)]
      omega
    simp only [this]
  rw [ht] at h3
  refine ⟨runs, final, h1, h2, ht, hR, ?_, h3, ?_⟩
  · intro pre run post hsplit
    rw [← hR, ← ht]
    exact h4 pre run post hsplit
  · rw [h5.length_eq, List.length_flatten, h3]

/-- C7 as amended, at `K = 3`, 1 MB and 2 threads. -/
theorem run_production_counts_witness :
    (3 ≤ 63 ∧ 1 < 2 ^ 31) ∧
    ∃ runs final,
      produce_runs_loop sample_digest (total_records 3) (max_recs_per_run 1) 2
        (total_records 3) 0 [] = some runs ∧
      build_final sample_digest 3 1 2 = some final ∧
      total_records 3 = 2 ^ 3 ∧
      max_recs_per_run 1 = max 1 (1 * 2 ^ 20 / rec_size) ∧
      (∀ pre run post, runs = pre ++ run :: post →
        run.length = min (max 1 (1 * 2 ^ 20 / rec_size)) (2 ^ 3 - (pre.map List.length).sum)) ∧
      (runs.map List.length).sum = 2 ^ 3 ∧
      final.length * rec_size = 2 ^ 3 * rec_size :=
  ⟨by decide, run_production_counts sample_digest 3 1 2 (by decide) (by decide)⟩

/-- C7 as stated fails at `K = 64`, 1 MB and 1 thread: `(uint64_t)1 << 64` is
not `2^64`. The shift is undefined in C++ there; the shift instruction takes
the count modulo 64 and gives 1, and no `uint64_t` is `2^64`. The loop makes
one run of one record and the final file has 16 bytes. -/
theorem run_counts_at_exponent_64 :
    ∃ runs final,
      produce_runs_loop sample_digest (total_records 64) (max_recs_per_run 1) 1
        (total_records 64) 0 [] = some runs ∧
      build_final sample_digest 64 1 1 = some final ∧
      (runs.map List.length).sum = 1 ∧
      final.length * rec_size = 16 ∧
      (runs.map List.length).sum ≠ 2 ^ 64 ∧
      final.length * rec_size ≠ 2 ^ 64 * rec_size := by
  obtain ⟨runs, final, h1, h2, h3, _, h5, _⟩ := build_final_spec sample_digest 64 1 1
  have ht : total_records 64 = 1 := by decide
  rw [ht] at h3
  have hlen : final.length = 1 := by
    rw [h5.length_eq, List.length_flatten, h3]
  have h16 : rec_size = 16 := rfl
  refine ⟨runs, final, h1, h2, h3, ?_, ?_, ?_⟩
  · rw [hlen, h16]
  · rw [h3]; norm_num
  · rw [hlen, h16]; norm_num

/-- C8. For a fixed exponent `K` and any two configurations `(M1, T1)` and
`(M2, T2)` with thread counts from 1 (an `int`, so below 2^31), both builds
end and the records of the two final files are rearrangements of each other:
the multiset of records depends on `K` alone. -/
theorem build_final_config_independent (blake3 : List Nat → List Nat)
    (K M1 T1 M2 T2 : Nat) (h1 : 1 ≤ T1) (h1' : T1 < 2 ^ 31) (h2 : 1 ≤ T2)
    (h2' : T2 < 2 ^ 31) :
    ∃ f1 f2, build_final blake3 K M1 T1 = some f1 ∧ build_final blake3 K M2 T2 = some f2 ∧
      f1.Perm f2 := by
  obtain ⟨_, f1, _, a2, _, _, _, a6⟩ := build_final_spec blake3 K M1 T1
  obtain ⟨_, f2, _, b2, _, _, _, b6⟩ := build_final_spec blake3 K M2 T2
  exact ⟨f1, f2, a2, b2, (a6 h1 h1').trans (b6 h2 h2').symm⟩

/-- C8, at `K = 3` with 1 MB and 2 threads against 4 MB and 3 threads. -/
theorem build_final_config_independent_witness :
    1 ≤ 2 ∧ 2 < 2 ^ 31 ∧ 1 ≤ 3 ∧ 3 < 2 ^ 31 ∧
    ∃ f1 f2, build_final sample_digest 3 1 2 = some f1 ∧
      build_final sample_digest 3 4 3 = some f2 ∧ f1.Perm f2 :=
  ⟨by decide, by decide, by decide, by decide,
    build_final_config_independent sample_digest 3 1 2 4 3 (by decide) (by decide)
      (by decide) (by decide)⟩


/-! ## Counters and failed reads -/

theorem clog_halve (d : Nat) (hd : 1 ≤ d) :
    Nat.clog 2 (d / 2 + 1) + 1 = Nat.clog 2 (d + 1) := by
  rw [Nat.clog_of_two_le (by norm_num) (by omega : 2 ≤ d + 1)]
  congr 2
  omega

/-- The run of a bisection loop from `(lo, hi)`: it ends, `seeks` and `comps`
grow by the number of iterations, which is at most `ceil(log2(hi - lo + 1))`,
`reads_ok` grows as much when every probe is read, and a probe that is not
read is the last one, with `lo` returned as it stands. -/
theorem bisect_loop_trace (fd : Fd) (p : List Nat → Bool) :
    ∀ fuel lo hi c, hi - lo ≤ fuel →
      ∃ r c', bisect_loop fd p fuel lo hi c = some (r, c') ∧
        c'.seeks = c.seeks + (bisect_states fd p fuel lo hi).length ∧
        c'.comps = c.comps + (bisect_states fd p fuel lo hi).length ∧
        (bisect_states fd p fuel lo hi).length ≤ Nat.clog 2 (hi - lo + 1) ∧
        ((∀ s ∈ bisect_states fd p fuel lo hi, read_hash_at fd (probe_of s) ≠ none) →
          c'.reads_ok = c.reads_ok + (bisect_states fd p fuel lo hi).length) ∧
        (∀ s ∈ bisect_states fd p fuel lo hi, read_hash_at fd (probe_of s) = none →
          (bisect_states fd p fuel lo hi).getLast? = some s ∧ r = s.1 ∧
          c'.reads_ok + 1 = c.reads_ok + (bisect_states fd p fuel lo hi).length) := by
  intro fuel
  induction fuel with
  | zero =>
    intro lo hi c h
    have : ¬ lo < hi := by omega
    refine ⟨lo, c, by simp [bisect_loop, this], ?_⟩
    simp [bisect_states]
  | succ n ih =>
    intro lo hi c h
    by_cases hlt : lo < hi
    · have hdiv : (hi - lo) >>> 1 = (hi - lo) / 2 := by
        simp [Nat.shiftRight_eq_div_pow]
      have hclog := clog_halve (hi - lo) (by omega)
      simp only [bisect_loop, bisect_states, hlt, if_true, hdiv]
      cases hr : read_hash_at fd (lo + (hi - lo) / 2) with
      | none =>
        refine ⟨lo, _, rfl, by simp, by simp, ?_, ?_, ?_⟩
        · simp only [List.length_singleton]; omega
        · intro hall
          exact absurd (by simpa [probe_of, hdiv] using hr)
            (hall (lo, hi) (List.mem_singleton.2 rfl))
        · intro s hs _
          simp only [List.mem_singleton] at hs
          subst hs
          simp
      | some h1 =>
        have key : ∀ lo' hi', hi' - lo' ≤ n → hi' - lo' ≤ (hi - lo) / 2 →
            ∃ r c', bisect_loop fd p n lo' hi'
                { comps := c.comps + 1, seeks := c.seeks + 1, reads_ok := c.reads_ok + 1 }
                = some (r, c') ∧
              c'.seeks = c.seeks + ((lo, hi) :: bisect_states fd p n lo' hi').length ∧
              c'.comps = c.comps + ((lo, hi) :: bisect_states fd p n lo' hi').length ∧
              ((lo, hi) :: bisect_states fd p n lo' hi').length ≤ Nat.clog 2 (hi - lo + 1) ∧
              ((∀ s ∈ (lo, hi) :: bisect_states fd p n lo' hi',
                  read_hash_at fd (probe_of s) ≠ none) →
                c'.reads_ok = c.reads_ok + ((lo, hi) :: bisect_states fd p n lo' hi').length) ∧
              (∀ s ∈ (lo, hi) :: bisect_states fd p n lo' hi',
                read_hash_at fd (probe_of s) = none →
                ((lo, hi) :: bisect_states fd p n lo' hi').getLast? = some s ∧ r = s.1 ∧
                c'.reads_ok + 1
                  = c.reads_ok + ((lo, hi) :: bisect_states fd p n lo' hi').length) := by
          intro lo' hi' hf hhalf
          obtain ⟨r, c', e1, e2, e3, e4, e5, e6⟩ := ih lo' hi'
            { comps := c.comps + 1, seeks := c.seeks + 1, reads_ok := c.reads_ok + 1 } hf
          have hmono := Nat.clog_mono_right 2 (by omega : hi' - lo' + 1 ≤ (hi - lo) / 2 + 1)
          refine ⟨r, c', e1, ?_, ?_, ?_, ?_, ?_⟩
          · simp only [List.length_cons]; simp only at e2; omega
          · simp only [List.length_cons]; simp only at e3; omega
          · simp only [List.length_cons]; omega
          · intro hall
            have := e5 (fun s hs => hall s (List.mem_cons_of_mem _ hs))
            simp only [List.length_cons]; simp only at this; omega
          · intro s hs hfail
            rcases List.mem_cons.1 hs with rfl | hs
            · simp [probe_of, hdiv, hr] at hfail
            · obtain ⟨g1, g2, g3⟩ := e6 s hs hfail
              refine ⟨?_, g2, ?_⟩
              · rw [List.getLast?_cons, g1]; rfl
              · simp only [List.length_cons]; simp only at g3; omega
        by_cases hp : p h1 = true
        · simp only [hp, if_true]
          exact key _ _ (by omega) (by omega)
        · simp only [hp]
          exact key _ _ (by omega) (by omega)
    · refine ⟨lo, c, by simp [bisect_loop, hlt], ?_⟩
      simp [bisect_states, hlt]

/-- C11. For every descriptor (sorted or not, reads succeeding or failing),
every `N` and every key, a call of `lower_bound_fd` and a call of
`upper_bound_fd` each return, with `seeks` and `comps` increased by the same
amount `k`, and `k <= ceil(log2(N + 1))`. -/
theorem bisection_counters_bound (fd : Fd) (N : Nat) (key : List Nat) (c : Counters) :
    (∃ r c' k, lower_bound_fd fd N key c = some (r, c') ∧
      c'.seeks = c.seeks + k ∧ c'.comps = c.comps + k ∧ k ≤ Nat.clog 2 (N + 1)) ∧
    (∃ r c' k, upper_bound_fd fd N key c = some (r, c') ∧
      c'.seeks = c.seeks + k ∧ c'.comps = c.comps + k ∧ k ≤ Nat.clog 2 (N + 1)) := by
  constructor
  · obtain ⟨r, c', e1, e2, e3, e4, _⟩ :=
      bisect_loop_trace fd (fun h => decide (cmp_hash h key < 0)) N 0 N c (by omega)
    refine ⟨r, c', _, ?_, e2, e3, by simpa using e4⟩
    rw [lower_bound_fd, lower_bound_loop_eq_bisect]; exact e1
  · obtain ⟨r, c', e1, e2, e3, e4, _⟩ :=
      bisect_loop_trace fd (fun h => decide (cmp_hash h key ≤ 0)) N 0 N c (by omega)
    refine ⟨r, c', _, ?_, e2, e3, by simpa using e4⟩
    rw [upper_bound_fd, upper_bound_loop_eq_bisect]; exact e1


theorem bisect_loop_failed_read (fd : Fd) (p : List Nat → Bool) (fuel lo hi : Nat)
    (c : Counters) (hlt : lo < hi) (hfail : read_hash_at fd (probe_of (lo, hi)) = none) :
    bisect_loop fd p (fuel + 1) lo hi c
      = some (lo, { comps := c.comps + 1, seeks := c.seeks + 1, reads_ok := c.reads_ok }) := by
  simp only [probe_of] at hfail
  simp [bisect_loop, hlt, hfail]

/-- C12. In `lower_bound_fd` and `upper_bound_fd`, a probe whose positional
read fails ends the loop at once: the value of `lo` of that iteration is
returned, with `seeks` and `comps` counted for the probe and `reads_ok` not.
So over a call, which always returns, `seeks` and `comps` grow by the number
of probes, `reads_ok` grows as much when every probe was read, and by one
less when a probe was not read, that probe being the last. -/
theorem failed_read_stops_bisection (fd : Fd) (N : Nat) (key : List Nat) (c : Counters) :
    (∀ fuel lo hi c0, lo < hi → read_hash_at fd (probe_of (lo, hi)) = none →
      lower_bound_loop fd key (fuel + 1) lo hi c0
        = some (lo, { comps := c0.comps + 1, seeks := c0.seeks + 1,
                      reads_ok := c0.reads_ok })) ∧
    (∀ fuel lo hi c0, lo < hi → read_hash_at fd (probe_of (lo, hi)) = none →
      upper_bound_loop fd key (fuel + 1) lo hi c0
        = some (lo, { comps := c0.comps + 1, seeks := c0.seeks + 1,
                      reads_ok := c0.reads_ok })) ∧
    (∃ r c', lower_bound_fd fd N key c = some (r, c') ∧
      c'.seeks = c.seeks + (lower_bound_states fd N key).length ∧
      c'.comps = c.comps + (lower_bound_states fd N key).length ∧
      ((∀ s ∈ lower_bound_states fd N key, read_hash_at fd (probe_of s) ≠ none) →
        c'.reads_ok = c.reads_ok + (lower_bound_states fd N key).length) ∧
      (∀ s ∈ lower_bound_states fd N key, read_hash_at fd (probe_of s) = none →
        (lower_bound_states fd N key).getLast? = some s ∧ r = s.1 ∧
        c'.reads_ok + 1 = c.reads_ok + (lower_bound_states fd N key).length)) ∧
    (∃ r c', upper_bound_fd fd N key c = some (r, c') ∧
      c'.seeks = c.seeks + (upper_bound_states fd N key).length ∧
      c'.comps = c.comps + (upper_bound_states fd N key).length ∧
      ((∀ s ∈ upper_bound_states fd N key, read_hash_at fd (probe_of s) ≠ none) →
        c'.reads_ok = c.reads_ok + (upper_bound_states fd N key).length) ∧
      (∀ s ∈ upper_bound_states fd N key, read_hash_at fd (probe_of s) = none →
        (upper_bound_states fd N key).getLast? = some s ∧ r = s.1 ∧
        c'.reads_ok + 1 = c.reads_ok + (upper_bound_states fd N key).length)) := by
  refine ⟨?_, ?_, ?_, ?_⟩
  · intro fuel lo hi c0 hlt hfail
    rw [lower_bound_loop_eq_bisect]
    exact bisect_loop_failed_read fd _ fuel lo hi c0 hlt hfail
  · intro fuel lo hi c0 hlt hfail
    rw [upper_bound_loop_eq_bisect]
    exact bisect_loop_failed_read fd _ fuel lo hi c0 hlt hfail
  · obtain ⟨r, c', e1, e2, e3, _, e5, e6⟩ :=
      bisect_loop_trace fd (fun h => decide (cmp_hash h key < 0)) N 0 N c (by omega)
    refine ⟨r, c', ?_, e2, e3, e5, e6⟩
    rw [lower_bound_fd, lower_bound_loop_eq_bisect]; exact e1
  · obtain ⟨r, c', e1, e2, e3, _, e5, e6⟩ :=
      bisect_loop_trace fd (fun h => decide (cmp_hash h key ≤ 0)) N 0 N c (by omega)
    refine ⟨r, c', ?_, e2, e3, e5, e6⟩
    rw [upper_bound_fd, upper_bound_loop_eq_bisect]; exact e1

/-- C12, at the file of three records whose second and third record cannot be
read: the first probe, of index 1, fails, and index 0 is returned with one
seek, one comparison and no successful read. -/
theorem failed_read_stops_bisection_witness :
    (0 < 3 ∧
      read_hash_at (failing_file (serialize sample_records) 16) (probe_of (0, 3)) = none ∧
      lower_bound_loop (failing_file (serialize sample_records) 16)
        [2, 0, 0, 0, 0, 0, 0, 0, 0, 0] 3 0 3 ⟨0, 0, 0⟩ = some (0, ⟨1, 1, 0⟩)) ∧
    ((0, 3) ∈ lower_bound_states (failing_file (serialize sample_records) 16) 3
        [2, 0, 0, 0, 0, 0, 0, 0, 0, 0] ∧
      ∃ r c', lower_bound_fd (failing_file (serialize sample_records) 16) 3
          [2, 0, 0, 0, 0, 0, 0, 0, 0, 0] ⟨0, 0, 0⟩ = some (r, c') ∧ r = 0 ∧
        c'.reads_ok + 1 = 0 + (lower_bound_states (failing_file (serialize sample_records) 16)
          3 [2, 0, 0, 0, 0, 0, 0, 0, 0, 0]).length) :=
  ⟨⟨by decide, by decide,
      (failed_read_stops_bisection (failing_file (serialize sample_records) 16) 3
        [2, 0, 0, 0, 0, 0, 0, 0, 0, 0] ⟨0, 0, 0⟩).1 2 0 3 ⟨0, 0, 0⟩ (by decide) (by decide)⟩,
    by decide,
    by
      obtain ⟨r, c', h1, _, _, _, h5⟩ :=
        (failed_read_stops_bisection (failing_file (serialize sample_records) 16) 3
          [2, 0, 0, 0, 0, 0, 0, 0, 0, 0] ⟨0, 0, 0⟩).2.2.1
      obtain ⟨_, g2, g3⟩ := h5 (0, 3) (by decide) (by decide)
      exact ⟨r, c', h1, g2, g3⟩⟩


/-! ## The verifier -/

theorem sortedAfter_nil (hp : Bool) (prev : Record) : SortedAfter hp prev [] := by
  unfold SortedAfter
  cases hp <;> simp [SortedByHash]

theorem sortedAfter_cons (hp : Bool) (prev r : Record) (l : List Record) :
    SortedAfter hp prev (r :: l) ↔
      (hp = true → cmp_hash prev.hash r.hash ≤ 0) ∧ SortedAfter true r l := by
  unfold SortedAfter
  cases hp <;> simp [SortedByHash]

theorem sortedAfter_append (a b : List Record) :
    ∀ (hp : Bool) (prev : Record),
      SortedAfter hp prev (a ++ b) ↔
        SortedAfter hp prev a ∧ SortedAfter (hp || !a.isEmpty) (a.getLast?.getD prev) b := by
  induction a with
  | nil =>
    intro hp prev
    simp [sortedAfter_nil]
  | cons r a ih =>
    intro hp prev
    rw [List.cons_append, sortedAfter_cons, sortedAfter_cons, ih true r]
    have hl : (r :: a).getLast?.getD prev = a.getLast?.getD r := by
      rw [List.getLast?_cons]; rfl
    rw [hl]
    simp [and_assoc]

theorem verify_chunk_spec (recs : List Record) :
    ∀ (prev : Record) (hp : Bool),
      (verify_chunk recs prev hp).1 = decide (SortedAfter hp prev recs) ∧
      ((verify_chunk recs prev hp).1 = true →
        (verify_chunk recs prev hp).2 = (recs.getLast?.getD prev, hp || !recs.isEmpty)) := by
  induction recs with
  | nil =>
    intro prev hp
    simp [verify_chunk, sortedAfter_nil]
  | cons r rest ih =>
    intro prev hp
    have hl : (r :: rest).getLast?.getD prev = rest.getLast?.getD r := by
      rw [List.getLast?_cons]; rfl
    by_cases hc : (hp && decide (cmp_hash prev.hash r.hash > 0)) = true
    · simp only [verify_chunk, hc, if_true]
      simp only [Bool.and_eq_true, decide_eq_true_eq] at hc
      refine ⟨?_, by simp⟩
      symm
      rw [decide_eq_false_iff_not, sortedAfter_cons]
      intro h
      have := h.1 hc.1
      omega
    · simp only [verify_chunk, hc]
      obtain ⟨h1, h2⟩ := ih r true
      simp only [Bool.and_eq_true, decide_eq_true_eq, not_and] at hc
      have hiff : SortedAfter hp prev (r :: rest) ↔ SortedAfter true r rest := by
        rw [sortedAfter_cons]
        constructor
        · exact fun h => h.2
        · intro h
          refine ⟨fun hhp => ?_, h⟩
          have := hc hhp
          omega
      refine ⟨?_, ?_⟩
      · simp only [Bool.false_eq_true, if_false, h1]
        exact decide_eq_decide.2 hiff.symm
      · intro hok
        simp only [Bool.false_eq_true, if_false] at hok ⊢
        rw [h2 hok, hl]
        simp

theorem records_of_bytes_take (k : Nat) :
    ∀ (bytes : List Nat) (n : Nat), k * rec_size ≤ n →
      records_of_bytes k (bytes.take n) = records_of_bytes k bytes := by
  have h16 : rec_size = 16 := rfl
  have h10 : HASH_SIZE = 10 := rfl
  have h6 : NONCE_SIZE = 6 := rfl
  induction k with
  | zero => intro bytes n _; rfl
  | succ k ih =>
    intro bytes n hn
    rw [h16] at hn
    simp only [records_of_bytes]
    have e1 : (bytes.take n).take HASH_SIZE = bytes.take HASH_SIZE := by
      rw [List.take_take, h10, Nat.min_eq_left (by omega)]
    have e2 : ((bytes.take n).drop HASH_SIZE).take NONCE_SIZE
        = (bytes.drop HASH_SIZE).take NONCE_SIZE := by
      rw [List.drop_take, List.take_take, h10, h6, Nat.min_eq_left (by omega)]
    have e3 : (bytes.take n).drop rec_size = (bytes.drop rec_size).take (n - rec_size) := by
      rw [List.drop_take]
    rw [e1, e2, e3, ih (bytes.drop rec_size) (n - rec_size) (by rw [h16]; omega)]

theorem records_of_bytes_append (k m : Nat) :
    ∀ bytes : List Nat,
      records_of_bytes (k + m) bytes
        = records_of_bytes k bytes ++ records_of_bytes m (bytes.drop (k * rec_size)) := by
  induction k with
  | zero => intro bytes; simp [records_of_bytes]
  | succ k ih =>
    intro bytes
    have : k + 1 + m = (k + m) + 1 := by omega
    rw [this]
    have hd1 : rec_size + k * rec_size = (k + 1) * rec_size := by ring
    have hd2 : k * rec_size + rec_size = (k + 1) * rec_size := by ring
    simp only [records_of_bytes, List.cons_append, ih (bytes.drop rec_size), List.drop_drop,
      hd1, hd2]

theorem records_of_bytes_length (k : Nat) (bytes : List Nat) :
    (records_of_bytes k bytes).length = k := by
  induction k generalizing bytes with
  | zero => rfl
  | succ k ih => simp [records_of_bytes, ih]

theorem verify_loop_spec (chunk : Nat) (hchunk : 1 ≤ chunk) :
    ∀ fuel (s : IfStream) (prev : Record) (hp : Bool),
      (s.good = false → s.rest = []) → s.rest.length / rec_size + 1 ≤ fuel →
      verify_loop chunk fuel s prev hp
        = some (decide (SortedAfter hp prev (complete_records s.rest))) := by
  have h16 : rec_size = 16 := rfl
  intro fuel
  induction fuel with
  | zero => intro s prev hp _ h; exact absurd h (Nat.not_succ_le_zero _)
  | succ fuel ih =>
    intro s prev hp hgood hfuel
    cases hg : s.good with
    | false =>
      have hrest := hgood hg
      simp [verify_loop, IfStream.read, hg, hrest, complete_records, records_of_bytes,
        sortedAfter_nil]
    | true =>
      have hn : 16 ≤ chunk * 16 := by omega
      by_cases h0 : (s.rest.take (chunk * rec_size)).length / rec_size = 0
      · have hlen : s.rest.length < 16 := by
          rw [h16, List.length_take] at h0
          have := (Nat.div_eq_zero_iff (by norm_num)).1 h0
          omega
        have hc : complete_records s.rest = [] := by
          unfold complete_records
          rw [h16, Nat.div_eq_of_lt hlen]
          rfl
        have h0' : (chunk * rec_size ⊓ s.rest.length) / rec_size = 0 := by
          rw [← List.length_take]; exact h0
        simp [verify_loop, IfStream.read, hg, h0', hc, sortedAfter_nil]
      · have hk : 16 ≤ s.rest.length := by
          rw [h16, List.length_take] at h0
          by_contra hcon
          apply h0
          apply Nat.div_eq_of_lt
          omega
        simp only [verify_loop, IfStream.read, hg, if_true, h0, if_false]
        have htake : records_of_bytes ((s.rest.take (chunk * rec_size)).length / rec_size)
            (s.rest.take (chunk * rec_size))
            = records_of_bytes ((s.rest.take (chunk * rec_size)).length / rec_size) s.rest := by
          apply records_of_bytes_take
          rw [List.length_take]
          have := Nat.div_mul_le_self (min (chunk * rec_size) s.rest.length) rec_size
          have h2 : min (chunk * rec_size) s.rest.length ≤ chunk * rec_size :=
            Nat.min_le_left _ _
          omega
        rw [htake]
        obtain ⟨v1, v2⟩ := verify_chunk_spec
          (records_of_bytes ((s.rest.take (chunk * rec_size)).length / rec_size) s.rest) prev hp
        have hsplit : complete_records s.rest
            = records_of_bytes ((s.rest.take (chunk * rec_size)).length / rec_size) s.rest
              ++ complete_records (s.rest.drop (chunk * rec_size)) := by
          unfold complete_records
          rw [List.length_take, List.length_drop]
          by_cases hfull : chunk * rec_size ≤ s.rest.length
          · rw [Nat.min_eq_left hfull, Nat.mul_div_cancel _ (by rw [h16]; norm_num)]
            have hm : s.rest.length / rec_size
                = chunk + (s.rest.length - chunk * rec_size) / rec_size := by
              rw [h16] at hfull ⊢
              omega
            rw [hm, records_of_bytes_append]
          · have hlt : s.rest.length < chunk * rec_size := by omega
            rw [Nat.min_eq_right (by omega)]
            have h0' : (s.rest.length - chunk * rec_size) / rec_size = 0 := by
              rw [Nat.sub_eq_zero_of_le (by omega)]; simp
            rw [h0']
            simp [records_of_bytes]
        by_cases hok : (verify_chunk
            (records_of_bytes ((s.rest.take (chunk * rec_size)).length / rec_size) s.rest)
            prev hp).1 = true
        · have hst := v2 hok
          simp only [hok, Bool.not_true, Bool.false_eq_true, if_false]
          rw [hst]
          rw [ih _ _ _ ?_ ?_]
          · congr 1
            rw [hsplit]
            apply decide_eq_decide.2
            rw [sortedAfter_append]
            rw [v1, decide_eq_true_eq] at hok
            simp only [hok, true_and]
          · intro hbad
            simp only [decide_eq_false_iff_not, List.length_take] at hbad
            apply List.drop_eq_nil_of_le
            omega
          · simp only [List.length_drop]
            rw [h16] at hfuel ⊢
            omega
        · simp only [hok, Bool.not_false, if_true]
          congr 1
          symm
          rw [decide_eq_false_iff_not, hsplit, sortedAfter_append]
          intro h
          rw [v1, decide_eq_true_eq] at hok
          exact hok h.1

theorem verify_sorted_chunked_spec (chunk : Nat) (hchunk : 1 ≤ chunk) (bytes : List Nat) :
    verify_sorted_chunked chunk bytes
      = some (decide (SortedByHash (complete_records bytes))) := by
  unfold verify_sorted_chunked
  have h := verify_loop_spec chunk hchunk (bytes.length / rec_size + 1)
    { rest := bytes, good := true } zero_record false (by simp) (Nat.le_refl _)
  rw [h]
  simp [SortedAfter]

theorem sortedByHash_of_hashes (l1 : List Record) :
    ∀ l2 : List Record, l1.map Record.hash = l2.map Record.hash →
      (SortedByHash l1 ↔ SortedByHash l2) := by
  induction l1 with
  | nil =>
    intro l2 h
    cases l2 with
    | nil => rfl
    | cons b l2 => simp at h
  | cons a l1 ih =>
    intro l2 h
    cases l2 with
    | nil => simp at h
    | cons b l2 =>
      simp only [List.map_cons, List.cons.injEq] at h
      have ih1 := ih l2 h.2
      cases l1 with
      | nil =>
        cases l2 with
        | nil => simp [SortedByHash]
        | cons b2 l2 => simp at h
      | cons a2 l1 =>
        cases l2 with
        | nil => simp at h
        | cons b2 l2 =>
          have h2 := h.2
          simp only [List.map_cons, List.cons.injEq] at h2
          simp only [SortedByHash] at ih1 ⊢
          rw [h.1, h2.1]
          exact and_congr Iff.rfl ih1


/-- C13. For a file that opens, viewed as its sequence of complete records,
`verify_sorted` returns, and returns `true` exactly when every adjacent pair
of records is in non-decreasing hash order, whatever chunk size of at least one
record the loop reads with (so also for pairs on two sides of a chunk
boundary); hence the result with the chunk size of the source is that of any
other, it is `true` for a file of at most one record, and it is the same for
two files whose records have the same hashes, whatever their nonces. -/
theorem verify_sorted_iff_sorted (chunk : Nat) (hchunk : 1 ≤ chunk) (bytes : List Nat) :
    verify_sorted_chunked chunk bytes
      = some (decide (SortedByHash (complete_records bytes))) ∧
    verify_sorted bytes = verify_sorted_chunked chunk bytes ∧
    ((complete_records bytes).length ≤ 1 → verify_sorted bytes = some true) ∧
    (∀ other : List Nat,
      (complete_records other).map Record.hash = (complete_records bytes).map Record.hash →
      verify_sorted other = verify_sorted bytes) := by
  have hC : 1 ≤ CHUNK := by decide
  refine ⟨verify_sorted_chunked_spec chunk hchunk bytes, ?_, ?_, ?_⟩
  · unfold verify_sorted
    rw [verify_sorted_chunked_spec CHUNK hC, verify_sorted_chunked_spec chunk hchunk]
  · intro hlen
    unfold verify_sorted
    rw [verify_sorted_chunked_spec CHUNK hC]
    have : SortedByHash (complete_records bytes) := by
      cases h : complete_records bytes with
      | nil => trivial
      | cons a l =>
        cases l with
        | nil => trivial
        | cons b l => rw [h] at hlen; simp at hlen
    simp [this]
  · intro other h
    unfold verify_sorted
    rw [verify_sorted_chunked_spec CHUNK hC, verify_sorted_chunked_spec CHUNK hC]
    congr 1
    exact decide_eq_decide.2 (sortedByHash_of_hashes _ _ h)

/-- C13, at the file of three sorted records followed by three stray bytes,
read in chunks of two records. -/
theorem verify_sorted_iff_sorted_witness :
    1 ≤ 2 ∧
    verify_sorted_chunked 2 (serialize sample_records ++ [7, 7, 7])
      = some (decide (SortedByHash (complete_records (serialize sample_records ++ [7, 7, 7])))) ∧
    verify_sorted (serialize sample_records ++ [7, 7, 7])
      = verify_sorted_chunked 2 (serialize sample_records ++ [7, 7, 7]) :=
  ⟨by decide,
    (verify_sorted_iff_sorted 2 (by decide) (serialize sample_records ++ [7, 7, 7])).1,
    (verify_sorted_iff_sorted 2 (by decide) (serialize sample_records ++ [7, 7, 7])).2.1⟩


/-! ## The number of run files -/

theorem ceil_div_step (d R : Nat) (hR : 1 ≤ R) (hd : 1 ≤ d) :
    (d - min R d + R - 1) / R + 1 = (d + R - 1) / R := by
  by_cases h : R ≤ d
  · rw [Nat.min_eq_left h]
    have : d + R - 1 = (d - R + R - 1) + R := by omega
    rw [this, Nat.add_div_right _ (by omega)]
  · rw [Nat.min_eq_right (by omega)]
    have h1 : (d - d + R - 1) / R = 0 := Nat.div_eq_of_lt (by omega)
    have h2 : (d + R - 1) / R = 1 := by
      have : d + R - 1 = (d - 1) + R := by omega
      rw [this, Nat.add_div_right _ (by omega), Nat.div_eq_of_lt (by omega)]
    omega

/-- The run production loop makes `ceil((total - produced) / R)` run files. -/
theorem produce_runs_loop_count (blake3 : List Nat → List Nat) (total R T : Nat)
    (htotal : total < 2 ^ 64) (hR : 1 ≤ R) :
    ∀ fuel produced runs, produced ≤ total → total - produced ≤ fuel →
      ∃ rs, produce_runs_loop blake3 total R T fuel produced runs = some (runs ++ rs) ∧
        rs.length = (total - produced + R - 1) / R := by
  intro fuel
  induction fuel with
  | zero =>
    intro produced runs h1 h2
    have : ¬ produced < total := by omega
    refine ⟨[], by simp [produce_runs_loop, this], ?_⟩
    have : total - produced + R - 1 = R - 1 := by omega
    rw [this, Nat.div_eq_of_lt (by omega)]
    rfl
  | succ fuel ih =>
    intro produced runs h1 h2
    by_cases hlt : produced < total
    · have hsub : u64 (total - produced) = total - produced := u64_of_lt _ (by omega)
      have hadd : u64 (produced + min R (total - produced)) = produced + min R (total - produced) :=
        u64_of_lt _ (by omega)
      obtain ⟨rs, e1, e2⟩ := ih (produced + min R (total - produced))
        (runs ++ [produce_run blake3 T produced (min R (total - produced))])
        (by omega) (by omega)
      refine ⟨produce_run blake3 T produced (min R (total - produced)) :: rs, ?_, ?_⟩
      · simp only [produce_runs_loop, hlt, if_true, hsub, hadd]
        rw [e1]
        simp
      · rw [List.length_cons, e2, ← ceil_div_step (total - produced) R hR (by omega)]
        congr 2
        omega
    · refine ⟨[], by simp [produce_runs_loop, hlt], ?_⟩
      have : total - produced + R - 1 = R - 1 := by omega
      rw [this, Nat.div_eq_of_lt (by omega)]
      rfl

theorem runs_of_exponent_14_mem_2 (blake3 : List Nat → List Nat) (T : Nat) :
    ∃ runs, produce_runs_loop blake3 (total_records 14) (max_recs_per_run 2) T
        (total_records 14) 0 [] = some runs ∧ runs.length = 1 := by
  have ht : total_records 14 = 16384 := by decide
  have hm : max_recs_per_run 2 = 131072 := by decide
  rw [ht, hm]
  obtain ⟨rs, e1, e2⟩ := produce_runs_loop_count blake3 16384 131072 T (by norm_num)
    (by norm_num) 16384 0 [] (by norm_num) (by norm_num)
  refine ⟨rs, by simpa using e1, ?_⟩
  rw [e2]

/-- C14 as amended. For the build with `K = 14` and a memory budget of 2 MB
(records of 16 bytes), whatever the thread count, the run production loop ends
and produces exactly one run file: a run may hold `2 * 2^20 / 16 = 131072`
records, more than the `2^14 = 16384` there are. -/
theorem one_run_for_exponent_14 (blake3 : List Nat → List Nat) (T : Nat) :
    rec_size = 16 ∧ max_recs_per_run 2 = 131072 ∧ total_records 14 = 16384 ∧
    ∃ runs, produce_runs_loop blake3 (total_records 14) (max_recs_per_run 2) T
        (total_records 14) 0 [] = some runs ∧ runs.length = 1 :=
  ⟨by decide, by decide, by decide, runs_of_exponent_14_mem_2 blake3 T⟩

/-- C14 as stated fails: with `K = 14`, 2 MB and 4 threads the loop produces
fewer than 2 run files. -/
theorem not_two_runs_for_exponent_14 :
    ∃ runs, produce_runs_loop sample_digest (total_records 14) (max_recs_per_run 2) 4
        (total_records 14) 0 [] = some runs ∧ ¬ 2 ≤ runs.length := by
  obtain ⟨runs, h1, h2⟩ := runs_of_exponent_14_mem_2 sample_digest 4
  exact ⟨runs, h1, by omega⟩


/-! ## The options of the searcher -/

theorem parse_loop_diff_of_no_q (atoi : String → Int) (strtoull : String → Nat) :
    ∀ (opts : List (Char × String)) (o0 o : Opt),
      parse_loop atoi strtoull opts o0 = some o → (∀ x ∈ opts, x.1 ≠ 'q') →
      o.diff = o0.diff := by
  intro opts
  induction opts with
  | nil =>
    intro o0 o h _
    simp only [parse_loop, Option.some.injEq] at h
    rw [h]
  | cons x rest ih =>
    intro o0 o h hq
    obtain ⟨c, optarg⟩ := x
    have hc : c ≠ 'q' := hq (c, optarg) (List.mem_cons_self _ _)
    have hrest : ∀ x ∈ rest, x.1 ≠ 'q' := fun x hx => hq x (List.mem_cons_of_mem _ hx)
    simp only [parse_loop, hc, if_false] at h
    split at h
    · exact (ih _ _ h hrest).trans rfl
    · split at h
      · exact (ih _ _ h hrest).trans rfl
      · split at h
        · exact (ih _ _ h hrest).trans rfl
        · split at h
          · exact (ih _ _ h hrest).trans rfl
          · simp at h

theorem parse_loop_diff_of_last_q (atoi : String → Int) (strtoull : String → Nat) :
    ∀ (pre : List (Char × String)) (s : String) (post : List (Char × String)) (o0 o : Opt),
      parse_loop atoi strtoull (pre ++ ('q', s) :: post) o0 = some o →
      (∀ x ∈ post, x.1 ≠ 'q') → o.diff = max 1 (atoi s) := by
  intro pre
  induction pre with
  | nil =>
    intro s post o0 o h hq
    have hk : ¬ ('q' : Char) = 'k' := by decide
    have hf : ¬ ('q' : Char) = 'f' := by decide
    have hs : ¬ ('q' : Char) = 's' := by decide
    simp only [List.nil_append, parse_loop, hk, hf, hs, if_false, if_true] at h
    exact parse_loop_diff_of_no_q atoi strtoull post _ o h hq
  | cons x pre ih =>
    intro s post o0 o h hq
    obtain ⟨c, optarg⟩ := x
    simp only [List.cons_append, parse_loop] at h
    split at h
    · exact ih s post _ o h hq
    · split at h
      · exact ih s post _ o h hq
      · split at h
        · exact ih s post _ o h hq
        · split at h
          · exact ih s post _ o h hq
          · split at h
            · exact ih s post _ o h hq
            · simp at h

theorem parse_loop_diff_pos (atoi : String → Int) (strtoull : String → Nat) :
    ∀ (opts : List (Char × String)) (o0 o : Opt),
      parse_loop atoi strtoull opts o0 = some o → 1 ≤ o0.diff → 1 ≤ o.diff := by
  intro opts
  induction opts with
  | nil =>
    intro o0 o h h0
    simp only [parse_loop, Option.some.injEq] at h
    rw [← h]; exact h0
  | cons x rest ih =>
    intro o0 o h h0
    obtain ⟨c, optarg⟩ := x
    simp only [parse_loop] at h
    split at h
    · exact ih _ _ h h0
    · split at h
      · exact ih _ _ h h0
      · split at h
        · exact ih _ _ h h0
        · split at h
          · exact ih _ _ h (le_max_left _ _)
          · split at h
            · exact ih _ _ h h0
            · simp at h

/-- What `parse` returns as difficulty, in terms of the difficulty after the
option loop. -/
theorem parse_diff (atoi : String → Int) (strtoull : String → Nat)
    (opts : List (Char × String)) (o : Opt) (h : parse atoi strtoull opts = some o) :
    ∃ o1, parse_loop atoi strtoull opts Opt.init = some o1 ∧
      o.diff = min (HASH_SIZE : Int) o1.diff := by
  unfold parse at h
  cases h1 : parse_loop atoi strtoull opts Opt.init with
  | none => simp [h1] at h
  | some o1 =>
    refine ⟨o1, rfl, ?_⟩
    simp only [h1] at h
    split at h
    · simp at h
    · simp only [Option.some.injEq] at h
      by_cases hgt : o1.diff > (HASH_SIZE : Int)
      · simp only [hgt, if_true] at h
        rw [← h]
        simp only
        omega
      · simp only [hgt, if_false] at h
        rw [← h]
        omega

theorem make_prefix_bounds_length (pfx : List Nat) (D : Nat) (hD : D ≤ HASH_SIZE)
    (hp : D ≤ pfx.length) :
    (make_prefix_bounds pfx D).1.length = HASH_SIZE ∧
    (make_prefix_bounds pfx D).2.length = HASH_SIZE := by
  simp only [make_prefix_bounds, memcpy, memset, List.length_append, List.length_take,
    List.length_drop, List.length_replicate]
  omega

/-- C15. Whenever the searcher's `parse` returns, the difficulty it returns is
in `[1, HASH_SIZE]`, whatever integers `atoi` made of the values given to `-q`
(zero, negative, above `HASH_SIZE`) and also when the option is absent, in
which case it is 3; it is the value of the last `-q` when that value is in
`[1, HASH_SIZE]`. So the number of bytes `make_prefix_bounds` copies from the
array of `HASH_SIZE` bytes is at most `HASH_SIZE`, and both bounds keep their
`HASH_SIZE` bytes. -/
theorem parse_difficulty_in_range (atoi : String → Int) (strtoull : String → Nat)
    (opts : List (Char × String)) (o : Opt) (h : parse atoi strtoull opts = some o) :
    1 ≤ o.diff ∧ o.diff ≤ (HASH_SIZE : Int) ∧
    ((∀ x ∈ opts, x.1 ≠ 'q') → o.diff = 3) ∧
    (∀ pre s post, opts = pre ++ ('q', s) :: post → (∀ x ∈ post, x.1 ≠ 'q') →
      o.diff = min (HASH_SIZE : Int) (max 1 (atoi s)) ∧
      (1 ≤ atoi s → atoi s ≤ (HASH_SIZE : Int) → o.diff = atoi s)) ∧
    o.diff.toNat ≤ HASH_SIZE ∧
    (∀ pfx : List Nat, pfx.length = HASH_SIZE →
      (make_prefix_bounds pfx o.diff.toNat).1.length = HASH_SIZE ∧
      (make_prefix_bounds pfx o.diff.toNat).2.length = HASH_SIZE) := by
  obtain ⟨o1, h1, h2⟩ := parse_diff atoi strtoull opts o h
  have hpos := parse_loop_diff_pos atoi strtoull opts Opt.init o1 h1 (by decide)
  have hH : (HASH_SIZE : Int) = 10 := rfl
  have hle : o.diff ≤ (HASH_SIZE : Int) := by rw [h2]; exact min_le_left _ _
  have hnat : o.diff.toNat ≤ HASH_SIZE := by
    have : HASH_SIZE = 10 := rfl
    omega
  refine ⟨?_, hle, ?_, ?_, hnat, ?_⟩
  · rw [h2, hH]; omega
  · intro hq
    have := parse_loop_diff_of_no_q atoi strtoull opts Opt.init o1 h1 hq
    rw [h2, this, hH]
    decide
  · intro pre s post hopts hq
    rw [hopts] at h1
    have := parse_loop_diff_of_last_q atoi strtoull pre s post Opt.init o1 h1 hq
    rw [h2, this]
    refine ⟨rfl, ?_⟩
    intro ha hb
    rw [hH] at hb ⊢
    omega
  · intro pfx hp
    exact make_prefix_bounds_length pfx o.diff.toNat hnat (by omega)

/-- C15, at the options `-f out.bin -q 25`. -/
theorem parse_difficulty_in_range_witness :
    parse sample_atoi sample_strtoull [('f', "out.bin"), ('q', "25")]
      = some { k := 26, file := "out.bin", searches := 1000, diff := 10, debug := false } ∧
    (1 : Int) ≤ 10 ∧ (10 : Int) ≤ (HASH_SIZE : Int) :=
  ⟨by decide,
    (parse_difficulty_in_range sample_atoi sample_strtoull [('f', "out.bin"), ('q', "25")]
      { k := 26, file := "out.bin", searches := 1000, diff := 10, debug := false }
      (by decide)).1,
    (parse_difficulty_in_range sample_atoi sample_strtoull [('f', "out.bin"), ('q', "25")]
      { k := 26, file := "out.bin", searches := 1000, diff := 10, debug := false }
      (by decide)).2.1⟩


/-! ## The totals of the query loop -/

theorem query_matches_total (fd : Fd) (N : Nat) (pfx : List Nat) (D : Nat) :
    ∃ m c, query_matches fd N pfx D = some (m, c) := by
  unfold query_matches
  obtain ⟨⟨lo, c1⟩, h1⟩ := bisect_loop_total fd
    (fun h => decide (cmp_hash h (make_prefix_bounds pfx D).1 < 0)) N 0 N ⟨0, 0, 0⟩ (by omega)
  obtain ⟨⟨hi, c2⟩, h2⟩ := bisect_loop_total fd
    (fun h => decide (cmp_hash h (make_prefix_bounds pfx D).2 ≤ 0)) N 0 N c1 (by omega)
  rw [← lower_bound_loop_eq_bisect] at h1
  rw [← upper_bound_loop_eq_bisect] at h2
  simp only [lower_bound_fd, upper_bound_fd, h1, h2]
  exact ⟨_, _, rfl⟩

theorem match_counts_cons (fd : Fd) (N diff : Nat) (P : List Nat) (rest : List (List Nat))
    (m : Nat) (c : Counters) (h : query_matches fd N (query_pfx P diff) diff = some (m, c)) :
    match_counts fd N diff (P :: rest) = m :: match_counts fd N diff rest := by
  unfold match_counts
  rw [List.filterMap_cons_some]
  rw [h]
  rfl

/-- The query loop ends, and each of its totals for the matches is the one it
started with plus the contribution of the rounds, reduced modulo 2^64. -/
theorem query_loop_spec (fd : Fd) (N diff : Nat) :
    ∀ (draws : List (List Nat)) (t0 : Totals),
      t0.total_matches < 2 ^ 64 → t0.found_q < 2 ^ 64 → t0.notfound < 2 ^ 64 →
      ∃ t, query_loop fd N diff draws t0 = some t ∧
        (match_counts fd N diff draws).length = draws.length ∧
        t.total_matches = (t0.total_matches + (match_counts fd N diff draws).sum) % 2 ^ 64 ∧
        t.found_q = (t0.found_q
          + (match_counts fd N diff draws).countP (fun m => decide (m ≠ 0))) % 2 ^ 64 ∧
        t.notfound = (t0.notfound
          + (match_counts fd N diff draws).countP (fun m => decide (m = 0))) % 2 ^ 64 := by
  intro draws
  induction draws with
  | nil =>
    intro t0 h1 h2 h3
    refine ⟨t0, rfl, rfl, ?_, ?_, ?_⟩
    · simp only [match_counts, List.filterMap_nil, List.sum_nil, Nat.add_zero]
      exact (Nat.mod_eq_of_lt h1).symm
    · simp only [match_counts, List.filterMap_nil, List.countP_nil, Nat.add_zero]
      exact (Nat.mod_eq_of_lt h2).symm
    · simp only [match_counts, List.filterMap_nil, List.countP_nil, Nat.add_zero]
      exact (Nat.mod_eq_of_lt h3).symm
  | cons P rest ih =>
    intro t0 h1 h2 h3
    obtain ⟨m, c, hq⟩ := query_matches_total fd N (query_pfx P diff) diff
    have hpos : (0 : Nat) < 2 ^ 64 := by norm_num
    obtain ⟨t, e1, e2, e3, e4, e5⟩ := ih (tally t0 m c)
      (by simp only [tally]; exact Nat.mod_lt _ hpos)
      (by
        simp only [tally]
        split
        · exact Nat.mod_lt _ hpos
        · exact h2)
      (by
        simp only [tally]
        split
        · exact h3
        · exact Nat.mod_lt _ hpos)
    refine ⟨t, ?_, ?_, ?_, ?_, ?_⟩
    · simp only [query_loop, hq]
      exact e1
    · rw [match_counts_cons fd N diff P rest m c hq, List.length_cons, e2, List.length_cons]
    · rw [match_counts_cons fd N diff P rest m c hq, List.sum_cons, e3]
      simp only [tally]
      rw [Nat.mod_add_mod, Nat.add_assoc]
    · rw [match_counts_cons fd N diff P rest m c hq, List.countP_cons, e4]
      simp only [tally]
      by_cases hm : m > 0
      · have hne : m ≠ 0 := by omega
        simp only [hm, if_true, hne, ne_eq, not_false_eq_true, decide_True]
        rw [Nat.mod_add_mod]
        congr 1
        omega
      · have he : m = 0 := by omega
        simp [he]
    · rw [match_counts_cons fd N diff P rest m c hq, List.countP_cons, e5]
      simp only [tally]
      by_cases hm : m > 0
      · have hne : m ≠ 0 := by omega
        simp [hm, hne]
      · have he : m = 0 := by omega
        subst he
        simp only [gt_iff_lt, Nat.lt_irrefl, if_false, decide_True, if_true]
        rw [Nat.mod_add_mod]
        congr 1
        omega

theorem countP_ne_add_countP_eq (l : List Nat) :
    l.countP (fun m => decide (m ≠ 0)) + l.countP (fun m => decide (m = 0)) = l.length := by
  induction l with
  | nil => rfl
  | cons a l ih =>
    simp only [List.countP_cons, List.length_cons]
    by_cases h : a = 0
    · have d1 : decide (a ≠ 0) = false := by simp [h]
      have d2 : decide (a = 0) = true := by simp [h]
      simp only [d1, d2, Bool.false_eq_true, if_false, if_true]
      omega
    · have d1 : decide (a ≠ 0) = true := by simp [h]
      have d2 : decide (a = 0) = false := by simp [h]
      simp only [d1, d2, Bool.false_eq_true, if_false, if_true]
      omega

/-- C16 as amended. For every number of queries (a `size_t`, below 2^64), after
the query loop `total_matches` is the sum of the match counts of the queries
modulo 2^64, and so that sum when it is below 2^64; `found_queries` is the
number of queries with a non-zero match count, `notfound` the number of those
with a zero match count, and the two add up to the number of queries. -/
theorem query_loop_totals (fd : Fd) (N diff : Nat) (draws : List (List Nat))
    (hS : draws.length < 2 ^ 64) :
    ∃ t, query_loop fd N diff draws Totals.zero = some t ∧
      (match_counts fd N diff draws).length = draws.length ∧
      t.total_matches = (match_counts fd N diff draws).sum % 2 ^ 64 ∧
      ((match_counts fd N diff draws).sum < 2 ^ 64 →
        t.total_matches = (match_counts fd N diff draws).sum) ∧
      t.found_q = (match_counts fd N diff draws).countP (fun m => decide (m ≠ 0)) ∧
      t.notfound = (match_counts fd N diff draws).countP (fun m => decide (m = 0)) ∧
      t.found_q + t.notfound = draws.length := by
  have hpos : (0 : Nat) < 2 ^ 64 := by norm_num
  obtain ⟨t, e1, e2, e3, e4, e5⟩ := query_loop_spec fd N diff draws Totals.zero hpos hpos hpos
  have hsum := countP_ne_add_countP_eq (match_counts fd N diff draws)
  simp only [Totals.zero, Nat.zero_add] at e3 e4 e5
  have h4 : t.found_q = (match_counts fd N diff draws).countP (fun m => decide (m ≠ 0)) := by
    rw [e4]; exact Nat.mod_eq_of_lt (by omega)
  have h5 : t.notfound = (match_counts fd N diff draws).countP (fun m => decide (m = 0)) := by
    rw [e5]; exact Nat.mod_eq_of_lt (by omega)
  refine ⟨t, e1, e2, e3, ?_, h4, h5, by omega⟩
  intro hlt
  rw [e3]
  exact Nat.mod_eq_of_lt hlt

/-- C16 as amended, at three queries on the file of three records. -/
theorem query_loop_totals_witness :
    ([[1], [5], [2]] : List (List Nat)).length < 2 ^ 64 ∧
    ∃ t, query_loop (regular_file (serialize sample_records)) 3 1 [[1], [5], [2]] Totals.zero
        = some t ∧
      (match_counts (regular_file (serialize sample_records)) 3 1 [[1], [5], [2]]).length
        = ([[1], [5], [2]] : List (List Nat)).length ∧
      t.total_matches
        = (match_counts (regular_file (serialize sample_records)) 3 1 [[1], [5], [2]]).sum
          % 2 ^ 64 ∧
      ((match_counts (regular_file (serialize sample_records)) 3 1 [[1], [5], [2]]).sum < 2 ^ 64 →
        t.total_matches
          = (match_counts (regular_file (serialize sample_records)) 3 1 [[1], [5], [2]]).sum) ∧
      t.found_q = (match_counts (regular_file (serialize sample_records)) 3 1
        [[1], [5], [2]]).countP (fun m => decide (m ≠ 0)) ∧
      t.notfound = (match_counts (regular_file (serialize sample_records)) 3 1
        [[1], [5], [2]]).countP (fun m => decide (m = 0)) ∧
      t.found_q + t.notfound = ([[1], [5], [2]] : List (List Nat)).length :=
  ⟨by decide,
    query_loop_totals (regular_file (serialize sample_records)) 3 1 [[1], [5], [2]]
      (by decide)⟩


theorem sorted_replicate (n : Nat) (r : Record) : SortedByHash (List.replicate n r) := by
  induction n with
  | zero => trivial
  | succ n ih =>
    cases n with
    | zero => trivial
    | succ n =>
      rw [List.replicate_succ, List.replicate_succ]
      rw [List.replicate_succ] at ih
      exact ⟨by rw [cmp_hash_self], ih⟩

theorem query_matches_eq_countP (fd : Fd) (recs : List Record) (P : List Nat) (D : Nat)
    (hsorted : SortedByHash recs) (hread : ReadsSucceed fd recs)
    (hbytes : ∀ r ∈ recs, ∀ b ∈ r.hash, b < 256)
    (hD2 : D ≤ HASH_SIZE) (hP : P.length = D) :
    ∃ c', query_matches fd recs.length (query_pfx P D) D
      = some (recs.countP (fun r => decide (r.hash.take D = P)), c') := by
  obtain ⟨lo, hi, c1, c2, h1, h2, h3, h4⟩ :=
    prefix_query_bounds fd recs P D ⟨0, 0, 0⟩ hsorted hread hD2 hP
  have h5 := h4 hbytes
  refine ⟨c2, ?_⟩
  unfold query_matches
  simp only [h1, h2]
  by_cases hlt : hi > lo
  · have : hi - lo = recs.countP (fun r => decide (r.hash.take D = P)) := by omega
    simp [hlt, this]
  · have : recs.countP (fun r => decide (r.hash.take D = P)) = 0 := by omega
    simp [hlt, this]

/-- On a file of `n` records of zero bytes, the query for the one byte 0
matches all `n` records. -/
theorem query_zero_file (n : Nat) (hn : n * REC_SIZE < 2 ^ 63) :
    ∃ c, query_matches (regular_file (serialize (List.replicate n zero_record))) n
      (query_pfx [0] 1) 1 = some (n, c) := by
  have hmem : ∀ r ∈ List.replicate n zero_record, r = zero_record :=
    fun r hr => List.eq_of_mem_replicate hr
  have hlen : (List.replicate n zero_record).length = n := List.length_replicate _ _
  have hread : ReadsSucceed (regular_file (serialize (List.replicate n zero_record)))
      (List.replicate n zero_record) := by
    apply reads_succeed_regular_file
    · intro r hr
      rw [hmem r hr]
      exact ⟨rfl, rfl⟩
    · rw [hlen]; exact hn
  have hbytes : ∀ r ∈ List.replicate n zero_record, ∀ b ∈ r.hash, b < 256 := by
    intro r hr
    rw [hmem r hr]
    decide
  obtain ⟨c, hc⟩ := query_matches_eq_countP _ (List.replicate n zero_record) [0] 1
    (sorted_replicate n zero_record) hread hbytes (by decide) rfl
  have hcount : (List.replicate n zero_record).countP
      (fun r => decide (r.hash.take 1 = [0])) = n := by
    have h := (List.countP_eq_length (p := fun r : Record => decide (r.hash.take 1 = [0]))
      (l := List.replicate n zero_record)).2 (by
        intro r hr
        rw [hmem r hr]
        decide)
    rw [h, hlen]
  rw [hlen, hcount] at hc
  exact ⟨c, hc⟩

theorem match_counts_replicate (fd : Fd) (N diff : Nat) (P : List Nat) (m : Nat)
    (c : Counters) (h : query_matches fd N (query_pfx P diff) diff = some (m, c)) (k : Nat) :
    match_counts fd N diff (List.replicate k P) = List.replicate k m := by
  induction k with
  | zero => rfl
  | succ k ih =>
    rw [List.replicate_succ, match_counts_cons fd N diff P _ m c h, ih, List.replicate_succ]

/-- C16 as stated fails for a file of `2^59 - 1` records of zero bytes (its
size is `2^63 - 16`), difficulty 1 and 33 queries that all draw the byte 0:
each query matches all `2^59 - 1` records, and `total_matches`, a `uint64_t`,
is not the sum of the 33 match counts, which is above 2^64. -/
theorem total_matches_wraps :
    ∃ t, query_loop (regular_file (serialize (List.replicate (2 ^ 59 - 1) zero_record)))
        (2 ^ 59 - 1) 1 (List.replicate 33 [0]) Totals.zero = some t ∧
      match_counts (regular_file (serialize (List.replicate (2 ^ 59 - 1) zero_record)))
        (2 ^ 59 - 1) 1 (List.replicate 33 [0]) = List.replicate 33 (2 ^ 59 - 1) ∧
      t.total_matches
        ≠ (match_counts (regular_file (serialize (List.replicate (2 ^ 59 - 1) zero_record)))
            (2 ^ 59 - 1) 1 (List.replicate 33 [0])).sum := by
  have hsize : (2 ^ 59 - 1) * REC_SIZE < 2 ^ 63 := by
    have : REC_SIZE = 16 := rfl
    rw [this]
    norm_num
  obtain ⟨c, hc⟩ := query_zero_file (2 ^ 59 - 1) hsize
  have hm := match_counts_replicate _ (2 ^ 59 - 1) 1 [0] (2 ^ 59 - 1) c hc 33
  have hpos : (0 : Nat) < 2 ^ 64 := by norm_num
  obtain ⟨t, e1, _, e3, _, _⟩ := query_loop_spec
    (regular_file (serialize (List.replicate (2 ^ 59 - 1) zero_record))) (2 ^ 59 - 1) 1
    (List.replicate 33 [0]) Totals.zero hpos hpos hpos
  refine ⟨t, e1, hm, ?_⟩
  rw [e3, hm, List.sum_replicate]
  simp only [Totals.zero, Nat.zero_add, smul_eq_mul]
  norm_num


/-! ## The index ranges of the workers -/

theorem fill_workers_eq_foldl (blake3 : List Nat → List Nat) (produced todo chunk : Nat) :
    ∀ n th (buf : List Record),
      fill_workers blake3 produced todo chunk n th buf
        = (worker_ranges todo chunk n th).foldl
            (fun b r => gen_range blake3 produced r.1 r.2 b) buf := by
  intro n
  induction n with
  | zero => intro th buf; rfl
  | succ n ih =>
    intro th buf
    simp only [fill_workers, worker_ranges]
    split
    · rfl
    · rw [ih]
      rfl

theorem lt_ceil_div_iff (todo chunk w : Nat) (hchunk : 1 ≤ chunk) :
    w < (todo + chunk - 1) / chunk ↔ w * chunk < todo := by
  rw [Nat.lt_iff_add_one_le, Nat.le_div_iff_mul_le (by omega), Nat.add_mul, Nat.one_mul]
  omega

theorem worker_ranges_eq (todo chunk T : Nat) (hchunk : 1 ≤ chunk) (hcover : todo ≤ T * chunk)
    (hfit : T * chunk < 2 ^ 64) :
    ∀ n th, th + n = T → th ≤ (todo + chunk - 1) / chunk →
      worker_ranges todo chunk n th
        = (List.range' th ((todo + chunk - 1) / chunk - th)).map
            (fun w => (w * chunk, min todo ((w + 1) * chunk))) := by
  have hm : (todo + chunk - 1) / chunk ≤ T := by
    by_contra hcon
    have h := (lt_ceil_div_iff todo chunk T hchunk).1 (by omega)
    omega
  intro n
  induction n with
  | zero =>
    intro th hth hle
    have : (todo + chunk - 1) / chunk - th = 0 := by omega
    rw [this]
    rfl
  | succ n ih =>
    intro th hth hle
    have hmul : (th + 1) * chunk ≤ T * chunk := Nat.mul_le_mul_right _ (by omega)
    have hadd : (th + 1) * chunk = th * chunk + chunk := by rw [Nat.add_mul, Nat.one_mul]
    have hstart : u64 (th * chunk) = th * chunk := u64_of_lt _ (by omega)
    have hend : u64 (th * chunk + chunk) = (th + 1) * chunk := by
      rw [u64_of_lt _ (by omega), hadd]
    simp only [worker_ranges, hstart, hend]
    by_cases hge : th * chunk ≥ todo
    · have hnot : ¬ th < (todo + chunk - 1) / chunk := by
        rw [lt_ceil_div_iff todo chunk th hchunk]; omega
      have : (todo + chunk - 1) / chunk - th = 0 := by omega
      rw [this]
      simp only [hge, if_true]
      rfl
    · have hlt : th < (todo + chunk - 1) / chunk := by
        rw [lt_ceil_div_iff todo chunk th hchunk]; omega
      have : (todo + chunk - 1) / chunk - th = ((todo + chunk - 1) / chunk - (th + 1)) + 1 := by
        omega
      rw [this, List.range'_succ, List.map_cons]
      simp only [hge, if_false]
      rw [ih (th + 1) (by omega) (by omega)]


/-- C17. For every `todo ≥ 1` and thread count `T ≥ 1` whose sum `todo + T - 1`
fits the 64 bits in which `main` computes it (in `main`, `todo` is at most
`total_records ≤ 2^63` and `T` is an `int`), `chunk` is `ceil(todo / T)`; the
workers started are those of the numbers `w` with `w < T` and
`w * chunk < todo`, worker `w` being given the range
`[w * chunk, min(todo, (w + 1) * chunk))`; each range is non-empty and within
`[0, todo)`; a range started earlier ends where or before a later one starts,
so they are pairwise disjoint; every index below `todo` lies in the range of
exactly one worker; and the buffer after the workers is the one that the
calls of `gen_range` on these ranges leave. -/
theorem worker_ranges_partition (todo T : Nat) (htodo : 1 ≤ todo) (hT : 1 ≤ T)
    (hfit : todo + T ≤ 2 ^ 64) :
    ∃ (chunk : Nat) (rs : List (Nat × Nat)),
      chunk = u64 (todo + T - 1) / T ∧ rs = worker_ranges todo chunk T 0 ∧
      ((chunk - 1) * T < todo ∧ todo ≤ chunk * T) ∧
      (∀ w, w < rs.length ↔ (w < T ∧ w * chunk < todo)) ∧
      (∀ w, w < rs.length → rs[w]? = some (w * chunk, min todo ((w + 1) * chunk))) ∧
      (∀ r ∈ rs, r.1 < r.2 ∧ r.2 ≤ todo) ∧
      rs.Pairwise (fun a b => a.2 ≤ b.1) ∧
      (∀ i, i < todo → ∃! w : Nat, ∃ r : Nat × Nat, rs[w]? = some r ∧ r.1 ≤ i ∧ i < r.2) ∧
      (∀ (blake3 : List Nat → List Nat) (produced : Nat) (buf : List Record),
        fill_workers blake3 produced todo chunk T 0 buf
          = rs.foldl (fun b r => gen_range blake3 produced r.1 r.2 b) buf) := by
  have hu : u64 (todo + T - 1) = todo + T - 1 := u64_of_lt _ (by omega)
  obtain ⟨hc1, hc2⟩ := chunk_bounds todo T hT
  have hdm := Nat.div_add_mod (todo + T - 1) T
  have hml := Nat.mod_lt (todo + T - 1) (by omega : T > 0)
  have hchunk : 1 ≤ (todo + T - 1) / T := by
    rw [Nat.le_div_iff_mul_le (by omega)]; omega
  have hfit2 : T * ((todo + T - 1) / T) < 2 ^ 64 := by omega
  have hm : (todo + ((todo + T - 1) / T) - 1) / ((todo + T - 1) / T) ≤ T := by
    by_contra hcon
    have h := (lt_ceil_div_iff todo _ T hchunk).1 (by omega)
    omega
  have heq := worker_ranges_eq todo ((todo + T - 1) / T) T hchunk hc2 hfit2 T 0 (by omega)
    (Nat.zero_le _)
  rw [Nat.sub_zero] at heq
  refine ⟨(todo + T - 1) / T, worker_ranges todo ((todo + T - 1) / T) T 0, by rw [hu], rfl,
    ?_, ?_, ?_, ?_, ?_, ?_, ?_⟩
  · constructor
    · have : ((todo + T - 1) / T - 1) * T = T * ((todo + T - 1) / T) - T := by
        rw [Nat.sub_mul, Nat.one_mul, Nat.mul_comm]
      omega
    · rw [Nat.mul_comm]; exact hc2
  · intro w
    rw [heq, List.length_map, List.length_range', lt_ceil_div_iff todo _ w hchunk]
    constructor
    · intro h
      refine ⟨?_, h⟩
      have := (lt_ceil_div_iff todo _ w hchunk).2 h
      omega
    · exact fun h => h.2
  · intro w hw
    rw [heq] at hw ⊢
    rw [List.length_map, List.length_range'] at hw
    rw [List.getElem?_map, List.getElem?_range' _ _ hw]
    simp only [Option.map_some', Nat.one_mul, Nat.zero_add]
  · intro r hr
    rw [heq] at hr
    obtain ⟨w, hw, rfl⟩ := List.mem_map.1 hr
    have hw2 := (List.mem_range'_1.1 hw).2
    have hlt := (lt_ceil_div_iff todo _ w hchunk).1 (by omega)
    have hadd : (w + 1) * ((todo + T - 1) / T) = w * ((todo + T - 1) / T) + (todo + T - 1) / T := by
      rw [Nat.add_mul, Nat.one_mul]
    simp only
    omega
  · rw [heq, List.pairwise_map]
    have hp : (List.range' 0 ((todo + ((todo + T - 1) / T) - 1) / ((todo + T - 1) / T))).Pairwise
        (fun a b => a < b) := List.pairwise_lt_range' 0 _
    refine hp.imp ?_
    intro a b hab
    have : (a + 1) * ((todo + T - 1) / T) ≤ b * ((todo + T - 1) / T) :=
      Nat.mul_le_mul_right _ hab
    simp only
    omega
  · intro i hi
    have hget : ∀ w, w < (todo + ((todo + T - 1) / T) - 1) / ((todo + T - 1) / T) →
        (worker_ranges todo ((todo + T - 1) / T) T 0)[w]?
          = some (w * ((todo + T - 1) / T), min todo ((w + 1) * ((todo + T - 1) / T))) := by
      intro w hw
      rw [heq, List.getElem?_map, List.getElem?_range' _ _ hw]
      simp only [Option.map_some', Nat.one_mul, Nat.zero_add]
    have hlen : (worker_ranges todo ((todo + T - 1) / T) T 0).length
        = (todo + ((todo + T - 1) / T) - 1) / ((todo + T - 1) / T) := by
      rw [heq, List.length_map, List.length_range']
    have hdiv := Nat.div_add_mod i ((todo + T - 1) / T)
    have hmod := Nat.mod_lt i (by omega : (todo + T - 1) / T > 0)
    have hcomm : (todo + T - 1) / T * (i / ((todo + T - 1) / T))
        = i / ((todo + T - 1) / T) * ((todo + T - 1) / T) := Nat.mul_comm _ _
    have hw0 : i / ((todo + T - 1) / T)
        < (todo + ((todo + T - 1) / T) - 1) / ((todo + T - 1) / T) := by
      rw [lt_ceil_div_iff todo _ _ hchunk]; omega
    have hadd : ∀ w, (w + 1) * ((todo + T - 1) / T)
        = w * ((todo + T - 1) / T) + (todo + T - 1) / T := by
      intro w; rw [Nat.add_mul, Nat.one_mul]
    refine ⟨i / ((todo + T - 1) / T), ⟨_, hget _ hw0, ?_, ?_⟩, ?_⟩
    · simp only; omega
    · simp only; rw [hadd]; omega
    · rintro w ⟨r, hr, hr1, hr2⟩
      have hwlt : w < (worker_ranges todo ((todo + T - 1) / T) T 0).length := by
        by_contra hcon
        rw [List.getElem?_eq_none (by omega)] at hr
        exact Option.noConfusion hr
      rw [hlen] at hwlt
      rw [hget w hwlt] at hr
      have hr' := (Option.some.inj hr).symm
      subst hr'
      simp only at hr1 hr2
      symm
      apply Nat.div_eq_of_lt_le
      · exact hr1
      · have := hadd w
        have : i < (w + 1) * ((todo + T - 1) / T) := by omega
        exact this
  · intro blake3 produced buf
    exact fill_workers_eq_foldl blake3 produced todo _ T 0 buf

/-- C17, at `todo = 10` and 4 threads: chunk 3 and the ranges `[0,3)`, `[3,6)`,
`[6,9)`, `[9,10)`. -/
theorem worker_ranges_partition_witness :
    worker_ranges 10 3 4 0 = [(0, 3), (3, 6), (6, 9), (9, 10)] ∧
    ∃ (chunk : Nat) (rs : List (Nat × Nat)),
      chunk = u64 (10 + 4 - 1) / 4 ∧ rs = worker_ranges 10 chunk 4 0 ∧
      ((chunk - 1) * 4 < 10 ∧ 10 ≤ chunk * 4) ∧
      (∀ w, w < rs.length ↔ (w < 4 ∧ w * chunk < 10)) ∧
      (∀ w, w < rs.length → rs[w]? = some (w * chunk, min 10 ((w + 1) * chunk))) ∧
      (∀ r ∈ rs, r.1 < r.2 ∧ r.2 ≤ 10) ∧
      rs.Pairwise (fun a b => a.2 ≤ b.1) ∧
      (∀ i, i < 10 → ∃! w : Nat, ∃ r : Nat × Nat, rs[w]? = some r ∧ r.1 ≤ i ∧ i < r.2) ∧
      (∀ (blake3 : List Nat → List Nat) (produced : Nat) (buf : List Record),
        fill_workers blake3 produced 10 chunk 4 0 buf
          = rs.foldl (fun b r => gen_range blake3 produced r.1 r.2 b) buf) :=
  ⟨by decide, worker_ranges_partition 10 4 (by decide) (by decide) (by norm_num)⟩

/-! ## The effect of `gen_range` -/

theorem foldl_set_getElem? (f : Nat → Record) :
    ∀ (len start : Nat) (out : List Record) (i : Nat),
      ((List.range' start len).foldl (fun o j => o.set j (f j)) out)[i]?
        = if start ≤ i ∧ i < start + len ∧ i < out.length then some (f i) else out[i]? := by
  intro len
  induction len with
  | zero =>
    intro start out i
    have : ¬ (start ≤ i ∧ i < start + 0 ∧ i < out.length) := by omega
    simp only [List.range'_zero, List.foldl_nil, this, if_false]
  | succ len ih =>
    intro start out i
    simp only [List.range'_succ, List.foldl_cons]
    rw [ih (start + 1) (out.set start (f start)) i, List.length_set, List.getElem?_set]
    by_cases h1 : start = i
    · subst h1
      by_cases h2 : start < out.length
      · have a : ¬ (start + 1 ≤ start ∧ start < start + 1 + len ∧ start < out.length) := by omega
        have b : start ≤ start ∧ start < start + (len + 1) ∧ start < out.length := by omega
        rw [if_neg a, if_pos b, if_pos rfl, if_pos h2]
      · have a : ¬ (start + 1 ≤ start ∧ start < start + 1 + len ∧ start < out.length) := by omega
        have b : ¬ (start ≤ start ∧ start < start + (len + 1) ∧ start < out.length) := by omega
        rw [if_neg a, if_neg b, if_pos rfl, if_neg h2, List.getElem?_eq_none (by omega)]
    · simp only [h1, if_false]
      by_cases h3 : start + 1 ≤ i ∧ i < start + 1 + len ∧ i < out.length
      · have b : start ≤ i ∧ i < start + (len + 1) ∧ i < out.length := by omega
        simp only [h3, b, if_true, and_self]
      · have b : ¬ (start ≤ i ∧ i < start + (len + 1) ∧ i < out.length) := by omega
        simp only [h3, b, if_false]

theorem gen_range_length (blake3 : List Nat → List Nat) (base_nonce start end_ : Nat)
    (out : List Record) : (gen_range blake3 base_nonce start end_ out).length = out.length := by
  unfold gen_range
  generalize List.range' start (end_ - start) = l
  induction l generalizing out with
  | nil => rfl
  | cons a l ih =>
    simp only [List.foldl_cons]
    rw [ih, List.length_set]

theorem gen_record_nonce (blake3 : List Nat → List Nat) (v : Nat) :
    (gen_record blake3 (u64 v)).nonce = le_bytes NONCE_SIZE v := by
  have hr : List.range NONCE_SIZE = [0, 1, 2, 3, 4, 5] := by decide
  show encode_nonce (u64 v) (List.replicate NONCE_SIZE 0) = _
  rw [encode_nonce_eq]
  unfold le_bytes u64
  rw [hr]
  simp only [List.map_cons, List.map_nil, List.cons.injEq, and_true]
  norm_num
  refine ⟨?_, ?_, ?_, ?_, ?_⟩ <;> omega

theorem gen_record_hash (blake3 : List Nat → List Nat) (v : Nat) :
    (gen_record blake3 v).hash = (blake3 (gen_record blake3 v).nonce).take HASH_SIZE := by
  show memcpy (List.replicate HASH_SIZE 0)
      (blake3 ((encode_nonce v (List.replicate NONCE_SIZE 0)).take NONCE_SIZE)) HASH_SIZE
    = (blake3 (encode_nonce v (List.replicate NONCE_SIZE 0))).take HASH_SIZE
  rw [encode_nonce_eq]
  unfold memcpy
  have h1 : (List.replicate HASH_SIZE 0).drop HASH_SIZE = ([] : List Nat) := by decide
  rw [h1, List.append_nil]
  rfl

/-- C18. For every `base_nonce`, every `start ≤ end` and every buffer that
holds at least `end` records, after `gen_range(base_nonce, start, end, out)`
the buffer has its length unchanged; for each `i` in `[start, end)` the nonce
of `out[i]` is the `NONCE_SIZE`-byte little-endian encoding of
`base_nonce + i` and its hash is the first `HASH_SIZE` bytes of the digest
that `blake3` gives for exactly those nonce bytes; and every entry outside
`[start, end)` is the one it was. -/
theorem gen_range_effect (blake3 : List Nat → List Nat) (base_nonce start end_ : Nat)
    (out : List Record) (h1 : start ≤ end_) (h2 : end_ ≤ out.length) :
    (gen_range blake3 base_nonce start end_ out).length = out.length ∧
    (∀ i, start ≤ i → i < end_ →
      ∃ r, (gen_range blake3 base_nonce start end_ out)[i]? = some r ∧
        r.nonce = le_bytes NONCE_SIZE (base_nonce + i) ∧
        r.hash = (blake3 (le_bytes NONCE_SIZE (base_nonce + i))).take HASH_SIZE) ∧
    (∀ i, (i < start ∨ end_ ≤ i) →
      (gen_range blake3 base_nonce start end_ out)[i]? = out[i]?) := by
  have hget := foldl_set_getElem? (fun j => gen_record blake3 (u64 (base_nonce + j)))
    (end_ - start) start out
  refine ⟨?_, ?_, ?_⟩
  · exact gen_range_length blake3 base_nonce start end_ out
  · intro i hi1 hi2
    refine ⟨gen_record blake3 (u64 (base_nonce + i)), ?_, gen_record_nonce blake3 _, ?_⟩
    · unfold gen_range
      rw [hget i]
      have : start ≤ i ∧ i < start + (end_ - start) ∧ i < out.length := by omega
      simp only [this, if_true, and_self]
    · rw [gen_record_hash, gen_record_nonce]
  · intro i hi
    unfold gen_range
    rw [hget i]
    have : ¬ (start ≤ i ∧ i < start + (end_ - start) ∧ i < out.length) := by omega
    simp only [this, if_false]


/-- C18, at `base_nonce = 5` and the range `[1, 3)` of a buffer of four records. -/
theorem gen_range_effect_witness :
    (1 ≤ 3 ∧ 3 ≤ (List.replicate 4 zero_record).length) ∧
    (gen_range sample_digest 5 1 3 (List.replicate 4 zero_record)).length
      = (List.replicate 4 zero_record).length ∧
    (∀ i, 1 ≤ i → i < 3 →
      ∃ r, (gen_range sample_digest 5 1 3 (List.replicate 4 zero_record))[i]? = some r ∧
        r.nonce = le_bytes NONCE_SIZE (5 + i) ∧
        r.hash = (sample_digest (le_bytes NONCE_SIZE (5 + i))).take HASH_SIZE) ∧
    (∀ i, (i < 1 ∨ 3 ≤ i) →
      (gen_range sample_digest 5 1 3 (List.replicate 4 zero_record))[i]?
        = (List.replicate 4 zero_record)[i]?) :=
  ⟨by decide,
    gen_range_effect sample_digest 5 1 3 (List.replicate 4 zero_record) (by decide) (by decide)⟩


/-! ## The nonce codec -/

/-- C19. The nonce codec round-trips: for every number `v`, decoding with
the loop of `print_first` the bytes that the encoding loop of `gen_range`
writes for `v` into the nonce of a fresh record yields
`v mod 2^(8 * NONCE_SIZE)`, which is `v` itself when `v` is below
`2^(8 * NONCE_SIZE)`; the bytes are the little-endian digits of `v`, and the
nonce of the record generated for `v` decodes in the same way. -/
theorem nonce_codec_round_trip (blake3 : List Nat → List Nat) (v : Nat) :
    decode_nonce (encode_nonce v (List.replicate NONCE_SIZE 0)) = v % 2 ^ (8 * NONCE_SIZE) ∧
    (v < 2 ^ (8 * NONCE_SIZE) →
      decode_nonce (encode_nonce v (List.replicate NONCE_SIZE 0)) = v) ∧
    encode_nonce (u64 v) (List.replicate NONCE_SIZE 0) = le_bytes NONCE_SIZE v ∧
    decode_nonce (gen_record blake3 (u64 v)).nonce = v % 2 ^ (8 * NONCE_SIZE) := by
  have h48 : 2 ^ (8 * NONCE_SIZE) = 2 ^ 48 := rfl
  have hmod : u64 v % 2 ^ 48 = v % 2 ^ 48 := by
    unfold u64
    exact Nat.mod_mod_of_dvd v (by norm_num)
  rw [h48]
  refine ⟨decode_encode_nonce v, ?_, gen_record_nonce blake3 v, ?_⟩
  · intro hv
    rw [decode_encode_nonce v]
    exact Nat.mod_eq_of_lt hv
  · show decode_nonce (encode_nonce (u64 v) (List.replicate NONCE_SIZE 0)) = _
    rw [decode_encode_nonce, hmod]

/-! ## Bounds along the merge -/

theorem refill_window (B : Nat) (r : RunReader) (h : r.cap = B ∧ r.buf.length ≤ B) :
    r.refill.cap = B ∧ r.refill.buf.length ≤ B := by
  unfold RunReader.refill
  by_cases he : r.eof = true
  · rw [if_pos he]
    exact h
  · rw [if_neg he]
    simp only
    by_cases h0 : (r.inp.take r.cap).length = 0
    · rw [if_pos h0]
      exact ⟨h.1, Nat.zero_le _⟩
    · rw [if_neg h0]
      refine ⟨h.1, ?_⟩
      simp only [List.length_take]
      have := h.1
      omega

theorem pop_window (B : Nat) (r : RunReader) (h : r.cap = B ∧ r.buf.length ≤ B) :
    r.pop.cap = B ∧ r.pop.buf.length ≤ B := by
  unfold RunReader.pop
  simp only
  split
  · exact refill_window B _ h
  · exact h

theorem init_window (B : Nat) (file : List Record) :
    (RunReader.init file B).cap = B ∧ (RunReader.init file B).buf.length ≤ B := by
  unfold RunReader.init
  apply refill_window
  exact ⟨rfl, by simp⟩

theorem push_head_window (B : Nat) (rs : List RunReader) (pq : List Node) (i : Nat)
    (h : WindowInv B rs) : WindowInv B (push_head rs pq i).1 := by
  unfold push_head
  split
  · exact h
  · rename_i rd hrd
    split
    · intro x hx
      rcases List.mem_or_eq_of_mem_set hx with hx | hx
      · exact h x hx
      · rw [hx]
        exact pop_window B rd (h rd (List.getElem?_mem hrd))
    · exact h

theorem push_head_queue (rs : List RunReader) (pq : List Node) (i : Nat) :
    (push_head rs pq i).2 = pq ∨
      (i < rs.length ∧ ∃ x, (push_head rs pq i).2 = pq ++ [⟨x, i⟩]) := by
  unfold push_head
  split
  · exact Or.inl rfl
  · rename_i rd hrd
    split
    · right
      refine ⟨?_, rd.peek, rfl⟩
      by_contra hcon
      rw [List.getElem?_eq_none (by omega)] at hrd
      exact Option.noConfusion hrd
    · exact Or.inl rfl

theorem queue_inv_push (k : Nat) (pq : List Node) (x : Record) (i : Nat) (hi : i < k)
    (h : QueueInv k pq) (hnew : i ∉ pq.map Node.run) : QueueInv k (pq ++ [⟨x, i⟩]) := by
  obtain ⟨h1, h2⟩ := h
  constructor
  · rw [List.map_append, List.map_cons, List.map_nil]
    refine List.nodup_append.2 ⟨h1, List.nodup_singleton _, ?_⟩
    intro a ha hb
    rw [List.mem_singleton] at hb
    subst hb
    exact hnew ha
  · intro n hn
    rcases List.mem_append.1 hn with hn | hn
    · exact h2 n hn
    · rw [List.mem_singleton] at hn
      subst hn
      exact hi

theorem queue_inv_length (k : Nat) (pq : List Node) (h : QueueInv k pq) : pq.length ≤ k := by
  obtain ⟨h1, h2⟩ := h
  have hsub : pq.map Node.run ⊆ List.range k := by
    intro a ha
    obtain ⟨n, hn, rfl⟩ := List.mem_map.1 ha
    exact List.mem_range.2 (h2 n hn)
  have := (List.subperm_of_subset h1 hsub).length_le
  rw [List.length_map, List.length_range] at this
  exact this

theorem seed_states_inv (B : Nat) :
    ∀ n i rs pq, WindowInv B rs → QueueInv i pq → i + n = rs.length →
      (∀ s ∈ seed_states n i rs pq,
        s.1.length = rs.length ∧ WindowInv B s.1 ∧ QueueInv rs.length s.2) ∧
      (seed_loop n i rs pq).1.length = rs.length ∧
      WindowInv B (seed_loop n i rs pq).1 ∧ QueueInv rs.length (seed_loop n i rs pq).2 ∧
      ((rs, pq) :: seed_states n i rs pq).getLast? = some (seed_loop n i rs pq) := by
  intro n
  induction n with
  | zero =>
    intro i rs pq hw hq hlen
    refine ⟨fun s hs => ?_, rfl, hw, ?_, rfl⟩
    · exact absurd hs (List.not_mem_nil _)
    · have : i = rs.length := by omega
      rw [← this]; exact hq
  | succ n ih =>
    intro i rs pq hw hq hlen
    have hlen1 := push_head_length rs pq i
    have hw1 := push_head_window B rs pq i hw
    have hq1 : QueueInv (i + 1) (push_head rs pq i).2 := by
      rcases push_head_queue rs pq i with h | ⟨_, x, h⟩
      · rw [h]
        exact ⟨hq.1, fun n hn => Nat.lt_succ_of_lt (hq.2 n hn)⟩
      · rw [h]
        apply queue_inv_push (i + 1) pq x i (Nat.lt_succ_self i)
        · exact ⟨hq.1, fun n hn => Nat.lt_succ_of_lt (hq.2 n hn)⟩
        · intro hmem
          obtain ⟨m, hm, hmi⟩ := List.mem_map.1 hmem
          have := hq.2 m hm
          omega
    obtain ⟨a, b, c, d, e⟩ := ih (i + 1) (push_head rs pq i).1 (push_head rs pq i).2 hw1 hq1
      (by omega)
    rw [hlen1] at a b d
    simp only [seed_states, seed_loop]
    refine ⟨?_, b, c, d, ?_⟩
    · intro s hs
      rcases List.mem_cons.1 hs with hs | hs
      · subst hs
        refine ⟨hlen1, hw1, hq1.1, fun m hm => ?_⟩
        have := hq1.2 m hm
        omega
      · exact a s hs
    · rw [List.getLast?_cons_cons]
      exact e

theorem merge_step_bounds (B k : Nat) (st : MergeState) (n : Node)
    (hlen : st.readers.length = k) (hw : WindowInv B st.readers) (hq : QueueInv k st.pq)
    (htop : pq_top st.pq = some n) :
    (merge_step B st n).readers.length = k ∧ WindowInv B (merge_step B st n).readers ∧
      QueueInv k (merge_step B st n).pq ∧ (1 ≤ B → (merge_step B st n).outbuf.length < B) := by
  have hperm := pq_pop_perm st.pq n htop
  have hnd : (n.run :: (pq_pop st.pq).map Node.run).Nodup := by
    have := (hperm.map Node.run).nodup_iff.1 hq.1
    rwa [List.map_cons] at this
  have hq0 : QueueInv k (pq_pop st.pq) :=
    ⟨(List.nodup_cons.1 hnd).2, fun m hm => hq.2 m (hperm.symm.subset (List.mem_cons_of_mem _ hm))⟩
  refine ⟨?_, ?_, ?_, ?_⟩
  · simp only [merge_step]
    rw [push_head_length, hlen]
  · simp only [merge_step]
    exact push_head_window B _ _ _ hw
  · simp only [merge_step]
    rcases push_head_queue st.readers (pq_pop st.pq) n.run with h | ⟨hi, x, h⟩
    · rw [h]; exact hq0
    · rw [h]
      exact queue_inv_push k _ x n.run (by omega) hq0 (List.nodup_cons.1 hnd).1
  · intro hB
    simp only [merge_step]
    by_cases hf : (st.outbuf ++ [n.rcd]).length ≥ B
    · simp only [hf, decide_True, if_true, List.length_nil]
      omega
    · simp only [hf, decide_False, Bool.false_eq_true, if_false]
      omega

theorem merge_states_inv (B k : Nat) :
    ∀ fuel st, st.readers.length = k → WindowInv B st.readers → QueueInv k st.pq →
      (∀ s ∈ merge_states B fuel st,
        s.readers.length = k ∧ WindowInv B s.readers ∧ QueueInv k s.pq ∧
          (1 ≤ B → s.outbuf.length < B)) ∧
      ∀ st', merge_loop B fuel st = some st' →
        (st :: merge_states B fuel st).getLast? = some st' ∧ st'.pq = [] := by
  intro fuel
  induction fuel with
  | zero =>
    intro st hlen hw hq
    refine ⟨fun s hs => absurd hs (List.not_mem_nil _), ?_⟩
    intro st' h
    simp only [merge_loop] at h
    cases htop : pq_top st.pq with
    | none =>
      rw [htop] at h
      have := Option.some.inj h
      subst this
      exact ⟨rfl, (pq_top_eq_none _).1 htop⟩
    | some n =>
      rw [htop] at h
      exact Option.noConfusion h
  | succ fuel ih =>
    intro st hlen hw hq
    cases htop : pq_top st.pq with
    | none =>
      simp only [merge_states, merge_loop, htop]
      refine ⟨fun s hs => absurd hs (List.not_mem_nil _), ?_⟩
      intro st' h
      have := Option.some.inj h
      subst this
      exact ⟨rfl, (pq_top_eq_none _).1 htop⟩
    | some n =>
      simp only [merge_states, merge_loop, htop]
      obtain ⟨h1, h2, h3, h4⟩ := merge_step_bounds B k st n hlen hw hq htop
      obtain ⟨a, b⟩ := ih (merge_step B st n) h1 h2 h3
      refine ⟨?_, ?_⟩
      · intro s hs
        rcases List.mem_cons.1 hs with hs | hs
        · subst hs
          exact ⟨h1, h2, h3, h4⟩
        · exact a s hs
      · intro st' h
        rw [List.getLast?_cons_cons]
        exact b st' h

theorem getLast?_append_of_last {α : Type} (A M : List α) (a : α) (h : A.getLast? = some a) :
    (A ++ M).getLast? = (a :: M).getLast? := by
  obtain ⟨ys, rfl⟩ := List.getLast?_eq_some_iff.1 h
  rw [List.append_assoc, List.singleton_append, List.getLast?_append,
    List.getLast?_eq_getLast (a :: M) (List.cons_ne_nil _ _)]
  rfl

/-- C20. Along every call of `merge_runs`, for every merge buffer size `B`: the
number of readers stays the number of runs; the priority queue holds at most
one entry per run, all for runs that exist, so that its size is at most the
number of runs; for `B ≥ 1` the output buffer holds fewer than `B` records
after every loop iteration; and the window of each reader holds at most `B`
records. For `B ≥ 1` the call returns, and the file it writes is the one the
last of these states gives, in which the queue is empty. -/
theorem merge_runs_bounds (runs : List (List Record)) (B : Nat) :
    (∀ st ∈ merge_trace runs B,
      st.readers.length = runs.length ∧
      (st.pq.map Node.run).Nodup ∧ (∀ n ∈ st.pq, n.run < runs.length) ∧
      st.pq.length ≤ runs.length ∧
      (1 ≤ B → st.outbuf.length < B) ∧
      (∀ rd ∈ st.readers, rd.buf.length ≤ B)) ∧
    (1 ≤ B → ∃ final st, merge_runs runs B = some final ∧
      (merge_trace runs B).getLast? = some st ∧ st.pq = [] ∧
      final = if st.outbuf ≠ [] then st.out ++ st.outbuf else st.out) := by
  have hlen0 : (runs.map (fun r => RunReader.init r B)).length = runs.length :=
    List.length_map _ _
  have hw0 : WindowInv B (runs.map (fun r => RunReader.init r B)) := by
    intro rd hrd
    obtain ⟨file, _, rfl⟩ := List.mem_map.1 hrd
    exact init_window B file
  have hq0 : QueueInv 0 ([] : List Node) := ⟨List.nodup_nil, fun n hn => absurd hn (List.not_mem_nil _)⟩
  obtain ⟨sa, sb, sc, sd, se⟩ := seed_states_inv B (runs.map (fun r => RunReader.init r B)).length 0
    (runs.map (fun r => RunReader.init r B)) [] hw0 hq0 (by omega)
  obtain ⟨ma, mb⟩ := merge_states_inv B (runs.map (fun r => RunReader.init r B)).length
    (runs.map List.length).sum
    { readers := (seed_loop (runs.map (fun r => RunReader.init r B)).length 0
        (runs.map (fun r => RunReader.init r B)) []).1,
      pq := (seed_loop (runs.map (fun r => RunReader.init r B)).length 0
        (runs.map (fun r => RunReader.init r B)) []).2,
      outbuf := [], out := [] } sb sc sd
  have hpack : ∀ (rs : List RunReader) (pq : List Node) (ob : List Record),
      rs.length = (runs.map (fun r => RunReader.init r B)).length → WindowInv B rs →
      QueueInv (runs.map (fun r => RunReader.init r B)).length pq →
      (1 ≤ B → ob.length < B) →
      rs.length = runs.length ∧ (pq.map Node.run).Nodup ∧ (∀ n ∈ pq, n.run < runs.length) ∧
        pq.length ≤ runs.length ∧ (1 ≤ B → ob.length < B) ∧ (∀ rd ∈ rs, rd.buf.length ≤ B) := by
    intro rs pq ob h1 h2 h3 h4
    have hl := queue_inv_length _ pq h3
    rw [hlen0] at h1 h3 hl
    exact ⟨h1, h3.1, h3.2, hl, h4, fun rd hrd => (h2 rd hrd).2⟩
  constructor
  · intro st hst
    unfold merge_trace at hst
    simp only at hst
    rcases List.mem_cons.1 hst with hst | hst
    · subst hst
      exact hpack _ _ _ rfl hw0 ⟨List.nodup_nil, fun n hn => absurd hn (List.not_mem_nil _)⟩
        (fun hB => hB)
    · rcases List.mem_append.1 hst with hst | hst
      · obtain ⟨s, hs, rfl⟩ := List.mem_map.1 hst
        obtain ⟨h1, h2, h3⟩ := sa s hs
        exact hpack _ _ _ h1 h2 h3 (fun hB => hB)
      · obtain ⟨h1, h2, h3, h4⟩ := ma st hst
        exact hpack _ _ _ h1 h2 h3 h4
  · intro hB
    obtain ⟨final, hfinal, _⟩ := merge_runs_spec runs B hB
    unfold merge_runs at hfinal
    simp only at hfinal
    cases hml : merge_loop B (runs.map List.length).sum
        { readers := (seed_loop (runs.map (fun r => RunReader.init r B)).length 0
            (runs.map (fun r => RunReader.init r B)) []).1,
          pq := (seed_loop (runs.map (fun r => RunReader.init r B)).length 0
            (runs.map (fun r => RunReader.init r B)) []).2,
          outbuf := [], out := [] } with
    | none =>
      rw [hml] at hfinal
      exact Option.noConfusion hfinal
    | some st' =>
      rw [hml] at hfinal
      obtain ⟨hlast, hpq⟩ := mb st' hml
      refine ⟨final, st', ?_, ?_, hpq, (Option.some.inj hfinal).symm⟩
      · unfold merge_runs
        simp only
        rw [hml]
        exact hfinal
      · unfold merge_trace
        simp only
        rw [← hlast]
        apply getLast?_append_of_last
        have hmap := congrArg (Option.map (fun s : List RunReader × List Node =>
          ({ readers := s.1, pq := s.2, outbuf := [], out := [] } : MergeState))) se
        rw [← List.getLast?_map] at hmap
        exact hmap

/-! ## The bounds of the bisections -/

theorem bisect_loop_bounds (fd : Fd) (p : List Nat → Bool) :
    ∀ fuel lo hi c, lo ≤ hi → hi - lo ≤ fuel →
      (∀ s ∈ bisect_states fd p fuel lo hi,
        lo ≤ s.1 ∧ s.1 < s.2 ∧ s.2 ≤ hi ∧ s.1 ≤ probe_of s ∧ probe_of s < s.2) ∧
      lo ≤ (bisect_exit fd p fuel lo hi).1 ∧
      (bisect_exit fd p fuel lo hi).1 ≤ (bisect_exit fd p fuel lo hi).2 ∧
      (bisect_exit fd p fuel lo hi).2 ≤ hi ∧
      ∃ c', bisect_loop fd p fuel lo hi c = some ((bisect_exit fd p fuel lo hi).1, c') := by
  intro fuel
  induction fuel with
  | zero =>
    intro lo hi c hle hf
    have hnot : ¬ lo < hi := by omega
    refine ⟨fun s hs => absurd hs (List.not_mem_nil _), Nat.le_refl _, hle, Nat.le_refl _, c, ?_⟩
    simp only [bisect_loop, bisect_exit, hnot, if_false]
  | succ n ih =>
    intro lo hi c hle hf
    by_cases hlt : lo < hi
    · have hdiv : (hi - lo) >>> 1 = (hi - lo) / 2 := by
        simp [Nat.shiftRight_eq_div_pow]
      have hhere : lo ≤ (lo, hi).1 ∧ (lo, hi).1 < (lo, hi).2 ∧ (lo, hi).2 ≤ hi ∧
          (lo, hi).1 ≤ probe_of (lo, hi) ∧ probe_of (lo, hi) < (lo, hi).2 := by
        simp only [probe_of, hdiv]
        omega
      simp only [bisect_loop, bisect_states, bisect_exit, hlt, if_true, hdiv]
      cases hr : read_hash_at fd (lo + (hi - lo) / 2) with
      | none =>
        refine ⟨?_, Nat.le_refl _, hle, Nat.le_refl _, _, rfl⟩
        intro s hs
        rw [List.mem_singleton] at hs
        subst hs
        exact hhere
      | some h1 =>
        have key : ∀ lo' hi', lo ≤ lo' → lo' ≤ hi' → hi' ≤ hi → hi' - lo' ≤ n →
            (∀ s ∈ (lo, hi) :: bisect_states fd p n lo' hi',
              lo ≤ s.1 ∧ s.1 < s.2 ∧ s.2 ≤ hi ∧ s.1 ≤ probe_of s ∧ probe_of s < s.2) ∧
            lo ≤ (bisect_exit fd p n lo' hi').1 ∧
            (bisect_exit fd p n lo' hi').1 ≤ (bisect_exit fd p n lo' hi').2 ∧
            (bisect_exit fd p n lo' hi').2 ≤ hi ∧
            ∃ c', bisect_loop fd p n lo' hi'
                { comps := c.comps + 1, seeks := c.seeks + 1, reads_ok := c.reads_ok + 1 }
              = some ((bisect_exit fd p n lo' hi').1, c') := by
          intro lo' hi' h1 h2 h3 h4
          obtain ⟨a, b, d, e, g⟩ := ih lo' hi'
            { comps := c.comps + 1, seeks := c.seeks + 1, reads_ok := c.reads_ok + 1 } h2 h4
          refine ⟨?_, by omega, d, by omega, g⟩
          intro s hs
          rcases List.mem_cons.1 hs with hs | hs
          · subst hs
            exact hhere
          · obtain ⟨a1, a2, a3, a4, a5⟩ := a s hs
            exact ⟨by omega, a2, by omega, a4, a5⟩
        by_cases hp : p h1 = true
        · simp only [hp, if_true]
          exact key _ _ (by omega) (by omega) (Nat.le_refl _) (by omega)
        · simp only [hp]
          exact key _ _ (Nat.le_refl _) (by omega) (by omega) (by omega)
    · have hexit : bisect_exit fd p (n + 1) lo hi = (lo, hi) := by
        simp only [bisect_exit, hlt, if_false]
      rw [hexit]
      refine ⟨?_, Nat.le_refl _, hle, Nat.le_refl _, c, ?_⟩
      · simp only [bisect_states, hlt, if_false]
        exact fun s hs => absurd hs (List.not_mem_nil _)
      · simp only [bisect_loop, hlt, if_false]

theorem probe_offset_in_file (N : Nat) (s : Nat × Nat) (hN : N * REC_SIZE < 2 ^ 63)
    (hs : probe_of s < N) :
    to_off_t (probe_of s * REC_SIZE) = ((probe_of s * REC_SIZE : Nat) : Int) ∧
      probe_of s * REC_SIZE + REC_SIZE ≤ N * REC_SIZE := by
  have h16 : REC_SIZE = 16 := rfl
  rw [h16] at hN ⊢
  have hlt : probe_of s * 16 < 2 ^ 63 := by omega
  constructor
  · unfold to_off_t
    have h1 : probe_of s * 16 % 2 ^ 64 = probe_of s * 16 := Nat.mod_eq_of_lt (by omega)
    rw [h1, if_pos hlt]
  · omega

/-- C21. For every `N`, every key and every descriptor (file sorted or not,
reads succeeding or failing), in a call of `lower_bound_fd` and in a call of
`upper_bound_fd`: each iteration is entered with `0 ≤ lo < hi ≤ N` and probes
the record index `mid` with `lo ≤ mid < hi`, so `mid < N`; the loop is left
with `lo ≤ hi ≤ N`; and the call returns that `lo`, a value in `[0, N]`. No
value exceeds `N`, so none wraps in 64 bits when `N` is a `uint64_t`. With
`N = 0` there is no probe, and 0 is returned with the counters unchanged.
When the `N` records lie below byte `2^63` (as for the `N` that `main`
derives from the file size), the byte offset of each probe is the product
`mid * REC_SIZE` itself and the read ends within the first `N` records. -/
theorem bisection_bounds_safe (fd : Fd) (N : Nat) (key : List Nat) (c : Counters) :
    ((∀ s ∈ lower_bound_states fd N key,
        0 ≤ s.1 ∧ s.1 < s.2 ∧ s.2 ≤ N ∧
          s.1 ≤ probe_of s ∧ probe_of s < s.2 ∧ 0 ≤ probe_of s ∧ probe_of s < N) ∧
      (lower_bound_exit fd N key).1 ≤ (lower_bound_exit fd N key).2 ∧
      (lower_bound_exit fd N key).2 ≤ N ∧
      ∃ r c', lower_bound_fd fd N key c = some (r, c') ∧
        r = (lower_bound_exit fd N key).1 ∧ 0 ≤ r ∧ r ≤ N) ∧
    ((∀ s ∈ upper_bound_states fd N key,
        0 ≤ s.1 ∧ s.1 < s.2 ∧ s.2 ≤ N ∧
          s.1 ≤ probe_of s ∧ probe_of s < s.2 ∧ 0 ≤ probe_of s ∧ probe_of s < N) ∧
      (upper_bound_exit fd N key).1 ≤ (upper_bound_exit fd N key).2 ∧
      (upper_bound_exit fd N key).2 ≤ N ∧
      ∃ r c', upper_bound_fd fd N key c = some (r, c') ∧
        r = (upper_bound_exit fd N key).1 ∧ 0 ≤ r ∧ r ≤ N) ∧
    (lower_bound_states fd 0 key = [] ∧ lower_bound_fd fd 0 key c = some (0, c)) ∧
    (upper_bound_states fd 0 key = [] ∧ upper_bound_fd fd 0 key c = some (0, c)) ∧
    (N * REC_SIZE < 2 ^ 63 →
      ∀ s, s ∈ lower_bound_states fd N key ∨ s ∈ upper_bound_states fd N key →
        to_off_t (probe_of s * REC_SIZE) = ((probe_of s * REC_SIZE : Nat) : Int) ∧
        probe_of s * REC_SIZE + REC_SIZE ≤ N * REC_SIZE) := by
  obtain ⟨la, _, lc, ld, lc', le⟩ :=
    bisect_loop_bounds fd (fun h => decide (cmp_hash h key < 0)) N 0 N c (Nat.zero_le _)
      (by omega)
  obtain ⟨ua, _, uc, ud, uc', ue⟩ :=
    bisect_loop_bounds fd (fun h => decide (cmp_hash h key ≤ 0)) N 0 N c (Nat.zero_le _)
      (by omega)
  have hl : ∀ s ∈ lower_bound_states fd N key,
      0 ≤ s.1 ∧ s.1 < s.2 ∧ s.2 ≤ N ∧
        s.1 ≤ probe_of s ∧ probe_of s < s.2 ∧ 0 ≤ probe_of s ∧ probe_of s < N := by
    intro s hs
    obtain ⟨a1, a2, a3, a4, a5⟩ := la s hs
    exact ⟨a1, a2, a3, a4, a5, Nat.zero_le _, by omega⟩
  have hu : ∀ s ∈ upper_bound_states fd N key,
      0 ≤ s.1 ∧ s.1 < s.2 ∧ s.2 ≤ N ∧
        s.1 ≤ probe_of s ∧ probe_of s < s.2 ∧ 0 ≤ probe_of s ∧ probe_of s < N := by
    intro s hs
    obtain ⟨a1, a2, a3, a4, a5⟩ := ua s hs
    exact ⟨a1, a2, a3, a4, a5, Nat.zero_le _, by omega⟩
  refine ⟨⟨hl, lc, ld, _, lc', ?_, rfl, Nat.zero_le _, ?_⟩,
    ⟨hu, uc, ud, _, uc', ?_, rfl, Nat.zero_le _, ?_⟩, ⟨rfl, rfl⟩, ⟨rfl, rfl⟩, ?_⟩
  · rw [lower_bound_fd, lower_bound_loop_eq_bisect]; exact le
  · exact Nat.le_trans lc ld
  · rw [upper_bound_fd, upper_bound_loop_eq_bisect]; exact ue
  · exact Nat.le_trans uc ud
  · intro hN s hs
    rcases hs with hs | hs
    · exact probe_offset_in_file N s hN (hl s hs).2.2.2.2.2.2
    · exact probe_offset_in_file N s hN (hu s hs).2.2.2.2.2.2

end HashSort
